import Mathlib

/-! argo-render: the templated rendering pipeline.

A shallow embedding of the Go packages `pkg/kv`, `pkg/template`, `pkg/config`,
`pkg/helm`, `pkg/kustomize` and `pkg/pipeline`, with the properties of the
specification proved about it.

Conventions of the embedding.

* A Go function returning `(T, error)` is a function into `Except String T`;
  the error is its message, built the way `fmt.Errorf` builds it.  Where a Go
  function can also panic, it is a function into `Outcome`.
* A Go `map[string]V` is an association list kept in strictly increasing key
  order (`mapSet`, `mapGet`), so that equal maps are equal lists.
* A JSON text is represented by its syntax tree (`Json`).  The lexer of
  `encoding/json` is outside the repository; `jsonOf` is the byte string's
  tree, `none` when the bytes are not one JSON value.
* Third-party functions are followed step by step where the specification
  speaks of what they do; what they do with binary floating point, with
  Unicode normalisation and with the `cty` types that the specification does
  not name is taken as given (the fields of `Lib`).
-/

namespace ArgoRender

/-! ## Go values -/

/-- What a Go call ends with: a value, a returned error, or a run-time panic. -/
inductive Outcome (α : Type) where
  | ok (a : α)
  | error (msg : String)
  | panic (msg : String)

/-- A Go `[]byte`: `none` is the nil slice, `some []` an empty, non-nil slice. -/
abbrev Bytes := Option (List UInt8)

/-! ## Go maps with string keys -/

/-- Lexicographic order on character sequences, by code point (which is the
byte order of their UTF-8 encodings). -/
def ltChars : List Char → List Char → Bool
  | _, [] => false
  | [], _ :: _ => true
  | a :: as, b :: bs =>
    decide (a.toNat < b.toNat) || (decide (a.toNat = b.toNat) && ltChars as bs)

/-- The order in which map keys are kept. -/
def keyLt (a b : String) : Bool := ltChars a.data b.data

/-- The map lookup `m[k]`, with `none` for an absent key. -/
def mapGet {α : Type} (k : String) : List (String × α) → Option α
  | [] => none
  | (k', v) :: rest => if k = k' then some v else mapGet k rest

/-- The map assignment `m[k] = v`: replaces the entry of `k` or inserts one. -/
def mapSet {α : Type} (k : String) (v : α) : List (String × α) → List (String × α)
  | [] => [(k, v)]
  | (k', v') :: rest =>
    if keyLt k k' then (k, v) :: (k', v') :: rest
    else if k = k' then (k, v) :: rest
    else (k', v') :: mapSet k v rest

/-- The keys of a map are strictly increasing. -/
def KeysSorted {α : Type} (m : List (String × α)) : Prop :=
  m.Pairwise (fun a b => keyLt a.1 b.1 = true)

/-! ## JSON -/

/-- The syntax tree of a JSON text.  A number keeps its literal, an object its
members in the order written, repeated names included. -/
inductive Json where
  | null
  | bool (b : Bool)
  | num (lit : String)
  | str (s : String)
  | arr (items : List Json)
  | obj (members : List (String × Json))

/-! ## The libraries

`RemoteTerraformState.Get` calls `encoding/json` and `go-cty`; what these do
with binary floating point, with Unicode normalisation, and with the types of
`cty` that are outside the fragment followed step by step below, is taken as
given: the fields of `Lib`.  `B` stands for the numbers of `cty` (`big.Float`
of 512 bits, the infinities among them), `F` for the finite values of
`float64`. -/

/-- The library functions that are taken as given. -/
structure Lib (B F : Type) where
  /-- The call `cty.ParseNumberVal(s)`, which is `big.ParseFloat(s, 10, 512,
  big.ToNearestEven)`: the number a text denotes, `none` when the text is
  rejected. -/
  parseNumberVal : String → Option B
  /-- The text `ctyjson.Marshal` writes for a number, `big.Float.Text('f', -1)`;
  `none` for an infinity, which it refuses to write. -/
  numberText : B → Option String
  /-- The call `strconv.ParseFloat(s, 64)` that `json.Unmarshal` makes for a
  number stored into an `any`: `none` when it returns an error, as it does for
  a number outside the range of `float64`. -/
  parseFloat : String → Option F
  /-- The text `json.Marshal` writes for a `float64`. -/
  formatFloat : F → String
  /-- The call `norm.NFC.String(s)`, by which `cty.StringVal` brings a string to
  Unicode normalisation form C. -/
  nfc : String → String
  /-- The call `ctyjson.UnmarshalType` on a description outside the fragment:
  the error it returns, `none` when it returns a type. -/
  otherType : Json → Option String
  /-- The calls `ctyjson.Unmarshal` and then `ctyjson.Marshal` at a type outside
  the fragment, given by its description, on the text of a value (`none` for
  no text at all): what `Unmarshal` ends with and, when that is a value, what
  `Marshal` ends with for this value. -/
  otherValue : Json → Option Json → Outcome (Outcome Json)

/-- What `json.Unmarshal` stores in an `any`: `nil`, `bool`, `float64`,
`string`, `[]any` or `map[string]any`. -/
inductive Plain (F : Type) where
  | null
  | bool (b : Bool)
  | num (n : F)
  | str (s : String)
  | arr (items : List (Plain F))
  | obj (members : List (String × Plain F))

mutual
/-- The call `json.Unmarshal(text, new(any))`. -/
def jsonUnmarshalAny {B F : Type} (L : Lib B F) : Json → Except String (Plain F)
  | .null => .ok .null
  | .bool b => .ok (.bool b)
  | .num lit =>
    match L.parseFloat lit with
    | some n => .ok (.num n)
    | none => .error ("json: cannot unmarshal number " ++ lit ++ " into Go value of type float64")
  | .str s => .ok (.str s)
  | .arr items =>
    match jsonUnmarshalAnyList L items with
    | .ok ps => .ok (.arr ps)
    | .error e => .error e
  | .obj members =>
    match jsonUnmarshalAnyMembers L members [] with
    | .ok m => .ok (.obj m)
    | .error e => .error e
/-- The elements of an array, in order. -/
def jsonUnmarshalAnyList {B F : Type} (L : Lib B F) :
    List Json → Except String (List (Plain F))
  | [] => .ok []
  | j :: rest =>
    match jsonUnmarshalAny L j with
    | .error e => .error e
    | .ok p =>
      match jsonUnmarshalAnyList L rest with
      | .error e => .error e
      | .ok ps => .ok (p :: ps)
/-- The members of an object, stored into the map in the order written, so
that the last of two members of one name is the one kept. -/
def jsonUnmarshalAnyMembers {B F : Type} (L : Lib B F) :
    List (String × Json) → List (String × Plain F) → Except String (List (String × Plain F))
  | [], acc => .ok acc
  | (k, j) :: rest, acc =>
    match jsonUnmarshalAny L j with
    | .error e => .error e
    | .ok p => jsonUnmarshalAnyMembers L rest (mapSet k p acc)
end

mutual
/-- The call `json.Marshal(v)` for a decoded value; object members are written
in key order. -/
def jsonMarshal {B F : Type} (L : Lib B F) : Plain F → Json
  | .null => .null
  | .bool b => .bool b
  | .num n => .num (L.formatFloat n)
  | .str s => .str s
  | .arr items => .arr (jsonMarshalList L items)
  | .obj members => .obj (jsonMarshalMembers L members)
/-- The elements of a slice. -/
def jsonMarshalList {B F : Type} (L : Lib B F) : List (Plain F) → List Json
  | [] => []
  | p :: rest => jsonMarshal L p :: jsonMarshalList L rest
/-- The entries of a map. -/
def jsonMarshalMembers {B F : Type} (L : Lib B F) :
    List (String × Plain F) → List (String × Json)
  | [] => []
  | (k, p) :: rest => (k, jsonMarshal L p) :: jsonMarshalMembers L rest
end

/-! ## The `cty` type and value language

Package `cty` is a dependency of the repository.  The embedding follows it
step by step on the types that the specification names: the primitive types,
`list` and `object` (`CtyType`).  Every other type description, the ones the
library refuses as well as the ones it takes (`dynamic`, `map`, `set`, `tuple`,
optional attributes, attribute names that normalisation changes), is left to
`Lib.otherType` and `Lib.otherValue`. -/

/-- A `cty.Type` of the fragment. -/
inductive CtyType where
  | bool
  | number
  | string
  | list (elem : CtyType)
  | object (atys : List (String × CtyType))

/-- A `cty.Value` of a type of the fragment; `null` is `cty.NullVal` of any
type, a string is held normalised. -/
inductive CtyVal (B : Type) where
  | null
  | bool (b : Bool)
  | number (n : B)
  | string (s : String)
  | list (items : List (CtyVal B))
  | object (attrs : List (String × CtyVal B))

mutual
/-- The type that `ctyjson.UnmarshalType(buf)` returns for a description of the
fragment: a primitive type name, `["list", elem]` or `["object", {name: type}]`
with attribute names that `cty.Object` keeps as they are.  `none` for every
other text. -/
def knownType (nfc : String → String) : Json → Option CtyType
  | .str s =>
    if s = "bool" then some .bool
    else if s = "number" then some .number
    else if s = "string" then some .string
    else none
  | .arr [.str kind, .obj members] =>
    if kind = "object" then
      match knownAttrTypes nfc members [] with
      | some atys => some (.object atys)
      | none => none
    else none
  | .arr [.str kind, elem] =>
    if kind = "list" then
      match knownType nfc elem with
      | some ety => some (.list ety)
      | none => none
    else none
  | _ => none
/-- The attribute types of an object type, decoded into a `map[string]Type`. -/
def knownAttrTypes (nfc : String → String) :
    List (String × Json) → List (String × CtyType) → Option (List (String × CtyType))
  | [], acc => some acc
  | (k, j) :: rest, acc =>
    if nfc k = k then
      match knownType nfc j with
      | none => none
      | some ty => knownAttrTypes nfc rest (mapSet k ty acc)
    else none
end

/-- A `cty.Type` as `ctyjson.UnmarshalType` returns it: a type of the fragment,
or another type, held as its description. -/
inductive AnyType where
  | known (t : CtyType)
  | other (description : Json)

/-- A `cty.Value` as `ctyjson.Unmarshal` returns it: a value of a type of the
fragment, or a value of another type, held as what `ctyjson.Marshal` ends with
for it. -/
inductive AnyVal (B : Type) where
  | known (v : CtyVal B)
  | other (marshaled : Outcome Json)

/-- The call `ctyjson.UnmarshalType(buf)` on the text of a type description. -/
def ctyjson.UnmarshalType {B F : Type} (L : Lib B F) (buf : Json) : Except String AnyType :=
  match knownType L.nfc buf with
  | some t => .ok (.known t)
  | none =>
    match L.otherType buf with
    | some err => .error err
    | none => .ok (.other buf)

/-- The end of `unmarshalObject`: every attribute of the type that the text
did not give is null. -/
def ctyjson.fillMissing {B : Type} :
    List (String × CtyType) → List (String × CtyVal B) → List (String × CtyVal B)
  | [], vals => vals
  | (k, _) :: rest, vals =>
    match mapGet k vals with
    | some _ => ctyjson.fillMissing rest vals
    | none => ctyjson.fillMissing rest (mapSet k .null vals)

mutual
/-- The function `unmarshal` of `ctyjson` at a type of the fragment: the value
of type `t` that a JSON text encodes.  A null token is the null value of the
type; a number may come as a string, a bool as one of the strings `true`, `1`,
`false`, `0`, and a string as a number (its literal) or a bool.  Every string
value is made by `cty.StringVal`, which normalises it. -/
def ctyjson.unmarshal {B F : Type} (L : Lib B F) : Json → CtyType → Except String (CtyVal B)
  | .null, _ => .ok .null
  | .bool b, .bool => .ok (.bool b)
  | .str s, .bool =>
    if L.nfc s = "true" ∨ L.nfc s = "1" then .ok (.bool true)
    else if L.nfc s = "false" ∨ L.nfc s = "0" then .ok (.bool false)
    else .error "a bool is required"
  | .num lit, .number =>
    match L.parseNumberVal lit with
    | some n => .ok (.number n)
    | none => .error "a number is required"
  | .str s, .number =>
    match L.parseNumberVal s with
    | some n => .ok (.number n)
    | none => .error "a number is required"
  | .str s, .string => .ok (.string (L.nfc s))
  | .num lit, .string => .ok (.string (L.nfc lit))
  | .bool b, .string => .ok (.string (L.nfc (if b then "true" else "false")))
  | .arr items, .list ety =>
    match ctyjson.unmarshalList L items ety with
    | .ok vs => .ok (.list vs)
    | .error e => .error e
  | .obj members, .object atys =>
    match ctyjson.unmarshalObject L members atys [] with
    | .ok vals => .ok (.object (ctyjson.fillMissing atys vals))
    | .error e => .error e
  | _, .bool => .error "bool is required"
  | _, .number => .error "number is required"
  | _, .string => .error "string is required"
  | _, .list _ => .error "a list is required"
  | _, .object _ => .error "an object is required"
/-- The elements of a list, each of the element type. -/
def ctyjson.unmarshalList {B F : Type} (L : Lib B F) :
    List Json → CtyType → Except String (List (CtyVal B))
  | [], _ => .ok []
  | j :: rest, ety =>
    match ctyjson.unmarshal L j ety with
    | .error e => .error e
    | .ok v =>
      match ctyjson.unmarshalList L rest ety with
      | .error e => .error e
      | .ok vs => .ok (v :: vs)
/-- The members of an object, each of the type of the attribute it names; a
name that is no attribute of the type is an error. -/
def ctyjson.unmarshalObject {B F : Type} (L : Lib B F) :
    List (String × Json) → List (String × CtyType) → List (String × CtyVal B) →
    Except String (List (String × CtyVal B))
  | [], _, vals => .ok vals
  | (k, j) :: rest, atys, vals =>
    match mapGet k atys with
    | none => .error ("unsupported attribute " ++ k)
    | some aty =>
      match ctyjson.unmarshal L j aty with
      | .error e => .error e
      | .ok el => ctyjson.unmarshalObject L rest atys (mapSet k el vals)
end

/-- The call `ctyjson.Unmarshal(buf, t)`; `buf` is `none` for a nil message,
which has no token to read. -/
def ctyjson.Unmarshal {B F : Type} (L : Lib B F) (buf : Option Json) :
    AnyType → Outcome (AnyVal B)
  | .known t =>
    match buf with
    | none => .error "EOF"
    | some text =>
      match ctyjson.unmarshal L text t with
      | .error err => .error err
      | .ok v => .ok (.known v)
  | .other description =>
    match L.otherValue description buf with
    | .panic msg => .panic msg
    | .error err => .error err
    | .ok marshaled => .ok (.other marshaled)

/-- Apply a fallible function to every element, stopping at the first error. -/
def mapExcept {α β : Type} (f : α → Except String β) : List α → Except String (List β)
  | [] => .ok []
  | a :: rest =>
    match f a with
    | .error e => .error e
    | .ok b =>
      match mapExcept f rest with
      | .error e => .error e
      | .ok bs => .ok (b :: bs)

mutual
/-- The function `marshal` of `ctyjson` at a type of the fragment: the JSON
text of a value of type `t`.  The library takes the value to conform to the
type (and panics otherwise); the value here always comes from
`ctyjson.unmarshal` at the same type, and the other cases are an error. -/
def ctyjson.marshal {B F : Type} (L : Lib B F) : CtyVal B → CtyType → Except String Json
  | .null, _ => .ok .null
  | .string s, .string => .ok (.str s)
  | .number n, .number =>
    match L.numberText n with
    | some text => .ok (.num text)
    | none => .error "cannot serialize infinity as JSON"
  | .bool b, .bool => .ok (.bool b)
  | .list items, .list ety =>
    match mapExcept (fun v => ctyjson.marshal L v ety) items with
    | .ok js => .ok (.arr js)
    | .error e => .error e
  | .object attrs, .object atys =>
    match ctyjson.marshalAttrs L attrs atys with
    | .ok members => .ok (.obj members)
    | .error e => .error e
  | _, _ => .error "value does not conform to the type"
/-- The attributes of an object, written in the order of the attribute names. -/
def ctyjson.marshalAttrs {B F : Type} (L : Lib B F) (attrs : List (String × CtyVal B)) :
    List (String × CtyType) → Except String (List (String × Json))
  | [] => .ok []
  | (k, aty) :: rest =>
    match mapGet k attrs with
    | none => .error ("missing attribute " ++ k)
    | some v =>
      match ctyjson.marshal L v aty with
      | .error e => .error e
      | .ok j =>
        match ctyjson.marshalAttrs L attrs rest with
        | .error e => .error e
        | .ok js => .ok ((k, j) :: js)
end

/-- The call `ctyjson.Marshal(val, t)`, for a value that `ctyjson.Unmarshal`
returned at the same type. -/
def ctyjson.Marshal {B F : Type} (L : Lib B F) : AnyVal B → AnyType → Outcome Json
  | .known v, .known t =>
    match ctyjson.marshal L v t with
    | .error err => .error err
    | .ok text => .ok text
  | .other marshaled, .other _ => marshaled
  | _, _ => .panic "value does not conform to the type"

/-! ## `pkg/kv/terraform.go`: the state document -/

/-- The struct `tfOutputValue`: the two raw messages of an output.  A raw
message is the text of one JSON value; `none` is the nil message of a field the
document did not give. -/
structure tfOutputValue where
  Value : Option Json
  ValueType : Option Json

/-- The struct `terraformState`; the entries of `Outputs` are pointers, `none`
being the nil pointer. -/
structure terraformState where
  Outputs : List (String × Option tfOutputValue)

/-- Case folding of `encoding/json` for one character, on the characters that
fold to an ASCII letter: the upper-case ASCII letters, U+017F (to `s`) and
U+212A (to `k`). -/
def foldChar (c : Char) : Char :=
  if 65 ≤ c.toNat ∧ c.toNat ≤ 90 then Char.ofNat (c.toNat + 32)
  else if c.toNat = 0x17F then 's'
  else if c.toNat = 0x212A then 'k'
  else c

/-- Whether an object member named `key` is stored into the struct field tagged
`name`: `encoding/json` matches names up to case.  The tags of this package are
lower-case ASCII. -/
def equalFold (key name : String) : Bool :=
  decide (key.data.map foldChar = name.data.map foldChar)

/-- The members of one output, stored into the fields tagged `value` and
`type`; other members are skipped. -/
def unmarshalFields : List (String × Json) → tfOutputValue → tfOutputValue
  | [], acc => acc
  | (k, v) :: rest, acc =>
    if equalFold k "value" then unmarshalFields rest { acc with Value := some v }
    else if equalFold k "type" then unmarshalFields rest { acc with ValueType := some v }
    else unmarshalFields rest acc

/-- One entry of `outputs`, decoded into a `*tfOutputValue`: JSON null is the
nil pointer, an object a new struct, anything else a type error. -/
def unmarshalOutput : Json → Except String (Option tfOutputValue)
  | .null => .ok none
  | .obj fields => .ok (some (unmarshalFields fields { Value := none, ValueType := none }))
  | _ => .error "json: cannot unmarshal into Go value of type kv.tfOutputValue"

/-- The members of `outputs`, stored into the map in the order written. -/
def unmarshalOutputs :
    List (String × Json) → List (String × Option tfOutputValue) →
    Except String (List (String × Option tfOutputValue))
  | [], acc => .ok acc
  | (k, v) :: rest, acc =>
    match unmarshalOutput v with
    | .error e => .error e
    | .ok o => unmarshalOutputs rest (mapSet k o acc)

/-- The members of the document, stored into the struct: a member named
`outputs` is decoded into the map (null empties it), other members are
skipped. -/
def unmarshalStateMembers : List (String × Json) → terraformState → Except String terraformState
  | [], st => .ok st
  | (k, v) :: rest, st =>
    if equalFold k "outputs" then
      match v with
      | .null => unmarshalStateMembers rest { Outputs := [] }
      | .obj outs =>
        match unmarshalOutputs outs st.Outputs with
        | .error e => .error e
        | .ok m => unmarshalStateMembers rest { Outputs := m }
      | _ => .error "json: cannot unmarshal into Go struct field terraformState.outputs"
    else unmarshalStateMembers rest st

/-- The call `json.Unmarshal(data, tfState)` on a document that is JSON; a null
document leaves the struct as it is.  (`encoding/json` goes on after a type
error and reports it at the end; the struct is not used then.) -/
def unmarshalState (doc : Json) (tfState : terraformState) : Except String terraformState :=
  match doc with
  | .null => .ok tfState
  | .obj members => unmarshalStateMembers members tfState
  | _ => .error "json: cannot unmarshal into Go value of type kv.terraformState"

/-- One output of the loop in `RemoteTerraformState.Get`, from the type and the
value text to the decoded result value. -/
def decodeOutput {B F : Type} (L : Lib B F) (fullKey : String) (rawValue : tfOutputValue) :
    Outcome (Plain F) :=
  match rawValue.ValueType with
  | none => .error ("failed to unmarshal ctyType " ++ fullKey ++ ": EOF")
  | some tyText =>
    match ctyjson.UnmarshalType L tyText with
    | .error err => .error ("failed to unmarshal ctyType " ++ fullKey ++ ": " ++ err)
    | .ok ctyType =>
      match ctyjson.Unmarshal L rawValue.Value ctyType with
      | .panic msg => .panic msg
      | .error err => .error ("failed to unmarshal ctyValue " ++ fullKey ++ ": " ++ err)
      | .ok ctyValue =>
        match ctyjson.Marshal L ctyValue ctyType with
        | .panic msg => .panic msg
        | .error err => .error ("failed to marshal ctyValue " ++ fullKey ++ ": " ++ err)
        | .ok ctyValueJson =>
          match jsonUnmarshalAny L ctyValueJson with
          | .error err =>
            .error ("failed to unmarshal marshaled ctyValue " ++ fullKey ++ ": " ++ err)
          | .ok resultValue => .ok resultValue

/-- The loop `for key, rawValue := range tfState.Outputs` of
`RemoteTerraformState.Get`, over the entries not yet visited; reading a field
of a nil entry panics. -/
def decodeOutputs {B F : Type} (L : Lib B F) (fullKey : String) :
    List (String × Option tfOutputValue) → List (String × Plain F) →
    Outcome (List (String × Plain F))
  | [], intermediateResult => .ok intermediateResult
  | (_, none) :: _, _ =>
    .panic "runtime error: invalid memory address or nil pointer dereference"
  | (key, some rawValue) :: rest, intermediateResult =>
    match decodeOutput L fullKey rawValue with
    | .panic msg => .panic msg
    | .error err => .error err
    | .ok resultValue => decodeOutputs L fullKey rest (mapSet key resultValue intermediateResult)

/-- The method `RemoteTerraformState.Get`: fetch the document, decode every
output under its type, and return the outputs as one mapping.  The loop visits
the outputs in key order, one of the orders a Go map can be ranged in.
(`json.Marshal` of the decoded values has no error case; the final
`json.Unmarshal` is into a `map[string]any`.) -/
def RemoteTerraformState.Get {B F : Type} (L : Lib B F) (jsonOf : Bytes → Option Json)
    (fetcher : String → Except String Bytes) (fullKey : String) :
    Outcome (List (String × Plain F)) :=
  match fetcher fullKey with
  | .error err => .error ("failed to fetch object " ++ fullKey ++ ": " ++ err)
  | .ok data =>
    match jsonOf data with
    | none => .error ("failed to unmarshal object " ++ fullKey ++ ": invalid character")
    | some doc =>
      match unmarshalState doc { Outputs := [] } with
      | .error err => .error ("failed to unmarshal object " ++ fullKey ++ ": " ++ err)
      | .ok tfState =>
        match decodeOutputs L fullKey tfState.Outputs [] with
        | .panic msg => .panic msg
        | .error err => .error err
        | .ok intermediateResult =>
          match jsonUnmarshalAny L (jsonMarshal L (.obj intermediateResult)) with
          | .error err => .error ("failed to unmarshal intermediateResult: " ++ err)
          | .ok (.obj result) => .ok result
          | .ok _ => .error "failed to unmarshal intermediateResult: not an object"

/-! ### The decoding the specification describes -/

/-- The `float64` of the number that a numeric text denotes: the number as
`cty` reads it, written out and read as a `float64`.  `none` when the text is
no number, or the number is infinite or outside the range of `float64`. -/
def floatOf {B F : Type} (L : Lib B F) (text : String) : Option F :=
  match L.parseNumberVal text with
  | none => none
  | some n =>
    match L.numberText n with
    | none => none
    | some written => L.parseFloat written

mutual
/-- The plain value of a JSON value under a type of the fragment, in the words
of the specification: an object is a mapping with the attributes of the type, a
list a sequence, a string a string (normalised), a number or a bool the native
value also when the text gives it as a string, null is null.  `none` when the
value is not valid for the type. -/
def plainUnder {B F : Type} (L : Lib B F) : Json → CtyType → Option (Plain F)
  | .null, _ => some .null
  | .str s, .string => some (.str (L.nfc s))
  | .num lit, .number => (floatOf L lit).map .num
  | .str s, .number => (floatOf L s).map .num
  | .bool b, .bool => some (.bool b)
  | .str s, .bool =>
    if L.nfc s = "true" then some (.bool true)
    else if L.nfc s = "false" then some (.bool false)
    else none
  | .arr items, .list ety => (plainUnderList L items ety).map .arr
  | .obj members, .object atys =>
    if atys.all (fun a => members.any (fun m => decide (m.1 = a.1))) then
      (plainUnderMembers L members atys []).map .obj
    else none
  | _, _ => none
/-- The elements of a list. -/
def plainUnderList {B F : Type} (L : Lib B F) : List Json → CtyType → Option (List (Plain F))
  | [], _ => some []
  | j :: rest, ety =>
    match plainUnder L j ety, plainUnderList L rest ety with
    | some p, some ps => some (p :: ps)
    | _, _ => none
/-- The members of an object, each under the type of the attribute it names. -/
def plainUnderMembers {B F : Type} (L : Lib B F) :
    List (String × Json) → List (String × CtyType) → List (String × Plain F) →
    Option (List (String × Plain F))
  | [], _, acc => some acc
  | (k, j) :: rest, atys, acc =>
    match mapGet k atys with
    | none => none
    | some aty =>
      match plainUnder L j aty with
      | none => none
      | some p => plainUnderMembers L rest atys (mapSet k p acc)
end

/-- The plain value of a JSON value under a type outside the fragment that the
library takes: the decoding of the text that the library writes for the value
at that type.  `none` when the library refuses the description or the value. -/
def otherPlain {B F : Type} (L : Lib B F) (description value : Json) : Option (Plain F) :=
  match L.otherType description with
  | some _ => none
  | none =>
    match L.otherValue description (some value) with
    | .ok (.ok text) =>
      match jsonUnmarshalAny L text with
      | .ok p => some p
      | .error _ => none
    | _ => none

/-! ### A library and documents to evaluate on -/

/-- The decimal digits of a text, most significant first, as a number. -/
def digitsValue : List Char → Nat → Option Nat
  | [], acc => some acc
  | c :: rest, acc =>
    if 48 ≤ c.toNat ∧ c.toNat ≤ 57 then digitsValue rest (10 * acc + (c.toNat - 48)) else none

/-- The text of the digits of `n`, least significant first, `fuel` digits at most. -/
def natDigits : Nat → Nat → List Char
  | 0, _ => []
  | fuel + 1, n => Char.ofNat (48 + n % 10) :: (if n < 10 then [] else natDigits fuel (n / 10))

/-- The natural number that a text of decimal digits denotes. -/
def decimalValue (s : String) : Option Nat :=
  if s.data = [] then none else digitsValue s.data 0

/-- The decimal digits of a natural number. -/
def decimalText (n : Nat) : String := String.mk (natDigits (n + 1) n).reverse

/-- Normalisation by the one composition of `e` and the combining acute accent
U+0301 into U+00E9; `pending` says that the character before was an `e` not yet
written. -/
def composeAcute : List Char → Bool → List Char
  | [], pending => if pending then ['e'] else []
  | c :: rest, pending =>
    if pending then
      if c.toNat = 0x301 then Char.ofNat 0xE9 :: composeAcute rest false
      else if c = 'e' then 'e' :: composeAcute rest true
      else 'e' :: c :: composeAcute rest false
    else if c = 'e' then composeAcute rest true
    else c :: composeAcute rest false

/-- A library to evaluate on, for documents whose numbers are natural numbers
written in decimal digits, whose strings hold no combining character but the
acute accent after an `e`, and whose types are of the fragment.  A number is
held with all its digits (where `float64` keeps 53 bits); as a `float64` it is
in range below `2^1024 - 2^970`, the least number that rounds to infinity. -/
def decimalLib : Lib Nat Nat where
  parseNumberVal := decimalValue
  numberText := fun n => some (decimalText n)
  parseFloat := fun s =>
    match decimalValue s with
    | some n => if n < (1 <<< 1024) - (1 <<< 970) then some n else none
    | none => none
  formatFloat := decimalText
  nfc := fun s => String.mk (composeAcute s.data false)
  otherType := fun _ => some "invalid type description"
  otherValue := fun _ _ => .error "unsupported type"

mutual
/-- A decoded value that `json.Marshal` and `json.Unmarshal` give back as it
is: every map is in key order, and every number is read back from its text. -/
def Canonical {B F : Type} (L : Lib B F) : Plain F → Prop
  | .num n => L.parseFloat (L.formatFloat n) = some n
  | .arr items => CanonicalList L items
  | .obj members => KeysSorted members ∧ CanonicalMembers L members
  | _ => True
/-- Every element is canonical. -/
def CanonicalList {B F : Type} (L : Lib B F) : List (Plain F) → Prop
  | [] => True
  | p :: rest => Canonical L p ∧ CanonicalList L rest
/-- Every entry's value is canonical. -/
def CanonicalMembers {B F : Type} (L : Lib B F) : List (String × Plain F) → Prop
  | [] => True
  | (_, p) :: rest => Canonical L p ∧ CanonicalMembers L rest
end

mutual
/-- A type whose attribute maps are in key order, as every decoded type is. -/
def TypeWF : CtyType → Prop
  | .list ety => TypeWF ety
  | .object atys => KeysSorted atys ∧ AttrsWF atys
  | _ => True
/-- Every attribute type is well formed. -/
def AttrsWF : List (String × CtyType) → Prop
  | [] => True
  | (_, t) :: rest => TypeWF t ∧ AttrsWF rest
end

/-- An attribute value and the plain value it is to become, at one attribute
name: both absent, or the value marshals, at the type of the attribute, to a
text that decodes to the plain value. -/
def MarshalsTo {B F : Type} (L : Lib B F) (atys : List (String × CtyType)) (k : String) :
    Option (CtyVal B) → Option (Plain F) → Prop
  | none, none => True
  | some cv, some p =>
    ∀ aty, mapGet k atys = some aty →
      ∃ j, ctyjson.marshal L cv aty = .ok j ∧ jsonUnmarshalAny L j = .ok p
  | _, _ => False

/-! ### The state document the specification describes -/

/-- The member of an object that a reader takes for a name: the last one whose
name satisfies `p`. -/
def lookupLast {α : Type} (p : String → Bool) : List (String × α) → Option α
  | [] => none
  | (k, v) :: rest =>
    match lookupLast p rest with
    | some x => some x
    | none => if p k then some v else none

/-- The outputs of a state document: the document is an object, it has one
member `outputs`, and that member is an object; its members are the outputs,
by name. -/
def documentOutputs : Json → Option (List (String × Json))
  | .obj members =>
    match members.filter (fun m => equalFold m.1 "outputs") with
    | [(_, .obj outs)] => some outs
    | _ => none
  | _ => none

/-- The `type` and the `value` of one output, which is an object with both. -/
def outputTypeValue : Json → Option (Json × Json)
  | .obj fields =>
    match lookupLast (fun k => equalFold k "type") fields,
      lookupLast (fun k => equalFold k "value") fields with
    | some t, some v => some (t, v)
    | _, _ => none
  | _ => none

/-- The plain value of one output: its `value` under the type that its `type`
describes; `none` when the output is not of that shape, the description is not
one of a type, or the value is not valid for the type. -/
def outputPlain {B F : Type} (L : Lib B F) (output : Json) : Option (Plain F) :=
  match outputTypeValue output with
  | none => none
  | some (t, v) =>
    match knownType L.nfc t with
    | some ty => plainUnder L v ty
    | none => otherPlain L t v

/-- A state document with a string output, a number output and an object
output whose number attribute comes as a string, next to members that a state
file has and the decoder skips. -/
def exampleState : Json :=
  .obj [
    ("version", .num "4"),
    ("outputs", .obj [
      ("cluster_name", .obj [("value", .str "hoba"), ("type", .str "string")]),
      ("cluster_id", .obj [("value", .num "1"), ("type", .str "number")]),
      ("kubeconfig_data", .obj [
        ("value", .obj [("port", .str "6443"), ("host", .str "172.16.12.200")]),
        ("type", .arr [.str "object",
          .obj [("host", .str "string"), ("port", .str "number")]]),
        ("sensitive", .bool true)])]),
    ("resources", .arr [])]

/-- A fetcher in the manner of the test's `constFetcher`. -/
def constFetcher (content : Bytes) : String → Except String Bytes :=
  fun _ => .ok content

/-- A reader of byte strings that knows one document, for evaluation. -/
def exampleJsonOf (doc : Json) : Bytes → Option Json
  | some (_ :: _) => some doc
  | _ => none

/-- A state document in which the entry of output `a` is JSON null, next to a
well-formed output `b`. -/
def nullOutputState : Json :=
  .obj [("outputs", .obj [
    ("a", .null),
    ("b", .obj [("value", .str "x"), ("type", .str "string")])])]

/-- A state document whose one output is the number written as 1 and 400
zeros, which is no `float64`. -/
def largeNumberState : Json :=
  .obj [("outputs", .obj [
    ("n", .obj [("value", .num (String.mk ('1' :: List.replicate 400 '0'))),
      ("type", .str "number")])])]

/-- A state document whose one output is a string that is not normalised: an
`e` and the combining acute accent after it. -/
def accentState : Json :=
  .obj [("outputs", .obj [
    ("name", .obj [("value", .str "cafe\u0301"), ("type", .str "string")])])]

/-! ## `pkg/kv/terraform.go`: the fetch cache -/

/-- A `terraformStateCache` in use: the field `cache`, the state of whatever
the origin reads and changes (`world`), and a record of the invocations of
`origin.Fetch` so far, each with the key and what it returned, oldest first. -/
structure terraformStateCache (σ : Type) where
  cache : List (String × Bytes)
  world : σ
  calls : List (String × Except String Bytes)

/-- The interface `TerraformStateFetcher`, as the origin of a cache: a fetch
may depend on the state of the world and change it. -/
abbrev TerraformStateFetcher (σ : Type) := String → σ → Except String Bytes × σ

/-- The constructor `NewTerraformStateCache`: an empty map, no invocation yet. -/
def NewTerraformStateCache {σ : Type} (world : σ) : terraformStateCache σ :=
  { cache := [], world := world, calls := [] }

/-- The method `terraformStateCache.Fetch`: the result and the cache after it. -/
def terraformStateCache.Fetch {σ : Type} (origin : TerraformStateFetcher σ)
    (c : terraformStateCache σ) (key : String) : Except String Bytes × terraformStateCache σ :=
  match mapGet key c.cache with
  | some (some b) => (.ok (some b), c)
  | _ =>
    match origin key c.world with
    | (.error err, world) =>
      (.error err, { c with world := world, calls := c.calls ++ [(key, .error err)] })
    | (.ok resp, world) =>
      (.ok resp, { cache := mapSet key resp c.cache, world := world,
                   calls := c.calls ++ [(key, .ok resp)] })

/-- A sequence of `Fetch` calls on one cache, the results dropped. -/
def fetchAll {σ : Type} (origin : TerraformStateFetcher σ) :
    terraformStateCache σ → List String → terraformStateCache σ
  | c, [] => c
  | c, key :: rest => fetchAll origin (terraformStateCache.Fetch origin c key).2 rest

/-- Whether an invocation of the origin returned bytes: no error, and a slice
that is not nil. -/
def returnedBytes : Except String Bytes → Bool
  | .ok (some _) => true
  | _ => false

/-- An origin that fails on every key. -/
def failingOrigin : TerraformStateFetcher Unit :=
  fun key w => (.error ("failed to fetch object " ++ key), w)

/-- An origin that returns a nil slice and no error the first time, and fails
afterwards; the world counts the invocations. -/
def nilThenFailingOrigin : TerraformStateFetcher Nat :=
  fun _ n => if n = 0 then (.ok none, n + 1) else (.error "connection refused", n + 1)

/-- An origin that returns the bytes of its invocation count. -/
def countingOrigin : TerraformStateFetcher Nat :=
  fun _ n => (.ok (some [UInt8.ofNat n]), n + 1)

/-! ## `pkg/template/engine.go`

Package `text/template` is a dependency of the repository.  `parse` is the
parser of the package with the name, the delimiters and the function map of
`Engine.Render`: it gives an error for a text that is no template, and
otherwise the way the template executes (`Script`).  An execution acts on the
world through the function `datasource` only; what the other functions of the
map give is part of the script.  Execution writes to the buffer and stops at
the first error a function returns. -/

/-- What a run of the engine acts on: the state of whatever the datasources
read and change, and a record of the `Get` calls made, each with the name the
datasource is registered under and the key, oldest first. -/
structure Exec (σ : Type) where
  world : σ
  gets : List (String × String)

/-- The interface `Datasource`: `Get(ctx, key)` returns a value or an error. -/
structure Datasource (σ V : Type) where
  Get : String → σ → Except String V × σ

/-- The struct `Engine`: the map from names to datasources. -/
structure Engine (σ V : Type) where
  datasources : List (String × Datasource σ V)

/-- The constructor `NewEngine`. -/
def NewEngine {σ V : Type} : Engine σ V := { datasources := [] }

/-- The method `Engine.RegisterDatasource`. -/
def Engine.RegisterDatasource {σ V : Type} (e : Engine σ V) (name : String)
    (ds : Datasource σ V) : Engine σ V :=
  { datasources := mapSet name ds e.datasources }

/-- The template function that `Engine.datasourceFunc` returns. -/
def Engine.datasourceFunc {σ V : Type} (e : Engine σ V) (dsName key : String) (s : Exec σ) :
    Except String V × Exec σ :=
  match mapGet dsName e.datasources with
  | none => (.error ("datasource not found: " ++ dsName), s)
  | some ds =>
    match ds.Get key s.world with
    | (r, world) => (r, { world := world, gets := s.gets ++ [(dsName, key)] })

/-- A parsed document as `tmpl.Execute` runs it: the run writes literal text,
writes the text of a value, or calls the template function `datasource` and
goes on with what the call returned (a call in a branch that is not taken, in a
comment or in a template that is not invoked is no step of the run); it ends
at the end of the document, or with an error of its own.  `context` is the
text `text/template` puts before the error of a call: the template, the
position and the action. -/
inductive Script (V : Type) where
  | done
  | text (t : String) (rest : Script V)
  | value (v : V) (rest : Script V)
  | call (context dsName key : String) (next : V → Script V)
  | fail (err : String)

/-- The call `tmpl.Execute(&buf, nil)`, with the buffer so far in `buf`; `print`
is the text `text/template` writes for a value.  A call of `datasource` that
returns an error ends the run with that error. -/
def execute {σ V : Type} (e : Engine σ V) (print : V → String) :
    Script V → Exec σ → String → Except String String × Exec σ
  | .done, s, buf => (.ok buf, s)
  | .text t rest, s, buf => execute e print rest s (buf ++ t)
  | .value v rest, s, buf => execute e print rest s (buf ++ print v)
  | .call context dsName key next, s, buf =>
    match e.datasourceFunc dsName key s with
    | (.error err, s') => (.error (context ++ "error calling datasource: " ++ err), s')
    | (.ok v, s') => execute e print (next v) s' buf
  | .fail err, s, _ => (.error err, s)

/-- The method `Engine.Render`: the output string and the error (`none` for
nil) it returns, and the state after it.  `parse name content` is
`template.New(name).Delims(..).Funcs(funcMap).Parse(content)`. -/
def Engine.Render {σ V : Type} (parse : String → String → Except String (Script V))
    (print : V → String) (e : Engine σ V) (name content : String) (s : Exec σ) :
    (String × Option String) × Exec σ :=
  match parse name content with
  | .error err => (("", some ("parse template: " ++ err)), s)
  | .ok tmpl =>
    match execute e print tmpl s "" with
    | (.error err, s') => (("", some ("execute template: " ++ err)), s')
    | (.ok buf, s') => ((buf, none), s')

/-- The calls of the template function `datasource` that a run makes, in
order, each with the context of its action, the datasource name and the key. -/
def datasourceCalls {σ V : Type} (e : Engine σ V) :
    Script V → Exec σ → List (String × String × String)
  | .done, _ => []
  | .text _ rest, s => datasourceCalls e rest s
  | .value _ rest, s => datasourceCalls e rest s
  | .call context dsName key next, s =>
    (context, dsName, key) ::
      match e.datasourceFunc dsName key s with
      | (.error _, _) => []
      | (.ok v, s') => datasourceCalls e (next v) s'
  | .fail _, _ => []

/-- A datasource with one value for every key. -/
def constDatasource {σ V : Type} (v : V) : Datasource σ V :=
  { Get := fun _ w => (.ok v, w) }

/-- The context of the action `datasource "dsName" "key"` at a position of the
template `name`. -/
def callContext (name position dsName key : String) : String :=
  "template: " ++ name ++ ":" ++ position ++ ": executing \"" ++ name ++
    "\" at <datasource \"" ++ dsName ++ "\" \"" ++ key ++ "\">: "

/-- A parser that knows two documents, for evaluation: one with two actions,
each printing what `datasource` returns, and one whose only action stands in
a branch that is never taken. -/
def exampleParse (name content : String) : Except String (Script String) :=
  if content = "replicas: @<< datasource \"file\" \"/values.yaml\" >>@\nzone: @<< datasource \"missing\" \"x\" >>@\n" then
    .ok (.text "replicas: " (.call (callContext name "1:14" "file" "/values.yaml") "file"
      "/values.yaml" (fun v => .value v (.text "\nzone: "
        (.call (callContext name "2:10" "missing" "x") "missing" "x"
          (fun v => .value v (.text "\n" .done)))))))
  else if content = "a: 1\n@<< if false >>@zone: @<< datasource \"missing\" \"x\" >>@\n@<< end >>@" then
    .ok (.text "a: 1\n" .done)
  else .error ("template: " ++ name ++ ":1: unexpected input")

/-! ## Strings and paths

Go strings are represented by their characters.  The separator `/` is one
byte of UTF-8 and part of no longer sequence, so that splitting at it is the
same on characters and on bytes.  `path/filepath` is the Unix one. -/

/-- The call `strings.HasPrefix(s, "/")`. -/
def hasSlashPrefix (s : String) : Bool :=
  match s.data with
  | c :: _ => decide (c = '/')
  | [] => false

/-- The call `strings.TrimPrefix(s, "/")`. -/
def trimSlashPrefix (s : String) : String :=
  match s.data with
  | c :: rest => if c = '/' then String.mk rest else s
  | [] => s

/-- The call `strings.Split(s, "/")`, on characters: the pieces between the
separators, one more than there are separators. -/
def splitSep : List Char → List (List Char)
  | [] => [[]]
  | c :: rest =>
    if c = '/' then [] :: splitSep rest
    else
      match splitSep rest with
      | [] => [[c]]
      | piece :: pieces => (c :: piece) :: pieces

/-- The call `strings.Join(pieces, "/")`, on characters. -/
def joinSep : List (List Char) → List Char
  | [] => []
  | [piece] => piece
  | piece :: next :: pieces => piece ++ '/' :: joinSep (next :: pieces)

/-- The elements that `filepath.Clean` keeps of a path, as a stack with the
last one on top: an empty element and `.` are dropped; `..` removes the element
before it, is dropped at the root of a rooted path, and is kept at the start of
a path that is not rooted. -/
def cleanStack (rooted : Bool) : List (List Char) → List (List Char) → List (List Char)
  | [], stack => stack
  | elem :: rest, stack =>
    if elem = [] ∨ elem = ['.'] then cleanStack rooted rest stack
    else if elem = ['.', '.'] then
      match stack with
      | top :: below =>
        if top = ['.', '.'] then cleanStack rooted rest (elem :: stack)
        else cleanStack rooted rest below
      | [] => if rooted then cleanStack rooted rest [] else cleanStack rooted rest [elem]
    else cleanStack rooted rest (elem :: stack)

/-- The function `filepath.Clean` on characters: the shortest path name
equivalent to `path` by the rules of its documentation; the empty path
becomes `.`. -/
def cleanChars (path : List Char) : List Char :=
  match path with
  | [] => ['.']
  | c :: _ =>
    if c = '/' then '/' :: joinSep (cleanStack true (splitSep path) []).reverse
    else
      match joinSep (cleanStack false (splitSep path) []).reverse with
      | [] => ['.']
      | out => out

/-- The function `filepath.Clean`. -/
def filepath.Clean (path : String) : String := String.mk (cleanChars path.data)

/-- The call `filepath.Join(a, b)`: the elements from the first one that is not
empty on, joined with the separator and cleaned; the empty string when both
are empty. -/
def filepath.Join (a b : String) : String :=
  if a ≠ "" then filepath.Clean (String.mk (a.data ++ '/' :: b.data))
  else if b ≠ "" then filepath.Clean b
  else ""

/-- The loop of `filepath.Ext`, from the end of the path backwards: the suffix
from the last dot of the last element, `acc` being the characters passed. -/
def extBackwards : List Char → List Char → List Char
  | [], _ => []
  | c :: before, acc =>
    if c = '/' then []
    else if c = '.' then '.' :: acc
    else extBackwards before (c :: acc)

/-- The function `filepath.Ext`. -/
def filepath.Ext (path : String) : String := String.mk (extBackwards path.data.reverse [])

/-- The function `strings.ToLower` on the ASCII letters.  (Go also maps the
upper-case letters outside ASCII; the lower case of none of them is a letter of
`.yaml`, `.yml` or `.json`, so that the comparisons of `FileDatasource.Get` come
out the same.) -/
def toLower (s : String) : String :=
  String.mk (s.data.map (fun c => if 65 ≤ c.toNat ∧ c.toNat ≤ 90 then Char.ofNat (c.toNat + 32) else c))

/-! ## `pkg/pipeline/pipeline.go` and `pkg/kv/file.go`: paths and files -/

/-- The function `resolvePath` of the pipeline. -/
def resolvePath (path rootDir : String) : String :=
  if hasSlashPrefix path then filepath.Join rootDir (trimSlashPrefix path)
  else path

/-- The struct `FileDatasource`. -/
structure FileDatasource where
  rootDir : String

/-- The method `FileDatasource.Get`.  `readFile` is `os.ReadFile` on the file
system of the moment, `yamlUnmarshal` and `jsonUnmarshal` the two parsers. -/
def FileDatasource.Get {V : Type} (f : FileDatasource) (readFile : String → Except String Bytes)
    (yamlUnmarshal jsonUnmarshal : Bytes → Except String V) (path : String) : Except String V :=
  let fullPath :=
    if hasSlashPrefix path then filepath.Join f.rootDir (trimSlashPrefix path)
    else path
  match readFile fullPath with
  | .error err => .error ("read file " ++ path ++ ": " ++ err)
  | .ok data =>
    let ext := toLower (filepath.Ext path)
    if ext = ".yaml" ∨ ext = ".yml" then
      match yamlUnmarshal data with
      | .error err => .error ("parse yaml " ++ path ++ ": " ++ err)
      | .ok result => .ok result
    else if ext = ".json" then
      match jsonUnmarshal data with
      | .error err => .error ("parse json " ++ path ++ ": " ++ err)
      | .ok result => .ok result
    else .error ("unsupported file format " ++ path ++ ": use .json, .yaml, or .yml")

/-- Whether `path` is `root` or lies below it: `root`, followed by a separator
unless it ends in one, starts `path`. -/
def underRoot (root path : String) : Bool :=
  decide (path = root) || (root.data ++ ['/']).isPrefixOf path.data ||
    (decide (root.data.getLast? = some '/') && root.data.isPrefixOf path.data)

/-- A file system with one file, for evaluation. -/
def oneFile (name : String) (content : List UInt8) : String → Except String Bytes :=
  fun p => if p = name then .ok (some content) else .error "open: no such file or directory"

/-! ## `pkg/kv/terraform.go`: the object-store fetcher -/

/-- The error `s3client.GetObject` returns for an input whose `Key` is empty:
the operation's serializer refuses the input ("input member Key must not be
empty"), and the client reports it as an operation error. -/
def emptyKeyError : String :=
  "operation error S3: GetObject, serialization failed: serialization failed: " ++
    "input member Key must not be empty"

/-- The call `s3client.GetObject` of the `*s3.Client` that the fetcher holds
(`terraform.go:40-42`, made in `main.go` by `s3.NewFromConfig`).  The client
serializes the input before it builds a request, and the serializer refuses an
empty `Key`: no request is made then.  For every other input the request is
handed to `send` (signing, the round trip to the object store and the decoding
of its answer), whose result is the result of the call.  The second component
is the record of the requests handed to `send`, each with its bucket and object
key. -/
def s3Client.GetObject {β : Type} (send : String → String → Except String β)
    (bucket key : String) : Except String β × List (String × String) :=
  if key.data.length = 0 then (.error emptyKeyError, [])
  else (send bucket key, [(bucket, key)])

/-- The method `terraformS3Fetcher.Fetch`.  `send` is the part of the client
behind the serializer (see `s3Client.GetObject`), `readAll` is `io.ReadAll` of
the body.  The second component is the record of the requests made to the
object store, each with its bucket and object key. -/
def terraformS3Fetcher.Fetch {β : Type} (send : String → String → Except String β)
    (readAll : β → Except String Bytes) (fullKey : String) :
    Except String Bytes × List (String × String) :=
  let keyPath := splitSep fullKey.data
  if keyPath.length < 2 then (.error ("invalid key: " ++ fullKey), [])
  else
    let bucket := String.mk (keyPath.headD [])
    if bucket.data.length = 0 then (.error ("invalid bucket: " ++ bucket), [])
    else
      let key := String.mk (joinSep keyPath.tail)
      match s3Client.GetObject send bucket key with
      | (.error err, requests) =>
        (.error ("failed to fetch object " ++ fullKey ++ ": " ++ err), requests)
      | (.ok body, requests) =>
        match readAll body with
        | .error err => (.error ("failed to read object " ++ fullKey ++ ": " ++ err), requests)
        | .ok response => (.ok response, requests)

/-- An object store that holds one object, for evaluation: what `send` gives
when the request reaches that store. -/
def storeWithObject (bucket key : String) (content : List UInt8) :
    String → String → Except String (List UInt8) :=
  fun b k =>
    if b = bucket ∧ k = key then .ok content
    else .error "operation error S3: GetObject, https response error StatusCode: 404, NoSuchKey"

/-- A character other than the separator. -/
def notSep (c : Char) : Bool := decide (c ≠ '/')

/-! ## `pkg/config/config.go` -/

/-- The struct `HelmConfig`. -/
structure HelmConfig where
  Chart : String
  Repo : String
  Version : String
  ReleaseName : String
  Namespace : String
  Values : List String
  Output : String

/-- The struct `KustomizeConfig`. -/
structure KustomizeConfig where
  Path : String

/-- The struct `Config`; a section that the file does not have is a nil
pointer, `none`. -/
structure Config where
  Helm : Option HelmConfig
  Kustomize : Option KustomizeConfig

/-- The method `Config.Validate`; `.ok ()` is the nil error. -/
def Config.Validate (c : Config) : Except String Unit :=
  match c.Kustomize with
  | none => .error "kustomize section is required"
  | some kustomize =>
    if kustomize.Path = "" then .error "kustomize.path is required"
    else
      match c.Helm with
      | some helm =>
        if helm.Chart = "" then .error "helm.chart is required when helm is specified"
        else if helm.Output = "" then .error "helm.output is required when helm is specified"
        else .ok ()
      | none => .ok ()

/-! ## `pkg/helm/renderer.go` -/

/-- What `Renderer.Render` does to the world outside the process. -/
inductive Effect where
  | exec (name : String) (args : List String)
  | mkdirAll (path : String)
  | writeFile (path : String) (data : List UInt8)

/-- The function `filepath.Dir`: the path up to its last separator, cleaned. -/
def filepath.Dir (path : String) : String :=
  String.mk (cleanChars (path.data.reverse.dropWhile notSep).reverse)

/-- The method `Renderer.Render`: the error it returns (`none` for nil) and
the effects it had, in order.  `getenv` is `os.Getenv`; `helm` is the run of
the `helm` executable with the arguments, giving its standard output or the
error of the run; `mkdirAll` and `writeFile` are the two calls of package
`os`. -/
def Renderer.Render (getenv : String → String) (helm : List String → Except String (List UInt8))
    (mkdirAll : String → Except String Unit)
    (writeFile : String → List UInt8 → Except String Unit)
    (cfg : HelmConfig) (templatedValues : List String) : Option String × List Effect :=
  let releaseName := if cfg.ReleaseName = "" then getenv "ARGOCD_APP_NAME" else cfg.ReleaseName
  if releaseName = "" then
    (some "releaseName is required (set in config or ARGOCD_APP_NAME env)", [])
  else
    let nspace := if cfg.Namespace = "" then getenv "ARGOCD_APP_NAMESPACE" else cfg.Namespace
    let args := ["template", releaseName]
    let args :=
      if cfg.Repo ≠ "" then
        let args := args ++ [cfg.Chart, "--repo", cfg.Repo]
        if cfg.Version ≠ "" then args ++ ["--version", cfg.Version] else args
      else args ++ [cfg.Chart]
    let args := if nspace ≠ "" then args ++ ["--namespace", nspace] else args
    let args := templatedValues.foldl (fun args v => args ++ ["--values", v]) args
    match helm args with
    | .error err => (some ("helm template: " ++ err), [.exec "helm" args])
    | .ok output =>
      match mkdirAll (filepath.Dir cfg.Output) with
      | .error err =>
        (some ("create output dir: " ++ err),
          [.exec "helm" args, .mkdirAll (filepath.Dir cfg.Output)])
      | .ok _ =>
        match writeFile cfg.Output output with
        | .error err =>
          (some ("write output: " ++ err),
            [.exec "helm" args, .mkdirAll (filepath.Dir cfg.Output),
             .writeFile cfg.Output output])
        | .ok _ =>
          (none, [.exec "helm" args, .mkdirAll (filepath.Dir cfg.Output),
                  .writeFile cfg.Output output])

/-- An environment with one variable set. -/
def oneVar (name value : String) : String → String :=
  fun n => if n = name then value else ""

/-- The arguments that name the chart: the chart alone, or the chart with its
repository and, when one is set, its version. -/
def chartArgs (cfg : HelmConfig) : List String :=
  if cfg.Repo = "" then [cfg.Chart]
  else [cfg.Chart, "--repo", cfg.Repo] ++ (if cfg.Version = "" then [] else ["--version", cfg.Version])

/-- The arguments that name the value files. -/
def valueArgs : List String → List String
  | [] => []
  | v :: rest => "--values" :: v :: valueArgs rest

/-! ## `pkg/kustomize/builder.go` and `pkg/pipeline/pipeline.go`: the pipeline

The pipeline acts on the file system and runs executables.  `Host` holds what
it calls outside the repository, each call a function of the state of the
world (`σ`), and `Job` is that state together with the records kept of a run.
`filepath.WalkDir` is represented by the sequence of entries it would pass to
its callback on the tree as it is when the walk starts; the callbacks of this
package rewrite files that exist or write under another root. -/

/-- An entry that `filepath.WalkDir` passes to its callback: the path, whether
it is a directory, its base name, and the error of reaching it, if any. -/
structure WalkEntry where
  path : String
  isDir : Bool
  name : String
  err : Option String

/-- What a `WalkDirFunc` returns: nil, `filepath.SkipDir`, or another error. -/
inductive WalkAction where
  | next
  | skipDir
  | fail (err : String)

/-- The calls that leave the repository, over the state `σ` of the world, with
`V` the values a datasource gives. -/
structure Host (σ V : Type) where
  /-- The call `os.MkdirTemp("", "argo-render-*")`. -/
  MkdirTemp : σ → Except String String × σ
  /-- The call `os.RemoveAll(path)`. -/
  RemoveAll : String → σ → σ
  /-- The call `os.Chdir(dir)`. -/
  Chdir : String → σ → Except String Unit × σ
  /-- The call `os.MkdirAll(path, 0755)`. -/
  MkdirAll : String → σ → Except String Unit × σ
  /-- The call `os.Open(path)`, with the content the file is read for. -/
  Open : String → σ → Except String Bytes
  /-- The call `os.Create(path)`. -/
  Create : String → σ → Except String Unit × σ
  /-- The call `io.Copy(dstFile, srcFile)`, into the file created at the path. -/
  Copy : String → Bytes → σ → Except String Unit × σ
  /-- The call `os.ReadFile(path)`. -/
  ReadFile : String → σ → Except String Bytes
  /-- The call `os.WriteFile(path, data, 0644)`. -/
  WriteFile : String → Bytes → σ → Except String Unit × σ
  /-- The entries of `filepath.WalkDir(root, fn)`, in the order of the walk. -/
  WalkDir : String → σ → List WalkEntry
  /-- The call `filepath.Rel(base, target)`. -/
  Rel : String → String → Except String String
  /-- The run of the executable `kustomize` with the arguments: its standard
  output, or the error of the run. -/
  kustomize : List String → σ → Except String Bytes × σ
  /-- The conversion `string(b)`. -/
  string : Bytes → String
  /-- The conversion `[]byte(s)`. -/
  bytes : String → Bytes
  /-- The parser of `text/template`, as for `Engine.Render`. -/
  parse : String → String → Except String (Script V)
  /-- The text that `text/template` writes for a value. -/
  print : V → String
  /-- The call `yaml.Unmarshal(data, &result)`. -/
  yamlUnmarshal : Bytes → Except String V
  /-- The call `json.Unmarshal(data, &result)`. -/
  jsonUnmarshal : Bytes → Except String V

/-- What a run of the pipeline has entered, for the record. -/
inductive Step where
  | templateValues (valueFiles : List String)
  | helmRender (cfg : HelmConfig) (templatedValues : List String)
  | preprocessTemplates (path : String)
  | kustomizeBuild (path : String)
  | postRender

/-- The state of a run: the world with the record of datasource calls, and the
record of the stages entered, oldest first. -/
structure Job (σ : Type) where
  exec : Exec σ
  steps : List Step

/-- The job with the world replaced. -/
def Job.setWorld {σ : Type} (j : Job σ) (world : σ) : Job σ :=
  { j with exec := { j.exec with world := world } }

/-- The job with a stage added to the record. -/
def Job.enter {σ : Type} (j : Job σ) (step : Step) : Job σ :=
  { j with steps := j.steps ++ [step] }

/-- The function `filepath.WalkDir` with callback `fn`, over the entries still
to visit; after `SkipDir` for a directory the entries below it are passed
over (`skip` is that directory). -/
def walkDir {S : Type} (fn : WalkEntry → S → WalkAction × S) :
    List WalkEntry → Option String → S → Option String × S
  | [], _, s => (none, s)
  | entry :: rest, skip, s =>
    match skip with
    | some dir =>
      if (dir.data ++ ['/']).isPrefixOf entry.path.data then walkDir fn rest skip s
      else
        match fn entry s with
        | (.next, s') => walkDir fn rest none s'
        | (.skipDir, s') => walkDir fn rest (some entry.path) s'
        | (.fail err, s') => (some err, s')
    | none =>
      match fn entry s with
      | (.next, s') => walkDir fn rest none s'
      | (.skipDir, s') => walkDir fn rest (some entry.path) s'
      | (.fail err, s') => (some err, s')

/-- The function `isTemplateFile`. -/
def isTemplateFile (path : String) : Bool :=
  ".tmpl.yaml".data.isSuffixOf path.data || ".tmpl.yml".data.isSuffixOf path.data

/-- The callback of `Builder.preprocessTemplates`: a template file is read,
expanded by the engine and written back in place. -/
def preprocessEntry {σ V : Type} (h : Host σ V) (engine : Engine σ V) (entry : WalkEntry)
    (j : Job σ) : WalkAction × Job σ :=
  match entry.err with
  | some err => (.fail err, j)
  | none =>
    if entry.isDir then (.next, j)
    else if !isTemplateFile entry.path then (.next, j)
    else
      match h.ReadFile entry.path j.exec.world with
      | .error err => (.fail ("read " ++ entry.path ++ ": " ++ err), j)
      | .ok content =>
        match engine.Render h.parse h.print entry.path (h.string content) j.exec with
        | ((_, some err), exec) =>
          (.fail ("render " ++ entry.path ++ ": " ++ err), { j with exec := exec })
        | ((rendered, none), exec) =>
          match h.WriteFile entry.path (h.bytes rendered) exec.world with
          | (.error err, world) =>
            (.fail ("write " ++ entry.path ++ ": " ++ err),
              { j with exec := { exec with world := world } })
          | (.ok _, world) => (.next, { j with exec := { exec with world := world } })

/-- The method `Builder.preprocessTemplates`: the error it returns (`none` for
nil) and the job after it. -/
def Builder.preprocessTemplates {σ V : Type} (h : Host σ V) (engine : Engine σ V)
    (path : String) (j : Job σ) : Option String × Job σ :=
  walkDir (preprocessEntry h engine) (h.WalkDir path j.exec.world) none j

/-- The method `Builder.Build`: the templates below `path` are expanded, then
`kustomize build path` is run and its standard output returned. -/
def Builder.Build {σ V : Type} (h : Host σ V) (engine : Engine σ V) (path : String)
    (j : Job σ) : Except String String × Job σ :=
  match Builder.preprocessTemplates h engine path (j.enter (.preprocessTemplates path)) with
  | (some err, j) => (.error ("preprocess templates: " ++ err), j)
  | (none, j) =>
    match h.kustomize ["build", path] j.exec.world with
    | (.error err, world) =>
      (.error ("kustomize build: " ++ err), (j.enter (.kustomizeBuild path)).setWorld world)
    | (.ok output, world) =>
      (.ok (h.string output), (j.enter (.kustomizeBuild path)).setWorld world)

/-- The struct `Pipeline`.  The terraform datasource is a pointer, `none` for
nil; the chart renderer is given by what its `Render` does in the world: the
error it returns (`none` for nil) and the world after it. -/
structure Pipeline (σ V : Type) where
  tfDatasource : Option (Datasource σ V)
  helmRenderer : HelmConfig → List String → σ → Option String × σ
  enablePostRender : Bool

/-- The function `copyFile`. -/
def copyFile {σ V : Type} (h : Host σ V) (src dst : String) (world : σ) : Option String × σ :=
  match h.Open src world with
  | .error err => (some err, world)
  | .ok content =>
    match h.MkdirAll (filepath.Dir dst) world with
    | (.error err, world) => (some err, world)
    | (.ok _, world) =>
      match h.Create dst world with
      | (.error err, world) => (some err, world)
      | (.ok _, world) =>
        match h.Copy dst content world with
        | (.error err, world) => (some err, world)
        | (.ok _, world) => (none, world)

/-- The callback of `copyDir`: a directory named `.git` is skipped, another
directory is made under `dst`, a file is copied there. -/
def copyEntry {σ V : Type} (h : Host σ V) (src dst : String) (entry : WalkEntry) (world : σ) :
    WalkAction × σ :=
  match entry.err with
  | some err => (.fail err, world)
  | none =>
    if entry.isDir ∧ entry.name = ".git" then (.skipDir, world)
    else
      match h.Rel src entry.path with
      | .error err => (.fail err, world)
      | .ok rel =>
        let dstPath := filepath.Join dst rel
        if entry.isDir then
          match h.MkdirAll dstPath world with
          | (.error err, world) => (.fail err, world)
          | (.ok _, world) => (.next, world)
        else
          match copyFile h entry.path dstPath world with
          | (some err, world) => (.fail err, world)
          | (none, world) => (.next, world)

/-- The function `copyDir`. -/
def copyDir {σ V : Type} (h : Host σ V) (src dst : String) (world : σ) : Option String × σ :=
  walkDir (copyEntry h src dst) (h.WalkDir src world) none world

/-- The method `Pipeline.templateValuesInPlace`, over the value files still to
expand. -/
def Pipeline.templateValuesInPlace {σ V : Type} (h : Host σ V) (engine : Engine σ V) :
    List String → Job σ → Option String × Job σ
  | [], j => (none, j)
  | vf :: rest, j =>
    match h.ReadFile vf j.exec.world with
    | .error err => (some ("read " ++ vf ++ ": " ++ err), j)
    | .ok content =>
      match engine.Render h.parse h.print vf (h.string content) j.exec with
      | ((_, some err), exec) => (some ("render " ++ vf ++ ": " ++ err), { j with exec := exec })
      | ((rendered, none), exec) =>
        match h.WriteFile vf (h.bytes rendered) exec.world with
        | (.error err, world) =>
          (some ("write " ++ vf ++ ": " ++ err), { j with exec := { exec with world := world } })
        | (.ok _, world) =>
          Pipeline.templateValuesInPlace h engine rest
            { j with exec := { exec with world := world } }

/-- The method `Pipeline.postRender`. -/
def Pipeline.postRender {σ V : Type} (h : Host σ V) (engine : Engine σ V) (content : String)
    (j : Job σ) : (String × Option String) × Job σ :=
  match engine.Render h.parse h.print "postrender" content (j.enter .postRender).exec with
  | (r, exec) => (r, { (j.enter .postRender) with exec := exec })

/-- The constructor `NewFileDatasource`. -/
def NewFileDatasource (rootDir : String) : FileDatasource := { rootDir := rootDir }

/-- A `FileDatasource` as a datasource of the engine: it reads the files of the
world as it is at the call. -/
def FileDatasource.asDatasource {σ V : Type} (h : Host σ V) (f : FileDatasource) :
    Datasource σ V :=
  { Get := fun key world =>
      (f.Get (fun path => h.ReadFile path world) h.yamlUnmarshal h.jsonUnmarshal key, world) }

/-- The engine that `Pipeline.Run` builds: `file`, rooted at the workspace, and
`terraform` when the pipeline has that datasource. -/
def Pipeline.engine {σ V : Type} (h : Host σ V) (p : Pipeline σ V) (workDir : String) :
    Engine σ V :=
  match p.tfDatasource with
  | some tf =>
    (NewEngine.RegisterDatasource "file"
      ((NewFileDatasource workDir).asDatasource h)).RegisterDatasource "terraform" tf
  | none => NewEngine.RegisterDatasource "file" ((NewFileDatasource workDir).asDatasource h)

/-- The chart stage of `Pipeline.Run`, the block `if cfg.Helm != nil`: the
error it leaves `Run` with (`none` when `Run` goes on) and the job after it. -/
def Pipeline.helmStage {σ V : Type} (h : Host σ V) (p : Pipeline σ V) (engine : Engine σ V)
    (cfg : Config) (workDir : String) (j : Job σ) : Option String × Job σ :=
  match cfg.Helm with
  | none => (none, j)
  | some helm =>
    let resolvedValues := helm.Values.map (fun v => resolvePath v workDir)
    match Pipeline.templateValuesInPlace h engine resolvedValues
        (j.enter (.templateValues resolvedValues)) with
    | (some err, j) => (some ("template values: " ++ err), j)
    | (none, j) =>
      let helmCfg : HelmConfig :=
        { helm with
          Chart := if helm.Repo = "" then resolvePath helm.Chart workDir else helm.Chart,
          Output := resolvePath helm.Output workDir }
      match p.helmRenderer helmCfg resolvedValues j.exec.world with
      | (some err, world) =>
        (some ("helm render: " ++ err),
          (j.enter (.helmRender helmCfg resolvedValues)).setWorld world)
      | (none, world) => (none, (j.enter (.helmRender helmCfg resolvedValues)).setWorld world)

/-- The body of `Pipeline.Run` after `defer os.RemoveAll(workDir)`. -/
def Pipeline.runIn {σ V : Type} (h : Host σ V) (p : Pipeline σ V) (cfg : Config)
    (gitRoot appFileRel workDir : String) (j : Job σ) : Outcome String × Job σ :=
  match copyDir h gitRoot workDir j.exec.world with
  | (some err, world) => (.error ("copy git root: " ++ err), j.setWorld world)
  | (none, world) =>
    let appDir := filepath.Dir (filepath.Join workDir appFileRel)
    match h.Chdir appDir world with
    | (.error err, world) => (.error ("chdir to app dir: " ++ err), j.setWorld world)
    | (.ok _, world) =>
      let engine := Pipeline.engine h p workDir
      match Pipeline.helmStage h p engine cfg workDir (j.setWorld world) with
      | (some err, j) => (.error err, j)
      | (none, j) =>
        match cfg.Kustomize with
        | none => (.panic "runtime error: invalid memory address or nil pointer dereference", j)
        | some kustomize =>
          let kustomizePath := resolvePath kustomize.Path workDir
          match Builder.Build h engine kustomizePath j with
          | (.error err, j) => (.error ("kustomize build: " ++ err), j)
          | (.ok output, j) =>
            if p.enablePostRender then
              match Pipeline.postRender h engine output j with
              | ((_, some err), j) => (.error ("post render: " ++ err), j)
              | ((output, none), j) => (.ok output, j)
            else (.ok output, j)

/-- The method `Pipeline.Run`: what it returns and the job after it.  The
workspace is removed on every way out once it has been made. -/
def Pipeline.Run {σ V : Type} (h : Host σ V) (p : Pipeline σ V) (cfg : Config)
    (gitRoot appFileRel : String) (j : Job σ) : Outcome String × Job σ :=
  match h.MkdirTemp j.exec.world with
  | (.error err, world) => (.error ("create work dir: " ++ err), j.setWorld world)
  | (.ok workDir, world) =>
    match Pipeline.runIn h p cfg gitRoot appFileRel workDir (j.setWorld world) with
    | (r, j) => (r, j.setWorld (h.RemoveAll workDir j.exec.world))

/-! ### A host to evaluate on -/

/-- The bytes of a text of ASCII characters. -/
def asciiBytes (s : String) : Bytes := some (s.data.map (fun c => UInt8.ofNat c.toNat))

/-- The text of bytes that are ASCII characters. -/
def asciiString : Bytes → String
  | none => ""
  | some l => String.mk (l.map (fun b => Char.ofNat b.toNat))

/-- The path `target` relative to `base`, for a target at or below the base. -/
def relBelow (base target : String) : Except String String :=
  if target = base then .ok "."
  else if (base.data ++ ['/']).isPrefixOf target.data then
    .ok (String.mk (target.data.drop (base.data.length + 1)))
  else .error "Rel: can't make target relative to base"

/-- A parser that knows one action, which prints what `datasource` returns,
and takes every other text as literal. -/
def zoneParse (name content : String) : Except String (Script String) :=
  if content = "zone: @<< datasource \"file\" \"/zone.yaml\" >>@\n" then
    .ok (.text "zone: " (.call (callContext name "1:10" "file" "/zone.yaml") "file" "/zone.yaml"
      (fun v => .value v (.text "\n" .done))))
  else .ok (.text content .done)

/-- A host whose world is a map from file paths to texts: the temporary
directory is `/tmp/argo-render-1`, a walk passes the root and then the files
below it, and `kustomize build dir` prints the files below `dir` one after
another. -/
def exampleHost : Host (List (String × String)) String where
  MkdirTemp := fun w => (.ok "/tmp/argo-render-1", w)
  RemoveAll := fun dir w => w.filter (fun f => !(dir.data ++ ['/']).isPrefixOf f.1.data)
  Chdir := fun _ w => (.ok (), w)
  MkdirAll := fun _ w => (.ok (), w)
  Open := fun path w =>
    match mapGet path w with
    | some text => .ok (asciiBytes text)
    | none => .error ("open " ++ path ++ ": no such file or directory")
  Create := fun path w => (.ok (), mapSet path "" w)
  Copy := fun path content w => (.ok (), mapSet path (asciiString content) w)
  ReadFile := fun path w =>
    match mapGet path w with
    | some text => .ok (asciiBytes text)
    | none => .error ("open " ++ path ++ ": no such file or directory")
  WriteFile := fun path data w => (.ok (), mapSet path (asciiString data) w)
  WalkDir := fun root w =>
    { path := root, isDir := true, name := "", err := none } ::
      (w.filter (fun f => (root.data ++ ['/']).isPrefixOf f.1.data)).map
        (fun f => { path := f.1, isDir := false, name := "", err := none })
  Rel := relBelow
  kustomize := fun args w =>
    match args with
    | [_, dir] =>
      (.ok (asciiBytes (String.join
        ((w.filter (fun f => (dir.data ++ ['/']).isPrefixOf f.1.data)).map (fun f => f.2)))), w)
    | _ => (.error "exit status 1", w)
  string := asciiString
  bytes := asciiBytes
  parse := zoneParse
  print := fun v => v
  yamlUnmarshal := fun data => .ok (asciiString data)
  jsonUnmarshal := fun data => .ok (asciiString data)

/-- A repository with an overlay that holds one template file, and the file
the template reads. -/
def exampleRepo : List (String × String) :=
  [("/repo/overlays/prod/cm.tmpl.yaml", "zone: @<< datasource \"file\" \"/zone.yaml\" >>@\n"),
   ("/repo/zone.yaml", "eu-1")]

/-- A repository whose overlay holds a plain file with a template action in
it, which the overlay preprocessing leaves as it is. -/
def plainRepo : List (String × String) :=
  [("/repo/overlays/prod/cm.yaml", "zone: @<< datasource \"file\" \"/zone.yaml\" >>@\n"),
   ("/repo/zone.yaml", "eu-1")]

/-- A pipeline with no terraform datasource and a chart renderer that fails. -/
def examplePipeline (enablePostRender : Bool) : Pipeline (List (String × String)) String :=
  { tfDatasource := none,
    helmRenderer := fun _ _ w => (some "helm template: exit status 1", w),
    enablePostRender := enablePostRender }

/-- A config with only `kustomize.path` set. -/
def kustomizeOnly : Config := { Helm := none, Kustomize := some { Path := "/overlays/prod" } }

/-- The world after `plainRepo` was copied into the workspace. -/
def plainWorkspace : List (String × String) :=
  [("/repo/overlays/prod/cm.yaml", "zone: @<< datasource \"file\" \"/zone.yaml\" >>@\n"),
   ("/repo/zone.yaml", "eu-1"),
   ("/tmp/argo-render-1/overlays/prod/cm.yaml",
    "zone: @<< datasource \"file\" \"/zone.yaml\" >>@\n"),
   ("/tmp/argo-render-1/zone.yaml", "eu-1")]

/-! # Theorems -/

/-! ## Maps -/

theorem char_eq_of_toNat_eq {a b : Char} (h : a.toNat = b.toNat) : a = b :=
  Char.ext (UInt32.ext h)

theorem ltChars_irrefl (a : List Char) : ltChars a a = false := by
  induction a with
  | nil => rfl
  | cons c cs ih => simp [ltChars, ih]

theorem ltChars_trans : ∀ (a b c : List Char),
    ltChars a b = true → ltChars b c = true → ltChars a c = true
  | _, [], _, h, _ => by simp [ltChars] at h
  | _, _ :: _, [], _, h => by simp [ltChars] at h
  | [], _ :: _, _ :: _, _, _ => by simp [ltChars]
  | x :: xs, y :: ys, z :: zs, h₁, h₂ => by
    simp only [ltChars, Bool.or_eq_true, Bool.and_eq_true, decide_eq_true_eq] at h₁ h₂ ⊢
    rcases h₁ with h₁ | ⟨e₁, h₁⟩
    · rcases h₂ with h₂ | ⟨e₂, _⟩
      · exact Or.inl (Nat.lt_trans h₁ h₂)
      · exact Or.inl (e₂ ▸ h₁)
    · rcases h₂ with h₂ | ⟨e₂, h₂⟩
      · exact Or.inl (e₁ ▸ h₂)
      · exact Or.inr ⟨e₁.trans e₂, ltChars_trans xs ys zs h₁ h₂⟩

theorem ltChars_total : ∀ (a b : List Char),
    ltChars a b = false → a ≠ b → ltChars b a = true
  | [], [], _, h => absurd rfl h
  | [], _ :: _, h, _ => by simp [ltChars] at h
  | _ :: _, [], _, _ => by simp [ltChars]
  | x :: xs, y :: ys, h, hne => by
    simp only [ltChars, Bool.or_eq_false_iff, Bool.and_eq_false_imp, decide_eq_false_iff_not,
      decide_eq_true_eq] at h
    simp only [ltChars, Bool.or_eq_true, Bool.and_eq_true, decide_eq_true_eq]
    rcases Nat.lt_or_ge y.toNat x.toNat with hlt | hge
    · exact Or.inl hlt
    · have e : x.toNat = y.toNat := Nat.le_antisymm hge (Nat.le_of_not_lt h.1)
      have hc : x = y := char_eq_of_toNat_eq e
      refine Or.inr ⟨e.symm, ltChars_total xs ys (h.2 e) ?_⟩
      intro hxs
      exact hne (by rw [hc, hxs])

theorem keyLt_irrefl (a : String) : keyLt a a = false := ltChars_irrefl a.data

theorem keyLt_trans {a b c : String} (h₁ : keyLt a b = true) (h₂ : keyLt b c = true) :
    keyLt a c = true := ltChars_trans _ _ _ h₁ h₂

theorem keyLt_total {a b : String} (h : keyLt a b = false) (hne : a ≠ b) : keyLt b a = true :=
  ltChars_total _ _ h (fun e => hne (String.ext e))

theorem keyLt_ne {a b : String} (h : keyLt a b = true) : a ≠ b := by
  intro e
  rw [e, keyLt_irrefl] at h
  exact Bool.false_ne_true h

theorem keyLt_asymm {a b : String} (h : keyLt a b = true) : keyLt b a = false := by
  cases hba : keyLt b a with
  | false => rfl
  | true =>
    have := keyLt_trans h hba
    rw [keyLt_irrefl] at this
    exact absurd this Bool.false_ne_true

theorem mapGet_mapSet_self {α : Type} (k : String) (v : α) (m : List (String × α)) :
    mapGet k (mapSet k v m) = some v := by
  induction m with
  | nil => simp [mapSet, mapGet]
  | cons e rest ih =>
    obtain ⟨k', v'⟩ := e
    simp only [mapSet]
    split
    · simp [mapGet]
    · split
      · simp [mapGet]
      · rename_i h₁ h₂
        simp [mapGet, h₂, ih]

theorem mapGet_mapSet_ne {α : Type} {k k' : String} (v : α) (m : List (String × α))
    (h : k' ≠ k) : mapGet k' (mapSet k v m) = mapGet k' m := by
  induction m with
  | nil => simp [mapSet, mapGet, h]
  | cons e rest ih =>
    obtain ⟨k₀, v₀⟩ := e
    simp only [mapSet]
    split
    · simp [mapGet, h]
    · split
      · rename_i h₁ h₂
        subst h₂
        simp [mapGet, h]
      · simp [mapGet, ih]

theorem mapGet_mapSet {α : Type} (k k' : String) (v : α) (m : List (String × α)) :
    mapGet k' (mapSet k v m) = if k' = k then some v else mapGet k' m := by
  split
  · rename_i h
    rw [h, mapGet_mapSet_self]
  · rename_i h
    exact mapGet_mapSet_ne v m h

theorem mem_mapSet {α : Type} {k : String} {v : α} {m : List (String × α)} {e : String × α}
    (h : e ∈ mapSet k v m) : e = (k, v) ∨ e ∈ m := by
  induction m with
  | nil => simpa [mapSet] using h
  | cons e₀ rest ih =>
    obtain ⟨k₀, v₀⟩ := e₀
    simp only [mapSet] at h
    split at h
    · simpa using h
    · split at h
      · rcases List.mem_cons.1 h with h | h
        · exact Or.inl h
        · exact Or.inr (List.mem_cons_of_mem _ h)
      · rcases List.mem_cons.1 h with h | h
        · exact Or.inr (h ▸ List.mem_cons_self _ _)
        · rcases ih h with h | h
          · exact Or.inl h
          · exact Or.inr (List.mem_cons_of_mem _ h)

theorem keysSorted_mapSet {α : Type} (k : String) (v : α) {m : List (String × α)}
    (hm : KeysSorted m) : KeysSorted (mapSet k v m) := by
  induction m with
  | nil => simp [mapSet, KeysSorted]
  | cons e₀ rest ih =>
    obtain ⟨k₀, v₀⟩ := e₀
    have hm' := List.pairwise_cons.1 hm
    simp only [mapSet]
    split
    · rename_i hlt
      refine List.pairwise_cons.2 ⟨?_, hm⟩
      intro e he
      rcases List.mem_cons.1 he with he | he
      · rw [he]; exact hlt
      · exact keyLt_trans hlt (hm'.1 e he)
    · split
      · rename_i h₁ h₂
        subst h₂
        exact List.pairwise_cons.2 ⟨hm'.1, hm'.2⟩
      · rename_i h₁ h₂
        refine List.pairwise_cons.2 ⟨?_, ih hm'.2⟩
        intro e he
        rcases mem_mapSet he with he | he
        · rw [he]
          exact keyLt_total (by simpa using h₁) h₂
        · exact hm'.1 e he

theorem mapGet_eq_none_of_forall_lt {α : Type} {k : String} {m : List (String × α)}
    (h : ∀ e ∈ m, keyLt k e.1 = true) : mapGet k m = none := by
  induction m with
  | nil => rfl
  | cons e₀ rest ih =>
    obtain ⟨k₀, v₀⟩ := e₀
    have h₀ : k ≠ k₀ := keyLt_ne (h (k₀, v₀) (List.mem_cons_self _ _))
    simp [mapGet, h₀]
    exact ih (fun e he => h e (List.mem_cons_of_mem _ he))

theorem mapGet_of_mem {α : Type} {m : List (String × α)} (hm : KeysSorted m)
    {e : String × α} (he : e ∈ m) : mapGet e.1 m = some e.2 := by
  induction m with
  | nil => cases he
  | cons e₀ rest ih =>
    obtain ⟨k₀, v₀⟩ := e₀
    have hm' := List.pairwise_cons.1 hm
    rcases List.mem_cons.1 he with he | he
    · subst he; simp [mapGet]
    · have : e.1 ≠ k₀ := fun h => keyLt_ne (hm'.1 e he) h.symm
      simp [mapGet, this]
      exact ih hm'.2 he

theorem mem_of_mapGet {α : Type} {m : List (String × α)} {k : String} {v : α}
    (h : mapGet k m = some v) : (k, v) ∈ m := by
  induction m with
  | nil => simp [mapGet] at h
  | cons e₀ rest ih =>
    obtain ⟨k₀, v₀⟩ := e₀
    simp only [mapGet] at h
    split at h
    · rename_i hk
      cases h
      rw [hk]
      exact List.mem_cons_self _ _
    · exact List.mem_cons_of_mem _ (ih h)

theorem keysSorted_ext {α : Type} : ∀ {a b : List (String × α)},
    KeysSorted a → KeysSorted b → (∀ k, mapGet k a = mapGet k b) → a = b
  | [], [], _, _, _ => rfl
  | [], (k, v) :: _, _, _, h => by
    have := h k
    simp [mapGet] at this
  | (k, v) :: _, [], _, _, h => by
    have := h k
    simp [mapGet] at this
  | (k₁, v₁) :: r₁, (k₂, v₂) :: r₂, ha, hb, h => by
    have ha' := List.pairwise_cons.1 ha
    have hb' := List.pairwise_cons.1 hb
    have hk : k₁ = k₂ := by
      by_contra hne
      have h₁ := h k₁
      have h₂ := h k₂
      simp only [mapGet, if_true, if_neg hne, if_neg (Ne.symm hne)] at h₁ h₂
      have m₁ := hb'.1 _ (mem_of_mapGet h₁.symm)
      have m₂ := ha'.1 _ (mem_of_mapGet h₂)
      have := keyLt_asymm m₁
      simp at m₁ m₂ this
      rw [m₂] at this
      exact absurd this (by simp)
    subst hk
    have hv : v₁ = v₂ := by
      have := h k₁
      simpa [mapGet] using this
    subst hv
    have hr : r₁ = r₂ := by
      apply keysSorted_ext ha'.2 hb'.2
      intro k
      by_cases hk : k = k₁
      · subst hk
        rw [mapGet_eq_none_of_forall_lt ha'.1, mapGet_eq_none_of_forall_lt hb'.1]
      · have := h k
        simpa [mapGet, hk] using this
    rw [hr]

theorem mapSet_append_last {α : Type} (k : String) (v : α) (acc : List (String × α))
    (h : ∀ e ∈ acc, keyLt e.1 k = true) : mapSet k v acc = acc ++ [(k, v)] := by
  induction acc with
  | nil => rfl
  | cons e₀ rest ih =>
    obtain ⟨k₀, v₀⟩ := e₀
    have h₀ : keyLt k₀ k = true := h (k₀, v₀) (List.mem_cons_self _ _)
    have h₁ : keyLt k k₀ = false := keyLt_asymm h₀
    have h₂ : k ≠ k₀ := Ne.symm (keyLt_ne h₀)
    simp only [mapSet, h₁, h₂, if_false, Bool.false_eq_true, List.cons_append]
    rw [ih (fun e he => h e (List.mem_cons_of_mem _ he))]

mutual
theorem jsonUnmarshalAny_jsonMarshal {B F : Type} (L : Lib B F) :
    ∀ p : Plain F, Canonical L p → jsonUnmarshalAny L (jsonMarshal L p) = .ok p
  | .null, _ => rfl
  | .bool _, _ => rfl
  | .num n, h => by
    simp only [Canonical] at h
    simp [jsonMarshal, jsonUnmarshalAny, h]
  | .str _, _ => rfl
  | .arr items, h => by
    simp only [jsonMarshal, jsonUnmarshalAny]
    rw [jsonUnmarshalAnyList_jsonMarshalList L items (by simpa [Canonical] using h)]
  | .obj members, h => by
    simp only [Canonical] at h
    simp only [jsonMarshal, jsonUnmarshalAny]
    rw [jsonUnmarshalAnyMembers_jsonMarshalMembers L members [] h.2 (by simpa using h.1)]
    rfl
theorem jsonUnmarshalAnyList_jsonMarshalList {B F : Type} (L : Lib B F) :
    ∀ ps : List (Plain F), CanonicalList L ps →
      jsonUnmarshalAnyList L (jsonMarshalList L ps) = .ok ps
  | [], _ => rfl
  | p :: rest, h => by
    simp only [CanonicalList] at h
    simp only [jsonMarshalList, jsonUnmarshalAnyList]
    rw [jsonUnmarshalAny_jsonMarshal L p h.1,
      jsonUnmarshalAnyList_jsonMarshalList L rest h.2]
theorem jsonUnmarshalAnyMembers_jsonMarshalMembers {B F : Type} (L : Lib B F) :
    ∀ (m acc : List (String × Plain F)), CanonicalMembers L m → KeysSorted (acc ++ m) →
      jsonUnmarshalAnyMembers L (jsonMarshalMembers L m) acc = .ok (acc ++ m)
  | [], acc, _, _ => by simp [jsonMarshalMembers, jsonUnmarshalAnyMembers]
  | (k, p) :: rest, acc, h, hs => by
    simp only [CanonicalMembers] at h
    simp only [jsonMarshalMembers, jsonUnmarshalAnyMembers]
    rw [jsonUnmarshalAny_jsonMarshal L p h.1]
    have hlt : ∀ e ∈ acc, keyLt e.1 k = true := by
      intro e he
      have := (List.pairwise_append.1 hs).2.2 e he (k, p) (List.mem_cons_self _ _)
      exact this
    simp only []
    rw [mapSet_append_last k p acc hlt]
    rw [jsonUnmarshalAnyMembers_jsonMarshalMembers L rest (acc ++ [(k, p)]) h.2
      (by simpa using hs)]
    simp
end

theorem canonicalMembers_iff {B F : Type} (L : Lib B F) (m : List (String × Plain F)) :
    CanonicalMembers L m ↔ ∀ e ∈ m, Canonical L e.2 := by
  induction m with
  | nil => simp [CanonicalMembers]
  | cons e rest ih =>
    obtain ⟨k, p⟩ := e
    simp [CanonicalMembers, ih]

theorem canonicalMembers_mapSet {B F : Type} (L : Lib B F) {k : String} {p : Plain F}
    {m : List (String × Plain F)} (hp : Canonical L p) (h : CanonicalMembers L m) :
    CanonicalMembers L (mapSet k p m) := by
  rw [canonicalMembers_iff] at h ⊢
  intro e he
  rcases mem_mapSet he with he | he
  · rw [he]; exact hp
  · exact h e he

mutual
/-- A value that `json.Unmarshal` stored is canonical: its maps are Go maps,
and its numbers are values that `strconv.ParseFloat` returned. -/
theorem canonical_of_jsonUnmarshalAny {B F : Type} (L : Lib B F)
    (hL : ∀ t f, L.parseFloat t = some f → L.parseFloat (L.formatFloat f) = some f) :
    ∀ (j : Json) (p : Plain F), jsonUnmarshalAny L j = .ok p → Canonical L p
  | .null, p, h => by
    simp only [jsonUnmarshalAny] at h
    cases h; trivial
  | .bool _, p, h => by
    simp only [jsonUnmarshalAny] at h
    cases h; trivial
  | .num lit, p, h => by
    simp only [jsonUnmarshalAny] at h
    cases hf : L.parseFloat lit with
    | none => simp [hf] at h
    | some f =>
      simp only [hf] at h
      cases h
      exact hL lit f hf
  | .str _, p, h => by
    simp only [jsonUnmarshalAny] at h
    cases h; trivial
  | .arr items, p, h => by
    simp only [jsonUnmarshalAny] at h
    cases hl : jsonUnmarshalAnyList L items with
    | error e => simp [hl] at h
    | ok ps =>
      simp only [hl] at h
      cases h
      exact canonicalList_of_jsonUnmarshalAny L hL items ps hl
  | .obj members, p, h => by
    simp only [jsonUnmarshalAny] at h
    cases hm : jsonUnmarshalAnyMembers L members [] with
    | error e => simp [hm] at h
    | ok m =>
      simp only [hm] at h
      cases h
      exact canonicalMembers_of_jsonUnmarshalAny L hL members [] m hm
        (by simp [KeysSorted]) (by simp [CanonicalMembers])
theorem canonicalList_of_jsonUnmarshalAny {B F : Type} (L : Lib B F)
    (hL : ∀ t f, L.parseFloat t = some f → L.parseFloat (L.formatFloat f) = some f) :
    ∀ (js : List Json) (ps : List (Plain F)), jsonUnmarshalAnyList L js = .ok ps →
      CanonicalList L ps
  | [], ps, h => by
    simp only [jsonUnmarshalAnyList] at h
    cases h; trivial
  | j :: rest, ps, h => by
    simp only [jsonUnmarshalAnyList] at h
    cases hj : jsonUnmarshalAny L j with
    | error e => simp [hj] at h
    | ok p =>
      simp only [hj] at h
      cases hr : jsonUnmarshalAnyList L rest with
      | error e => simp [hr] at h
      | ok qs =>
        simp only [hr] at h
        cases h
        exact ⟨canonical_of_jsonUnmarshalAny L hL j p hj,
          canonicalList_of_jsonUnmarshalAny L hL rest qs hr⟩
theorem canonicalMembers_of_jsonUnmarshalAny {B F : Type} (L : Lib B F)
    (hL : ∀ t f, L.parseFloat t = some f → L.parseFloat (L.formatFloat f) = some f) :
    ∀ (members : List (String × Json)) (acc m : List (String × Plain F)),
      jsonUnmarshalAnyMembers L members acc = .ok m →
      KeysSorted acc → CanonicalMembers L acc → KeysSorted m ∧ CanonicalMembers L m
  | [], acc, m, h, hs, hc => by
    simp only [jsonUnmarshalAnyMembers] at h
    cases h
    exact ⟨hs, hc⟩
  | (k, j) :: rest, acc, m, h, hs, hc => by
    simp only [jsonUnmarshalAnyMembers] at h
    cases hj : jsonUnmarshalAny L j with
    | error e => simp [hj] at h
    | ok p =>
      simp only [hj] at h
      exact canonicalMembers_of_jsonUnmarshalAny L hL rest (mapSet k p acc) m h
        (keysSorted_mapSet k p hs)
        (canonicalMembers_mapSet L (canonical_of_jsonUnmarshalAny L hL j p hj) hc)
end

/-! ## Decoded types -/

theorem attrsWF_iff (atys : List (String × CtyType)) :
    AttrsWF atys ↔ ∀ e ∈ atys, TypeWF e.2 := by
  induction atys with
  | nil => simp [AttrsWF]
  | cons e rest ih =>
    obtain ⟨k, t⟩ := e
    simp [AttrsWF, ih]

theorem attrsWF_mapSet {k : String} {t : CtyType} {atys : List (String × CtyType)}
    (ht : TypeWF t) (h : AttrsWF atys) : AttrsWF (mapSet k t atys) := by
  rw [attrsWF_iff] at h ⊢
  intro e he
  rcases mem_mapSet he with he | he
  · rw [he]; exact ht
  · exact h e he

theorem typeWF_of_mapGet {k : String} {t : CtyType} {atys : List (String × CtyType)}
    (h : AttrsWF atys) (hk : mapGet k atys = some t) : TypeWF t :=
  (attrsWF_iff atys).1 h (k, t) (mem_of_mapGet hk)

mutual
theorem typeWF_of_knownType (nfc : String → String) :
    ∀ (j : Json) (ty : CtyType), knownType nfc j = some ty → TypeWF ty
  | .str s, ty, h => by
    simp only [knownType] at h
    split at h
    · cases h; trivial
    · split at h
      · cases h; trivial
      · split at h
        · cases h; trivial
        · cases h
  | .arr [.str kind, .obj members], ty, h => by
    simp only [knownType] at h
    split at h
    · cases hm : knownAttrTypes nfc members [] with
      | none => rw [hm] at h; cases h
      | some atys =>
        rw [hm] at h
        cases h
        have := attrTypesWF_of_known nfc members [] atys hm
          (by simp [KeysSorted]) (by simp [AttrsWF])
        exact this
    · cases h
  | .arr [.str kind, .null], ty, h => by
    simp only [knownType] at h
    split at h <;> cases h
  | .arr [.str kind, .bool _], ty, h => by
    simp only [knownType] at h
    split at h <;> cases h
  | .arr [.str kind, .num _], ty, h => by
    simp only [knownType] at h
    split at h <;> cases h
  | .arr [.str kind, .str s], ty, h => by
    rw [knownType] at h
    case x_1 => intro _ hc; cases hc
    split at h
    · cases he : knownType nfc (.str s) with
      | none => rw [he] at h; cases h
      | some ety =>
        rw [he] at h
        cases h
        exact typeWF_of_knownType nfc (.str s) ety he
    · cases h
  | .arr [.str kind, .arr items], ty, h => by
    rw [knownType] at h
    case x_1 => intro _ hc; cases hc
    split at h
    · cases he : knownType nfc (.arr items) with
      | none => rw [he] at h; cases h
      | some ety =>
        rw [he] at h
        cases h
        exact typeWF_of_knownType nfc (.arr items) ety he
    · cases h
  | .arr [], ty, h => by simp [knownType] at h
  | .arr [_], ty, h => by simp [knownType] at h
  | .arr (.null :: _ :: _), ty, h => by simp [knownType] at h
  | .arr (.bool _ :: _ :: _), ty, h => by simp [knownType] at h
  | .arr (.num _ :: _ :: _), ty, h => by simp [knownType] at h
  | .arr (.arr _ :: _ :: _), ty, h => by simp [knownType] at h
  | .arr (.obj _ :: _ :: _), ty, h => by simp [knownType] at h
  | .arr (.str _ :: _ :: _ :: _), ty, h => by simp [knownType] at h
  | .null, ty, h => by simp [knownType] at h
  | .bool _, ty, h => by simp [knownType] at h
  | .num _, ty, h => by simp [knownType] at h
  | .obj _, ty, h => by simp [knownType] at h
theorem attrTypesWF_of_known (nfc : String → String) :
    ∀ (members : List (String × Json)) (acc atys : List (String × CtyType)),
      knownAttrTypes nfc members acc = some atys →
      KeysSorted acc → AttrsWF acc → KeysSorted atys ∧ AttrsWF atys
  | [], acc, atys, h, hs, hw => by
    simp only [knownAttrTypes] at h
    cases h
    exact ⟨hs, hw⟩
  | (k, j) :: rest, acc, atys, h, hs, hw => by
    simp only [knownAttrTypes] at h
    split at h
    · cases hj : knownType nfc j with
      | none => rw [hj] at h; cases h
      | some t =>
        rw [hj] at h
        exact attrTypesWF_of_known nfc rest (mapSet k t acc) atys h
          (keysSorted_mapSet k t hs) (attrsWF_mapSet (typeWF_of_knownType nfc j t hj) hw)
    · cases h
end

/-! ## Decoding a value under its type -/

theorem plainUnderMembers_keys {B F : Type} (L : Lib B F) (atys : List (String × CtyType)) :
    ∀ (ms : List (String × Json)) (acc pm : List (String × Plain F)),
      plainUnderMembers L ms atys acc = some pm →
      (KeysSorted acc → KeysSorted pm) ∧
      (∀ k, (mapGet k pm).isSome = ((mapGet k acc).isSome || decide (k ∈ ms.map Prod.fst))) ∧
      (∀ e ∈ ms, (mapGet e.1 atys).isSome = true) := by
  intro ms
  induction ms with
  | nil =>
    intro acc pm h
    simp only [plainUnderMembers] at h
    cases h
    simp
  | cons e rest ih =>
    obtain ⟨k, j⟩ := e
    intro acc pm h
    simp only [plainUnderMembers] at h
    cases ha : mapGet k atys with
    | none => simp [ha] at h
    | some aty =>
      simp only [ha] at h
      cases hp : plainUnder L j aty with
      | none => simp [hp] at h
      | some p =>
        simp only [hp] at h
        obtain ⟨h₁, h₂, h₃⟩ := ih _ _ h
        refine ⟨fun hs => h₁ (keysSorted_mapSet k p hs), ?_, ?_⟩
        · intro k'
          rw [h₂ k', mapGet_mapSet]
          by_cases hk : k' = k
          · simp [hk]
          · have hb : (k' == k) = false := by simpa using hk
            simp [hk, hb]
        · intro e he
          rcases List.mem_cons.1 he with he | he
          · rw [he]; simp [ha]
          · exact h₃ e he

theorem unmarshalObject_sorted {B F : Type} (L : Lib B F) (atys : List (String × CtyType)) :
    ∀ (ms : List (String × Json)) (vals vals' : List (String × CtyVal B)),
      ctyjson.unmarshalObject L ms atys vals = .ok vals' → KeysSorted vals → KeysSorted vals' := by
  intro ms
  induction ms with
  | nil =>
    intro vals vals' h hs
    simp only [ctyjson.unmarshalObject] at h
    cases h
    exact hs
  | cons e rest ih =>
    obtain ⟨k, j⟩ := e
    intro vals vals' h hs
    simp only [ctyjson.unmarshalObject] at h
    cases ha : mapGet k atys with
    | none => simp [ha] at h
    | some aty =>
      simp only [ha] at h
      cases hp : ctyjson.unmarshal L j aty with
      | error e => simp [hp] at h
      | ok el =>
        simp only [hp] at h
        exact ih _ _ h (keysSorted_mapSet k el hs)

theorem fillMissing_eq_self {B : Type} (vals : List (String × CtyVal B)) :
    ∀ (atys : List (String × CtyType)), (∀ e ∈ atys, (mapGet e.1 vals).isSome = true) →
      ctyjson.fillMissing atys vals = vals := by
  intro atys
  induction atys with
  | nil => intro _; rfl
  | cons e rest ih =>
    obtain ⟨k, t⟩ := e
    intro h
    have hk := h (k, t) (List.mem_cons_self _ _)
    simp only [ctyjson.fillMissing]
    cases hv : mapGet k vals with
    | none => rw [hv] at hk; cases hk
    | some v =>
      simp only []
      exact ih (fun e he => h e (List.mem_cons_of_mem _ he))

theorem marshalAttrs_decode {B F : Type} (L : Lib B F) (atys : List (String × CtyType))
    (vals : List (String × CtyVal B)) (pm : List (String × Plain F))
    (hrel : ∀ k, MarshalsTo L atys k (mapGet k vals) (mapGet k pm)) :
    ∀ (rest : List (String × CtyType)) (acc : List (String × Plain F)),
      (∀ e ∈ rest, mapGet e.1 atys = some e.2) →
      (∀ e ∈ rest, (mapGet e.1 pm).isSome = true) →
      ∃ js fin, ctyjson.marshalAttrs L vals rest = .ok js ∧
        jsonUnmarshalAnyMembers L js acc = .ok fin ∧
        (KeysSorted acc → KeysSorted fin) ∧
        ∀ k, mapGet k fin = if k ∈ rest.map Prod.fst then mapGet k pm else mapGet k acc := by
  intro rest
  induction rest with
  | nil =>
    intro acc _ _
    exact ⟨[], acc, rfl, rfl, id, fun k => by simp⟩
  | cons e rest ih =>
    obtain ⟨k₀, aty₀⟩ := e
    intro acc h₁ h₂
    have ha := h₁ (k₀, aty₀) (List.mem_cons_self _ _)
    have hp := h₂ (k₀, aty₀) (List.mem_cons_self _ _)
    have hr := hrel k₀
    simp only at ha hp
    cases hpm : mapGet k₀ pm with
    | none => rw [hpm] at hp; cases hp
    | some p =>
      cases hv : mapGet k₀ vals with
      | none => rw [hpm, hv] at hr; exact absurd hr (by simp [MarshalsTo])
      | some cv =>
        rw [hpm, hv] at hr
        obtain ⟨j, hj₁, hj₂⟩ := hr aty₀ ha
        obtain ⟨js, fin, hjs, hF, hs, hget⟩ := ih (mapSet k₀ p acc)
          (fun e he => h₁ e (List.mem_cons_of_mem _ he))
          (fun e he => h₂ e (List.mem_cons_of_mem _ he))
        refine ⟨(k₀, j) :: js, fin, ?_, ?_, fun hacc => hs (keysSorted_mapSet k₀ p hacc), ?_⟩
        · simp only [ctyjson.marshalAttrs, hv, hj₁, hjs]
        · simp only [jsonUnmarshalAnyMembers, hj₂, hF]
        · intro k
          rw [hget k, mapGet_mapSet]
          by_cases hk : k = k₀
          · subst hk
            simp [hpm]
          · simp only [List.map_cons, List.mem_cons, hk, false_or, if_false]

theorem floatOf_eq_some {B F : Type} (L : Lib B F) {text : String} {f : F}
    (h : floatOf L text = some f) :
    ∃ n written, L.parseNumberVal text = some n ∧ L.numberText n = some written ∧
      L.parseFloat written = some f := by
  simp only [floatOf] at h
  cases hn : L.parseNumberVal text with
  | none => simp [hn] at h
  | some n =>
    simp only [hn] at h
    cases hw : L.numberText n with
    | none => simp [hw] at h
    | some written =>
      simp only [hw] at h
      exact ⟨n, written, rfl, hw, h⟩

mutual
theorem convert_of_plainUnder {B F : Type} (L : Lib B F) :
    ∀ (v : Json) (ty : CtyType) (p : Plain F), TypeWF ty → plainUnder L v ty = some p →
      ∃ cv j, ctyjson.unmarshal L v ty = .ok cv ∧ ctyjson.marshal L cv ty = .ok j ∧
        jsonUnmarshalAny L j = .ok p
  | .null, ty, p, _, h => by
    have hp : p = .null := by cases ty <;> simp [plainUnder] at h <;> exact h.symm
    subst hp
    refine ⟨.null, .null, ?_, ?_, rfl⟩
    · cases ty <;> simp [ctyjson.unmarshal]
    · cases ty <;> simp [ctyjson.marshal]
  | .bool b, ty, p, _, h => by
    cases ty <;> simp [plainUnder] at h
    subst h
    exact ⟨.bool b, .bool b, by simp [ctyjson.unmarshal], by simp [ctyjson.marshal], rfl⟩
  | .num lit, ty, p, _, h => by
    cases ty <;> simp [plainUnder] at h
    obtain ⟨f, hf, hp⟩ := h
    subst hp
    obtain ⟨n, written, hn, hwr, hpf⟩ := floatOf_eq_some L hf
    exact ⟨.number n, .num written, by simp [ctyjson.unmarshal, hn],
      by simp [ctyjson.marshal, hwr], by simp [jsonUnmarshalAny, hpf]⟩
  | .str s, ty, p, _, h => by
    cases ty <;> simp [plainUnder] at h
    · split at h
      · rename_i hs
        cases h
        exact ⟨.bool true, .bool true, by simp [ctyjson.unmarshal, hs],
          by simp [ctyjson.marshal], rfl⟩
      · split at h
        · rename_i hs₁ hs
          cases h
          refine ⟨.bool false, .bool false, ?_, by simp [ctyjson.marshal], rfl⟩
          simp [ctyjson.unmarshal, hs]
        · cases h
    · obtain ⟨f, hf, hp⟩ := h
      subst hp
      obtain ⟨n, written, hn, hwr, hpf⟩ := floatOf_eq_some L hf
      exact ⟨.number n, .num written, by simp [ctyjson.unmarshal, hn],
        by simp [ctyjson.marshal, hwr], by simp [jsonUnmarshalAny, hpf]⟩
    · subst h
      exact ⟨.string (L.nfc s), .str (L.nfc s), by simp [ctyjson.unmarshal],
        by simp [ctyjson.marshal], rfl⟩
  | .arr items, ty, p, hw, h => by
    cases ty <;> simp [plainUnder] at h
    rename_i ety
    obtain ⟨ps, hps, hp⟩ := h
    subst hp
    obtain ⟨cvs, js, h₁, h₂, h₃⟩ :=
      convertList_of_plainUnder L items ety ps (by simpa [TypeWF] using hw) hps
    exact ⟨.list cvs, .arr js, by simp [ctyjson.unmarshal, h₁], by simp [ctyjson.marshal, h₂],
      by simp [jsonUnmarshalAny, h₃]⟩
  | .obj ms, ty, p, hw, h => by
    cases ty <;> simp [plainUnder] at h
    rename_i atys
    obtain ⟨hall, pm, hpm, hp⟩ := h
    subst hp
    simp only [TypeWF] at hw
    obtain ⟨vals, hvals, hrel⟩ := convertMembers_of_plainUnder L ms atys [] [] pm hw.2
      (fun k => by simp [mapGet, MarshalsTo]) hpm
    obtain ⟨hsorted, hkeys, hattr⟩ := plainUnderMembers_keys L atys ms [] pm hpm
    have hvs : KeysSorted vals :=
      unmarshalObject_sorted L atys ms [] vals hvals (by simp [KeysSorted])
    have hpmSome : ∀ e ∈ atys, (mapGet e.1 pm).isSome = true := by
      intro e he
      rw [hkeys e.1]
      obtain ⟨x, hx⟩ := hall e.1 e.2 he
      simp only [mapGet, Option.isSome_none, Bool.false_or, decide_eq_true_eq, List.mem_map]
      exact ⟨(e.1, x), hx, rfl⟩
    have hvSome : ∀ e ∈ atys, (mapGet e.1 vals).isSome = true := by
      intro e he
      have h₁ := hpmSome e he
      have h₂ := hrel e.1
      cases hv : mapGet e.1 vals with
      | some _ => rfl
      | none =>
        cases hq : mapGet e.1 pm with
        | none => rw [hq] at h₁; cases h₁
        | some q => rw [hv, hq] at h₂; exact absurd h₂ (by simp [MarshalsTo])
    obtain ⟨js, fin, hjs, hF, hFs, hget⟩ := marshalAttrs_decode L atys vals pm hrel atys []
      (fun e he => mapGet_of_mem hw.1 he) hpmSome
    have hFpm : fin = pm := by
      apply keysSorted_ext (hFs (by simp [KeysSorted])) (hsorted (by simp [KeysSorted]))
      intro k
      rw [hget k]
      split
      · rfl
      · rename_i hk
        cases hq : mapGet k pm with
        | none => rfl
        | some q =>
          exfalso
          have h₁ := hkeys k
          rw [hq] at h₁
          simp only [mapGet, Option.isSome_some, Option.isSome_none, Bool.false_or,
            Bool.true_eq, decide_eq_true_eq, List.mem_map] at h₁
          obtain ⟨m, hm, hmk⟩ := h₁
          have h₂ := hattr m hm
          rw [hmk] at h₂
          cases ha : mapGet k atys with
          | none => rw [ha] at h₂; cases h₂
          | some aty =>
            exact hk (List.mem_map.2 ⟨(k, aty), mem_of_mapGet ha, rfl⟩)
    subst hFpm
    refine ⟨.object vals, .obj js, ?_, ?_, ?_⟩
    · simp [ctyjson.unmarshal, hvals, fillMissing_eq_self vals atys hvSome]
    · simp [ctyjson.marshal, hjs]
    · simp [jsonUnmarshalAny, hF]
theorem convertList_of_plainUnder {B F : Type} (L : Lib B F) :
    ∀ (items : List Json) (ety : CtyType) (ps : List (Plain F)), TypeWF ety →
      plainUnderList L items ety = some ps →
      ∃ cvs js, ctyjson.unmarshalList L items ety = .ok cvs ∧
        mapExcept (fun v => ctyjson.marshal L v ety) cvs = .ok js ∧
        jsonUnmarshalAnyList L js = .ok ps
  | [], ety, ps, _, h => by
    simp only [plainUnderList] at h
    cases h
    exact ⟨[], [], rfl, rfl, rfl⟩
  | j :: rest, ety, ps, hw, h => by
    simp only [plainUnderList] at h
    cases hp : plainUnder L j ety with
    | none => simp [hp] at h
    | some p =>
      cases hr : plainUnderList L rest ety with
      | none => simp [hp, hr] at h
      | some ps' =>
        simp only [hp, hr] at h
        cases h
        obtain ⟨cv, jj, h₁, h₂, h₃⟩ := convert_of_plainUnder L j ety p hw hp
        obtain ⟨cvs, js, g₁, g₂, g₃⟩ := convertList_of_plainUnder L rest ety ps' hw hr
        exact ⟨cv :: cvs, jj :: js, by simp [ctyjson.unmarshalList, h₁, g₁],
          by simp [mapExcept, h₂, g₂], by simp [jsonUnmarshalAnyList, h₃, g₃]⟩
theorem convertMembers_of_plainUnder {B F : Type} (L : Lib B F) :
    ∀ (ms : List (String × Json)) (atys : List (String × CtyType))
      (vals : List (String × CtyVal B)) (acc pm : List (String × Plain F)), AttrsWF atys →
      (∀ k, MarshalsTo L atys k (mapGet k vals) (mapGet k acc)) →
      plainUnderMembers L ms atys acc = some pm →
      ∃ vals', ctyjson.unmarshalObject L ms atys vals = .ok vals' ∧
        ∀ k, MarshalsTo L atys k (mapGet k vals') (mapGet k pm)
  | [], atys, vals, acc, pm, _, hrel, h => by
    simp only [plainUnderMembers] at h
    cases h
    exact ⟨vals, rfl, hrel⟩
  | (k, j) :: rest, atys, vals, acc, pm, hw, hrel, h => by
    simp only [plainUnderMembers] at h
    cases ha : mapGet k atys with
    | none => simp [ha] at h
    | some aty =>
      simp only [ha] at h
      cases hp : plainUnder L j aty with
      | none => simp [hp] at h
      | some p =>
        simp only [hp] at h
        obtain ⟨cv, jj, h₁, h₂, h₃⟩ :=
          convert_of_plainUnder L j aty p (typeWF_of_mapGet hw ha) hp
        have hrel' : ∀ k', MarshalsTo L atys k' (mapGet k' (mapSet k cv vals))
            (mapGet k' (mapSet k p acc)) := by
          intro k'
          rw [mapGet_mapSet, mapGet_mapSet]
          by_cases hk : k' = k
          · subst hk
            simp only [if_true, MarshalsTo]
            intro aty' haty'
            rw [ha] at haty'
            cases haty'
            exact ⟨jj, h₂, h₃⟩
          · simp only [hk, if_false]
            exact hrel k'
        obtain ⟨vals', hv, hr⟩ :=
          convertMembers_of_plainUnder L rest atys (mapSet k cv vals) (mapSet k p acc) pm
            hw hrel' h
        exact ⟨vals', by simp [ctyjson.unmarshalObject, ha, h₁, hv], hr⟩
end

/-! ## The state document -/

theorem equalFold_value_not_type {k : String} (h : equalFold k "value" = true) :
    equalFold k "type" = false := by
  simp only [equalFold, decide_eq_true_eq] at h
  simp only [equalFold, decide_eq_false_iff_not, h]
  decide

theorem unmarshalFields_eq (fields : List (String × Json)) :
    ∀ acc : tfOutputValue,
      unmarshalFields fields acc =
        { Value := (match lookupLast (fun k => equalFold k "value") fields with
            | some v => some v
            | none => acc.Value),
          ValueType := (match lookupLast (fun k => equalFold k "type") fields with
            | some t => some t
            | none => acc.ValueType) } := by
  induction fields with
  | nil => intro acc; rfl
  | cons e rest ih =>
    obtain ⟨k, v⟩ := e
    intro acc
    simp only [unmarshalFields, lookupLast]
    by_cases hv : equalFold k "value" = true
    · have ht := equalFold_value_not_type hv
      rw [if_pos hv, ih]
      cases lookupLast (fun k => equalFold k "value") rest <;>
        cases lookupLast (fun k => equalFold k "type") rest <;> simp [hv, ht]
    · rw [if_neg hv]
      by_cases ht : equalFold k "type" = true
      · rw [if_pos ht, ih]
        cases lookupLast (fun k => equalFold k "value") rest <;>
          cases lookupLast (fun k => equalFold k "type") rest <;> simp [hv, ht]
      · rw [if_neg ht, ih]
        cases lookupLast (fun k => equalFold k "value") rest <;>
          cases lookupLast (fun k => equalFold k "type") rest <;> simp [hv, ht]

theorem unmarshalOutput_of_typeValue {o t v : Json} (h : outputTypeValue o = some (t, v)) :
    unmarshalOutput o = .ok (some { Value := some v, ValueType := some t }) := by
  cases o <;> simp only [outputTypeValue] at h <;> try cases h
  rename_i fields
  simp only [unmarshalOutput, unmarshalFields_eq]
  cases ht : lookupLast (fun k => equalFold k "type") fields with
  | none => simp [ht] at h
  | some t' =>
    cases hv : lookupLast (fun k => equalFold k "value") fields with
    | none => simp [ht, hv] at h
    | some v' =>
      simp only [ht, hv, Option.some.injEq, Prod.mk.injEq] at h
      rw [h.1, h.2]

theorem lookupLast_mem {α : Type} {p : String → Bool} {l : List (String × α)} {v : α}
    (h : lookupLast p l = some v) : ∃ k, p k = true ∧ (k, v) ∈ l := by
  induction l with
  | nil => simp [lookupLast] at h
  | cons e rest ih =>
    obtain ⟨k₀, v₀⟩ := e
    simp only [lookupLast] at h
    cases hr : lookupLast p rest with
    | some x =>
      simp only [hr, Option.some.injEq] at h
      subst h
      obtain ⟨k, hk, hm⟩ := ih hr
      exact ⟨k, hk, List.mem_cons_of_mem _ hm⟩
    | none =>
      simp only [hr] at h
      split at h
      · rename_i hp
        cases h
        exact ⟨k₀, hp, List.mem_cons_self _ _⟩
      · cases h

theorem lookupLast_isSome_iff {α : Type} (name : String) (l : List (String × α)) :
    (lookupLast (fun k => decide (k = name)) l).isSome = true ↔ name ∈ l.map Prod.fst := by
  induction l with
  | nil => simp [lookupLast]
  | cons e rest ih =>
    obtain ⟨k₀, v₀⟩ := e
    simp only [lookupLast, List.map_cons, List.mem_cons]
    cases hr : lookupLast (fun k => decide (k = name)) rest with
    | some x =>
      rw [hr] at ih
      simp only [Option.isSome_some, true_iff] at ih
      simp [ih]
    | none =>
      rw [hr] at ih
      simp only [Option.isSome_none, Bool.false_eq_true, false_iff] at ih
      by_cases hk : k₀ = name
      · simp [hk]
      · simp [hk, ih, Ne.symm hk]

theorem unmarshalOutputs_of_typeValue :
    ∀ (outs : List (String × Json)) (acc : List (String × Option tfOutputValue)),
      (∀ e ∈ outs, (outputTypeValue e.2).isSome = true) →
      ∃ m, unmarshalOutputs outs acc = .ok m ∧ (KeysSorted acc → KeysSorted m) ∧
        ∀ name, mapGet name m =
          match lookupLast (fun k => decide (k = name)) outs with
          | some o => (outputTypeValue o).map
              (fun tv => some { Value := some tv.2, ValueType := some tv.1 })
          | none => mapGet name acc := by
  intro outs
  induction outs with
  | nil =>
    intro acc _
    exact ⟨acc, rfl, id, fun name => rfl⟩
  | cons e rest ih =>
    obtain ⟨k, o⟩ := e
    intro acc h
    have ho := h (k, o) (List.mem_cons_self _ _)
    cases htv : outputTypeValue o with
    | none => simp [htv] at ho
    | some tv =>
      obtain ⟨t, v⟩ := tv
      obtain ⟨m, hm, hs, hget⟩ := ih (mapSet k (some { Value := some v, ValueType := some t }) acc)
        (fun e he => h e (List.mem_cons_of_mem _ he))
      refine ⟨m, ?_, fun hacc => hs (keysSorted_mapSet _ _ hacc), ?_⟩
      · simp only [unmarshalOutputs, unmarshalOutput_of_typeValue htv, hm]
      · intro name
        rw [hget name]
        simp only [lookupLast]
        cases hr : lookupLast (fun k => decide (k = name)) rest with
        | some x => rfl
        | none =>
          simp only [mapGet_mapSet]
          by_cases hk : name = k
          · subst hk
            simp [htv]
          · simp [hk, Ne.symm hk]

theorem unmarshalStateMembers_skip :
    ∀ (members : List (String × Json)) (st : terraformState),
      members.filter (fun m => equalFold m.1 "outputs") = [] →
      unmarshalStateMembers members st = .ok st := by
  intro members
  induction members with
  | nil => intro st _; rfl
  | cons e rest ih =>
    obtain ⟨k, v⟩ := e
    intro st h
    by_cases hk : equalFold k "outputs" = true
    · simp [List.filter, hk] at h
    · simp only [List.filter, hk] at h
      simp only [unmarshalStateMembers, hk, if_false, Bool.false_eq_true]
      exact ih st h

theorem unmarshalStateMembers_outputs :
    ∀ (members : List (String × Json)) (st : terraformState) (k : String)
      (outs : List (String × Json)) (m : List (String × Option tfOutputValue)),
      members.filter (fun m => equalFold m.1 "outputs") = [(k, .obj outs)] →
      unmarshalOutputs outs st.Outputs = .ok m →
      unmarshalStateMembers members st = .ok { Outputs := m } := by
  intro members
  induction members with
  | nil => intro st k outs m h _; simp at h
  | cons e rest ih =>
    obtain ⟨k₀, v₀⟩ := e
    intro st k outs m h hm
    by_cases hk : equalFold k₀ "outputs" = true
    · simp only [List.filter, hk, List.cons.injEq, Prod.mk.injEq] at h
      obtain ⟨⟨_, hv⟩, hrest⟩ := h
      subst hv
      simp only [unmarshalStateMembers, hk, if_true, hm]
      exact unmarshalStateMembers_skip rest _ hrest
    · simp only [List.filter, hk] at h
      simp only [unmarshalStateMembers, hk, if_false, Bool.false_eq_true]
      exact ih st k outs m h hm

theorem decodeOutput_of_outputPlain {B F : Type} (L : Lib B F) (fullKey : String)
    {o t v : Json} {p : Plain F} (htv : outputTypeValue o = some (t, v))
    (hp : outputPlain L o = some p) :
    decodeOutput L fullKey { Value := some v, ValueType := some t } = .ok p := by
  simp only [outputPlain, htv] at hp
  cases hk : knownType L.nfc t with
  | some ty =>
    simp only [hk] at hp
    obtain ⟨cv, j, h₁, h₂, h₃⟩ :=
      convert_of_plainUnder L v ty p (typeWF_of_knownType L.nfc t ty hk) hp
    simp only [decodeOutput, ctyjson.UnmarshalType, hk, ctyjson.Unmarshal, h₁,
      ctyjson.Marshal, h₂, h₃]
  | none =>
    simp only [hk, otherPlain] at hp
    cases ht : L.otherType t with
    | some err => simp [ht] at hp
    | none =>
      simp only [ht] at hp
      cases hv : L.otherValue t (some v) with
      | panic msg => simp [hv] at hp
      | error err => simp [hv] at hp
      | ok marshaled =>
        cases marshaled with
        | panic msg => simp [hv] at hp
        | error err => simp [hv] at hp
        | ok text =>
          simp only [hv] at hp
          cases hj : jsonUnmarshalAny L text with
          | error err => simp [hj] at hp
          | ok q =>
            simp only [hj, Option.some.injEq] at hp
            subst hp
            simp only [decodeOutput, ctyjson.UnmarshalType, hk, ht, ctyjson.Unmarshal, hv,
              ctyjson.Marshal, hj]

/-- What `decodeOutput` returns is a value that `json.Unmarshal` stored. -/
theorem decodeOutput_ok_steps {B F : Type} (L : Lib B F) (fullKey : String)
    (rawValue : tfOutputValue) (p : Plain F)
    (h : decodeOutput L fullKey rawValue = .ok p) :
    ∃ tyText ctyType ctyValue ctyValueJson,
      rawValue.ValueType = some tyText ∧
      ctyjson.UnmarshalType L tyText = .ok ctyType ∧
      ctyjson.Unmarshal L rawValue.Value ctyType = .ok ctyValue ∧
      ctyjson.Marshal L ctyValue ctyType = .ok ctyValueJson ∧
      jsonUnmarshalAny L ctyValueJson = .ok p := by
  simp only [decodeOutput] at h
  cases hty : rawValue.ValueType with
  | none => simp [hty] at h
  | some tyText =>
    simp only [hty] at h
    cases ht : ctyjson.UnmarshalType L tyText with
    | error err => simp [ht] at h
    | ok ctyType =>
      simp only [ht] at h
      cases hv : ctyjson.Unmarshal L rawValue.Value ctyType with
      | panic msg => simp [hv] at h
      | error err => simp [hv] at h
      | ok ctyValue =>
        simp only [hv] at h
        cases hm : ctyjson.Marshal L ctyValue ctyType with
        | panic msg => simp [hm] at h
        | error err => simp [hm] at h
        | ok ctyValueJson =>
          simp only [hm] at h
          cases hj : jsonUnmarshalAny L ctyValueJson with
          | error err => simp [hj] at h
          | ok q =>
            simp only [hj, Outcome.ok.injEq] at h
            subst h
            exact ⟨tyText, ctyType, ctyValue, ctyValueJson, rfl, ht, hv, hm, hj⟩

theorem canonical_of_decodeOutput {B F : Type} (L : Lib B F)
    (hL : ∀ t f, L.parseFloat t = some f → L.parseFloat (L.formatFloat f) = some f)
    (fullKey : String) (rawValue : tfOutputValue) (p : Plain F)
    (h : decodeOutput L fullKey rawValue = .ok p) : Canonical L p := by
  obtain ⟨_, _, _, j, _, _, _, _, hj⟩ := decodeOutput_ok_steps L fullKey rawValue p h
  exact canonical_of_jsonUnmarshalAny L hL j p hj

theorem decodeOutputs_ok {B F : Type} (L : Lib B F) (fullKey : String) :
    ∀ (m : List (String × Option tfOutputValue)) (acc : List (String × Plain F)),
      KeysSorted m →
      (∀ e ∈ m, ∃ rv p, e.2 = some rv ∧ decodeOutput L fullKey rv = .ok p ∧ Canonical L p) →
      ∃ res, decodeOutputs L fullKey m acc = .ok res ∧
        (KeysSorted acc → KeysSorted res) ∧
        (CanonicalMembers L acc → CanonicalMembers L res) ∧
        ∀ name, mapGet name res =
          match mapGet name m with
          | some (some rv) =>
            (match decodeOutput L fullKey rv with
            | .ok p => some p
            | _ => none)
          | _ => mapGet name acc := by
  intro m
  induction m with
  | nil =>
    intro acc _ _
    exact ⟨acc, rfl, id, id, fun name => rfl⟩
  | cons e rest ih =>
    obtain ⟨k, o⟩ := e
    intro acc hs h
    have hs' := List.pairwise_cons.1 hs
    obtain ⟨rv, p, ho, hd, hc⟩ := h (k, o) (List.mem_cons_self _ _)
    simp only at ho
    subst ho
    obtain ⟨res, hres, h₁, h₂, hget⟩ := ih (mapSet k p acc) hs'.2
      (fun e he => h e (List.mem_cons_of_mem _ he))
    refine ⟨res, ?_, fun ha => h₁ (keysSorted_mapSet k p ha),
      fun ha => h₂ (canonicalMembers_mapSet L hc ha), ?_⟩
    · simp only [decodeOutputs, hd, hres]
    · intro name
      rw [hget name]
      by_cases hk : name = k
      · subst hk
        rw [mapGet_eq_none_of_forall_lt hs'.1]
        simp [mapGet, mapGet_mapSet_self, hd]
      · simp only [mapGet, hk, if_false]
        cases hr : mapGet name rest with
        | none => simp [mapGet_mapSet_ne p acc hk]
        | some x =>
          cases x with
          | none => simp [mapGet_mapSet_ne p acc hk]
          | some rv' => rfl

/-! ## `RemoteTerraformState.Get` -/

theorem digitsValue_append (l : List Char) (c : Char) :
    ∀ acc, digitsValue (l ++ [c]) acc =
      match digitsValue l acc with
      | some a => if 48 ≤ c.toNat ∧ c.toNat ≤ 57 then some (10 * a + (c.toNat - 48)) else none
      | none => none := by
  induction l with
  | nil => intro acc; simp [digitsValue]
  | cons d rest ih =>
    intro acc
    simp only [List.cons_append, digitsValue]
    split
    · exact ih _
    · rfl

theorem toNat_digit (d : Nat) (h : d < 10) : (Char.ofNat (48 + d)).toNat = 48 + d := by
  interval_cases d <;> rfl

theorem natDigits_ne_nil (fuel n : Nat) : natDigits (fuel + 1) n ≠ [] := by
  simp [natDigits]

theorem digitsValue_natDigits : ∀ (fuel n : Nat), n < fuel →
    digitsValue (natDigits fuel n).reverse 0 = some n
  | 0, _, h => absurd h (Nat.not_lt_zero _)
  | fuel + 1, n, h => by
    have hd : n % 10 < 10 := Nat.mod_lt _ (by decide)
    simp only [natDigits, List.reverse_cons]
    rw [digitsValue_append]
    by_cases hn : n < 10
    · simp only [if_pos hn, List.reverse_nil, digitsValue, toNat_digit _ hd]
      rw [if_pos (by omega)]
      congr 1
      omega
    · simp only [if_neg hn]
      rw [digitsValue_natDigits fuel (n / 10) (by omega)]
      simp only [toNat_digit _ hd]
      rw [if_pos (by omega)]
      congr 1
      omega

theorem decimalValue_decimalText (n : Nat) : decimalValue (decimalText n) = some n := by
  simp only [decimalValue, decimalText]
  rw [if_neg (by simpa using natDigits_ne_nil n n)]
  exact digitsValue_natDigits (n + 1) n (Nat.lt_succ_self n)

theorem decimalLib_roundtrip : ∀ t f, decimalLib.parseFloat t = some f →
    decimalLib.parseFloat (decimalLib.formatFloat f) = some f := by
  intro t f h
  simp only [decimalLib] at h ⊢
  rw [decimalValue_decimalText]
  cases ht : decimalValue t with
  | none => simp [ht] at h
  | some n =>
    simp only [ht] at h
    split at h
    · rename_i hlt
      cases h
      simp only [if_pos hlt]
    · cases h

/-- The document `largeNumberState`: the number is read by `cty` and written
out again, and `json.Unmarshal` refuses the text. -/
theorem get_largeNumberState :
    RemoteTerraformState.Get decimalLib (exampleJsonOf largeNumberState)
        (constFetcher (some [123])) "bucket/env/terraform.tfstate" =
      .error ("failed to unmarshal marshaled ctyValue bucket/env/terraform.tfstate: " ++
        "json: cannot unmarshal number " ++ String.mk ('1' :: List.replicate 400 '0') ++
        " into Go value of type float64") := by
  set_option maxRecDepth 100000 in rfl

/-- C1 (the claim as stated fails): a state document whose one output is the
number written as 1 and 400 zeros is well formed, but
`RemoteTerraformState.Get` returns an error: `cty` holds the number and writes
it out, and the text is no `float64`.  And for a string output that is not
normalised (an `e` with a combining accent after it), the value returned is the
normalised string, which is not the string that the document gives. -/
theorem get_fails_outside_float64 :
    RemoteTerraformState.Get decimalLib (exampleJsonOf largeNumberState)
        (constFetcher (some [123])) "bucket/env/terraform.tfstate" =
      .error ("failed to unmarshal marshaled ctyValue bucket/env/terraform.tfstate: " ++
        "json: cannot unmarshal number " ++ String.mk ('1' :: List.replicate 400 '0') ++
        " into Go value of type float64") ∧
    RemoteTerraformState.Get decimalLib (exampleJsonOf accentState)
        (constFetcher (some [123])) "bucket/env/terraform.tfstate" =
      .ok [("name", .str "caf\u00e9")] ∧
    "caf\u00e9" ≠ "cafe\u0301" :=
  ⟨get_largeNumberState, rfl, by decide⟩

/-- C1 (amended): for every state document that is an object with one `outputs`
object in which each output has a `value` valid for the type its `type`
describes, every number within the range of `float64`,
`RemoteTerraformState.Get` on the fetched document succeeds, the keys of the
mapping it returns are exactly the output names, and the value at each name is
the plain value of that output under its type (a string, brought to
normalisation form C, for a string output, a `float64` for a number output also
when the text gives the number as a string, a mapping for an object output; for
a type that is not built from the primitive types, lists and objects, the
decoding of the text that `cty` writes for the value); no type description is
part of the plain value under a type built from primitive types, lists and
objects. -/
theorem get_decodes_wellFormed_state {B F : Type} (L : Lib B F)
    (hL : ∀ t f, L.parseFloat t = some f → L.parseFloat (L.formatFloat f) = some f)
    (jsonOf : Bytes → Option Json)
    (fetcher : String → Except String Bytes) (fullKey : String) (data : Bytes) (doc : Json)
    (outs : List (String × Json))
    (hfetch : fetcher fullKey = .ok data) (hjson : jsonOf data = some doc)
    (hdoc : documentOutputs doc = some outs)
    (hvalid : outs.all (fun o => (outputPlain L o.2).isSome) = true) :
    ∃ result, RemoteTerraformState.Get L jsonOf fetcher fullKey = .ok result ∧
      (∀ name, (mapGet name result).isSome = true ↔ name ∈ outs.map Prod.fst) ∧
      (∀ name, mapGet name result =
        (lookupLast (fun k => decide (k = name)) outs).bind (outputPlain L)) := by
  have hwf : ∀ e ∈ outs, ∃ t v p, outputTypeValue e.2 = some (t, v) ∧
      outputPlain L e.2 = some p := by
    intro e he
    have h := List.all_eq_true.1 hvalid e he
    cases hp : outputPlain L e.2 with
    | none => simp [hp] at h
    | some p =>
      cases htv : outputTypeValue e.2 with
      | none => simp [outputPlain, htv] at hp
      | some tv =>
        obtain ⟨t, v⟩ := tv
        exact ⟨t, v, p, rfl, rfl⟩
  obtain ⟨m, hm, hms, hmget⟩ := unmarshalOutputs_of_typeValue outs []
    (fun e he => by
      obtain ⟨t, v, _, htv, _⟩ := hwf e he
      simp [htv])
  have hms' : KeysSorted m := hms (by simp [KeysSorted])
  have hstate : unmarshalState doc { Outputs := [] } = .ok { Outputs := m } := by
    cases doc <;> simp only [documentOutputs] at hdoc <;> try cases hdoc
    rename_i members
    simp only [unmarshalState]
    cases hf : members.filter (fun m => equalFold m.1 "outputs") with
    | nil => simp [hf] at hdoc
    | cons e rest =>
      obtain ⟨k, o⟩ := e
      cases rest with
      | cons _ _ => cases o <;> simp [hf] at hdoc
      | nil =>
        cases o <;> simp [hf] at hdoc
        subst hdoc
        exact unmarshalStateMembers_outputs members _ k _ m hf hm
  have hentry : ∀ name o, mapGet name m = some o →
      ∃ t v p, o = some { Value := some v, ValueType := some t } ∧
        decodeOutput L fullKey { Value := some v, ValueType := some t } = .ok p ∧
        (lookupLast (fun k => decide (k = name)) outs).bind (outputPlain L) = some p := by
    intro name o ho
    rw [hmget name] at ho
    cases hl : lookupLast (fun k => decide (k = name)) outs with
    | none => simp [hl, mapGet] at ho
    | some x =>
      obtain ⟨k, _, hmem⟩ := lookupLast_mem hl
      obtain ⟨t, v, p, htv, hop⟩ := hwf (k, x) hmem
      simp only at htv hop
      simp only [hl, htv, Option.map_some', Option.some.injEq] at ho
      exact ⟨t, v, p, ho.symm, decodeOutput_of_outputPlain L fullKey htv hop, by simp [hop]⟩
  obtain ⟨res, hres, hrs, hrc, hrget⟩ := decodeOutputs_ok L fullKey m [] hms'
    (fun e he => by
      obtain ⟨t, v, p, ho, hd, _⟩ := hentry e.1 e.2 (mapGet_of_mem hms' he)
      exact ⟨_, p, ho, hd, canonical_of_decodeOutput L hL fullKey _ p hd⟩)
  have hcanon : Canonical L (Plain.obj res) :=
    ⟨hrs (by simp [KeysSorted]), hrc (by simp [CanonicalMembers])⟩
  have hget : ∀ name, mapGet name res =
      (lookupLast (fun k => decide (k = name)) outs).bind (outputPlain L) := by
    intro name
    rw [hrget name]
    cases hmn : mapGet name m with
    | none =>
      have := hmget name
      rw [hmn] at this
      cases hl : lookupLast (fun k => decide (k = name)) outs with
      | none => simp [mapGet]
      | some x =>
        obtain ⟨k, _, hmem⟩ := lookupLast_mem hl
        obtain ⟨t, v, _, htv, _⟩ := hwf (k, x) hmem
        simp only at htv
        simp [hl, htv] at this
    | some o =>
      obtain ⟨t, v, p, ho, hd, hl⟩ := hentry name o hmn
      subst ho
      simp only [hd, hl]
  refine ⟨res, ?_, ?_, hget⟩
  · simp only [RemoteTerraformState.Get, hfetch, hjson, hstate, hres,
      jsonUnmarshalAny_jsonMarshal L _ hcanon]
  · intro name
    rw [hget name, ← lookupLast_isSome_iff name outs]
    cases hl : lookupLast (fun k => decide (k = name)) outs with
    | none => simp
    | some x =>
      obtain ⟨k, _, hmem⟩ := lookupLast_mem hl
      obtain ⟨_, _, p, _, hop⟩ := hwf (k, x) hmem
      simp only at hop
      simp [hop]

/-- C1 at the document `exampleState`: the hypotheses hold there, and the
conclusion with them. -/
theorem get_decodes_wellFormed_state_witness :
    ∃ result, RemoteTerraformState.Get decimalLib (exampleJsonOf exampleState)
        (constFetcher (some [123])) "bucket/env/terraform.tfstate" = .ok result ∧
      (∀ name, (mapGet name result).isSome = true ↔
        name ∈ ["cluster_name", "cluster_id", "kubeconfig_data"]) ∧
      (∀ name, mapGet name result =
        (lookupLast (fun k => decide (k = name))
          [("cluster_name", Json.obj [("value", .str "hoba"), ("type", .str "string")]),
           ("cluster_id", Json.obj [("value", .num "1"), ("type", .str "number")]),
           ("kubeconfig_data", Json.obj [
             ("value", .obj [("port", .str "6443"), ("host", .str "172.16.12.200")]),
             ("type", .arr [.str "object",
               .obj [("host", .str "string"), ("port", .str "number")]]),
             ("sensitive", .bool true)])]).bind (outputPlain decimalLib)) :=
  get_decodes_wellFormed_state decimalLib decimalLib_roundtrip (exampleJsonOf exampleState)
    (constFetcher (some [123])) "bucket/env/terraform.tfstate" (some [123]) exampleState _
    rfl rfl rfl rfl

/-- C2 (the code at the failing input): on a document whose output `a` is JSON
null, `RemoteTerraformState.Get` does not return an error: reading the type of
the nil entry panics. -/
theorem get_panics_on_null_output :
    RemoteTerraformState.Get decimalLib (exampleJsonOf nullOutputState)
        (constFetcher (some [123])) "bucket/env/terraform.tfstate" =
      .panic "runtime error: invalid memory address or nil pointer dereference" := rfl

/-- Apart from a nil entry, the outputs decode as one unit: when
`RemoteTerraformState.Get` returns a mapping, the document decoded to a state
every output of which decoded, and the mapping has a value for each of them. -/
theorem get_ok_all_outputs_decoded {B F : Type} (L : Lib B F) (jsonOf : Bytes → Option Json)
    (fetcher : String → Except String Bytes) (fullKey : String)
    (result : List (String × Plain F))
    (h : RemoteTerraformState.Get L jsonOf fetcher fullKey = .ok result) :
    ∃ data doc tfState, fetcher fullKey = .ok data ∧ jsonOf data = some doc ∧
      unmarshalState doc { Outputs := [] } = .ok tfState ∧
      ∀ e ∈ tfState.Outputs, ∃ rawValue p, e.2 = some rawValue ∧
        decodeOutput L fullKey rawValue = .ok p := by
  simp only [RemoteTerraformState.Get] at h
  cases hf : fetcher fullKey with
  | error e => simp [hf] at h
  | ok data =>
    simp only [hf] at h
    cases hj : jsonOf data with
    | none => simp [hj] at h
    | some doc =>
      simp only [hj] at h
      cases hs : unmarshalState doc { Outputs := [] } with
      | error e => simp [hs] at h
      | ok tfState =>
        simp only [hs] at h
        refine ⟨data, doc, tfState, rfl, hj, hs, ?_⟩
        cases hd : decodeOutputs L fullKey tfState.Outputs [] with
        | panic msg => simp [hd] at h
        | error e => simp [hd] at h
        | ok inter =>
          clear h
          generalize tfState.Outputs = m at hd
          generalize ([] : List (String × Plain F)) = acc at hd
          induction m generalizing acc with
          | nil => intro e he; cases he
          | cons e₀ rest ih =>
            obtain ⟨k, o⟩ := e₀
            cases o with
            | none => simp [decodeOutputs] at hd
            | some rv =>
              simp only [decodeOutputs] at hd
              cases hrv : decodeOutput L fullKey rv with
              | panic msg => simp [hrv] at hd
              | error e => simp [hrv] at hd
              | ok p =>
                simp only [hrv] at hd
                intro e he
                rcases List.mem_cons.1 he with he | he
                · subst he
                  exact ⟨rv, p, rfl, hrv⟩
                · exact ih _ hd e he

/-! ## The fetch cache -/

theorem fetch_hit {σ : Type} (origin : TerraformStateFetcher σ) (c : terraformStateCache σ)
    (key : String) (b : List UInt8) (h : mapGet key c.cache = some (some b)) :
    terraformStateCache.Fetch origin c key = (.ok (some b), c) := by
  simp only [terraformStateCache.Fetch, h]

theorem fetch_miss {σ : Type} (origin : TerraformStateFetcher σ) (c : terraformStateCache σ)
    (key : String) (h : ∀ b, mapGet key c.cache ≠ some (some b)) :
    terraformStateCache.Fetch origin c key =
      match origin key c.world with
      | (.error err, world) =>
        (.error err, { c with world := world, calls := c.calls ++ [(key, .error err)] })
      | (.ok resp, world) =>
        (.ok resp, { cache := mapSet key resp c.cache, world := world,
                     calls := c.calls ++ [(key, .ok resp)] }) := by
  unfold terraformStateCache.Fetch
  cases hc : mapGet key c.cache with
  | none => rfl
  | some o =>
    cases o with
    | none => rfl
    | some b => exact absurd hc (h b)

theorem fetch_keeps_entry {σ : Type} (origin : TerraformStateFetcher σ)
    (c : terraformStateCache σ) (key k : String) (b : List UInt8)
    (h : mapGet k c.cache = some (some b)) :
    mapGet k (terraformStateCache.Fetch origin c key).2.cache = some (some b) := by
  by_cases hk : ∃ b', mapGet key c.cache = some (some b')
  · obtain ⟨b', hb'⟩ := hk
    rw [fetch_hit origin c key b' hb']
    exact h
  · have hmiss : ∀ b', mapGet key c.cache ≠ some (some b') := fun b' hb' => hk ⟨b', hb'⟩
    rw [fetch_miss origin c key hmiss]
    have hne : k ≠ key := by
      intro e
      rw [e] at h
      exact hmiss b h
    rcases ho : origin key c.world with ⟨r, w⟩
    cases r with
    | error err => exact h
    | ok resp =>
      simp only []
      rw [mapGet_mapSet_ne resp c.cache hne]
      exact h

theorem fetchAll_keeps_entry {σ : Type} (origin : TerraformStateFetcher σ) (k : String)
    (b : List UInt8) :
    ∀ (keys : List String) (c : terraformStateCache σ), mapGet k c.cache = some (some b) →
      mapGet k (fetchAll origin c keys).cache = some (some b) := by
  intro keys
  induction keys with
  | nil => intro c h; exact h
  | cons key rest ih =>
    intro c h
    exact ih _ (fetch_keeps_entry origin c key k b h)

theorem fetch_calls {σ : Type} (origin : TerraformStateFetcher σ) (c : terraformStateCache σ)
    (key : String) :
    ((∃ b, mapGet key c.cache = some (some b)) ∧
      (terraformStateCache.Fetch origin c key).2 = c) ∨
    ((∀ b, mapGet key c.cache ≠ some (some b)) ∧
      (terraformStateCache.Fetch origin c key).1 = (origin key c.world).1 ∧
      (terraformStateCache.Fetch origin c key).2.world = (origin key c.world).2 ∧
      (terraformStateCache.Fetch origin c key).2.calls =
        c.calls ++ [(key, (origin key c.world).1)] ∧
      (∀ err, (origin key c.world).1 = .error err →
        (terraformStateCache.Fetch origin c key).2.cache = c.cache) ∧
      (∀ resp, (origin key c.world).1 = .ok resp →
        (terraformStateCache.Fetch origin c key).2.cache = mapSet key resp c.cache)) := by
  by_cases hk : ∃ b', mapGet key c.cache = some (some b')
  · obtain ⟨b', hb'⟩ := hk
    exact Or.inl ⟨⟨b', hb'⟩, by rw [fetch_hit origin c key b' hb']⟩
  · have hmiss : ∀ b', mapGet key c.cache ≠ some (some b') := fun b' hb' => hk ⟨b', hb'⟩
    refine Or.inr ⟨hmiss, ?_⟩
    rw [fetch_miss origin c key hmiss]
    rcases ho : origin key c.world with ⟨r, w⟩
    cases r with
    | error err => simp
    | ok resp => simp

/-- The invariant of a cache in use: an invocation that returned bytes left
them in the map, and after it the origin was not invoked with its key again. -/
theorem fetch_invariant {σ : Type} (origin : TerraformStateFetcher σ)
    (c : terraformStateCache σ) (key : String)
    (hI : ∀ x ∈ c.calls, returnedBytes x.2 = true → ∃ b, mapGet x.1 c.cache = some (some b))
    (hP : c.calls.Pairwise (fun x y => returnedBytes x.2 = true → y.1 ≠ x.1)) :
    (∀ x ∈ (terraformStateCache.Fetch origin c key).2.calls, returnedBytes x.2 = true →
      ∃ b, mapGet x.1 (terraformStateCache.Fetch origin c key).2.cache = some (some b)) ∧
    (terraformStateCache.Fetch origin c key).2.calls.Pairwise
      (fun x y => returnedBytes x.2 = true → y.1 ≠ x.1) := by
  rcases fetch_calls origin c key with ⟨_, h⟩ | ⟨hmiss, _, _, hcalls, _, hok⟩
  · rw [h]
    exact ⟨hI, hP⟩
  · constructor
    · intro x hx hr
      rw [hcalls] at hx
      rcases List.mem_append.1 hx with hx | hx
      · obtain ⟨b, hb⟩ := hI x hx hr
        exact ⟨b, fetch_keeps_entry origin c key x.1 b hb⟩
      · simp only [List.mem_singleton] at hx
        subst hx
        simp only at hr ⊢
        cases ho : (origin key c.world).1 with
        | error err => rw [ho] at hr; cases hr
        | ok resp =>
          cases resp with
          | none => rw [ho] at hr; cases hr
          | some b =>
            rw [hok _ ho, mapGet_mapSet_self]
            exact ⟨b, rfl⟩
    · rw [hcalls]
      refine List.pairwise_append.2 ⟨hP, by simp, ?_⟩
      intro x hx y hy hr
      simp only [List.mem_singleton] at hy
      subst hy
      obtain ⟨b, hb⟩ := hI x hx hr
      intro e
      simp only at e
      rw [← e] at hb
      exact hmiss b hb

theorem fetchAll_invariant {σ : Type} (origin : TerraformStateFetcher σ) :
    ∀ (keys : List String) (c : terraformStateCache σ) (requested : List String),
      (∀ x ∈ c.calls, returnedBytes x.2 = true → ∃ b, mapGet x.1 c.cache = some (some b)) →
      c.calls.Pairwise (fun x y => returnedBytes x.2 = true → y.1 ≠ x.1) →
      (∀ k, k ∉ requested → mapGet k c.cache = none) →
      (fetchAll origin c keys).calls.Pairwise (fun x y => returnedBytes x.2 = true → y.1 ≠ x.1) ∧
      (∀ k, k ∉ requested ++ keys → mapGet k (fetchAll origin c keys).cache = none) := by
  intro keys
  induction keys with
  | nil =>
    intro c requested _ hP hK
    exact ⟨hP, by simpa using hK⟩
  | cons key rest ih =>
    intro c requested hI hP hK
    obtain ⟨hI', hP'⟩ := fetch_invariant origin c key hI hP
    have hK' : ∀ k, k ∉ requested ++ [key] →
        mapGet k (terraformStateCache.Fetch origin c key).2.cache = none := by
      intro k hk
      simp only [List.mem_append, List.mem_singleton, not_or] at hk
      rcases fetch_calls origin c key with ⟨_, h⟩ | ⟨_, _, _, _, herr, hok⟩
      · rw [h]; exact hK k hk.1
      · cases ho : (origin key c.world).1 with
        | error err => rw [herr _ ho]; exact hK k hk.1
        | ok resp => rw [hok _ ho, mapGet_mapSet_ne resp c.cache hk.2]; exact hK k hk.1
    have := ih (terraformStateCache.Fetch origin c key).2 (requested ++ [key]) hI' hP' hK'
    simpa [fetchAll] using this

theorem fetchAll_append {σ : Type} (origin : TerraformStateFetcher σ) :
    ∀ (a b : List String) (c : terraformStateCache σ),
      fetchAll origin c (a ++ b) = fetchAll origin (fetchAll origin c a) b := by
  intro a
  induction a with
  | nil => intro b c; rfl
  | cons k rest ih => intro b c; exact ih b _

theorem fetch_error_refetch {σ : Type} (origin : TerraformStateFetcher σ)
    (c : terraformStateCache σ) (key err : String)
    (h : (terraformStateCache.Fetch origin c key).1 = .error err) :
    ∃ r, (terraformStateCache.Fetch origin
        (terraformStateCache.Fetch origin c key).2 key).2.calls =
      c.calls ++ [(key, .error err), (key, r)] := by
  rcases fetch_calls origin c key with ⟨⟨b, hb⟩, _⟩ | ⟨hmiss, hres, _, hcalls, herr, _⟩
  · rw [fetch_hit origin c key b hb] at h
    cases h
  · rw [hres] at h
    have hcache := herr err h
    rcases fetch_calls origin (terraformStateCache.Fetch origin c key).2 key with
      ⟨⟨b, hb⟩, _⟩ | ⟨_, _, _, hcalls', _⟩
    · rw [hcache] at hb
      exact absurd hb (hmiss b)
    · refine ⟨(origin key (terraformStateCache.Fetch origin c key).2.world).1, ?_⟩
      rw [hcalls', hcalls, h]
      simp

/-- C3 (the claim as stated fails): an origin that fails is invoked again at
every request of the key; after two requests of `k` it has been invoked with
`k` twice, not at most once. -/
theorem cache_refetches_after_error :
    ¬ ((fetchAll failingOrigin (NewTerraformStateCache ()) ["k", "k"]).calls.filter
        (fun x => decide (x.1 = "k"))).length ≤ 1 := by
  decide

/-- C3 (amended): for every origin and every sequence of `Fetch` calls on a new
cache, once the origin has returned bytes for a key it is not invoked with that
key again, so that at most one invocation per key returns bytes, however many
times the key is requested; the first request of a key not requested before
invokes the origin; and after a `Fetch` that returned an error the next request
of the key invokes the origin again. -/
theorem cache_no_fetch_after_bytes {σ : Type} (origin : TerraformStateFetcher σ) (world : σ)
    (keys : List String) :
    (fetchAll origin (NewTerraformStateCache world) keys).calls.Pairwise
      (fun x y => returnedBytes x.2 = true → y.1 ≠ x.1) ∧
    (∀ k, ((fetchAll origin (NewTerraformStateCache world) keys).calls.filter
      (fun x => decide (x.1 = k) && returnedBytes x.2)).length ≤ 1) ∧
    (∀ key, key ∉ keys →
      (terraformStateCache.Fetch origin
          (fetchAll origin (NewTerraformStateCache world) keys) key).2.calls =
        (fetchAll origin (NewTerraformStateCache world) keys).calls ++
          [(key, (origin key (fetchAll origin (NewTerraformStateCache world) keys).world).1)]) ∧
    (∀ key err,
      (terraformStateCache.Fetch origin
          (fetchAll origin (NewTerraformStateCache world) keys) key).1 = .error err →
      ∃ r, (fetchAll origin (NewTerraformStateCache world) (keys ++ [key, key])).calls =
        (fetchAll origin (NewTerraformStateCache world) keys).calls ++
          [(key, .error err), (key, r)]) := by
  obtain ⟨hP, hK⟩ := fetchAll_invariant origin keys (NewTerraformStateCache world) []
    (by simp [NewTerraformStateCache]) (by simp [NewTerraformStateCache])
    (by simp [NewTerraformStateCache, mapGet])
  have hsplit : ∀ key, fetchAll origin (NewTerraformStateCache world) (keys ++ [key, key]) =
      (terraformStateCache.Fetch origin
        (terraformStateCache.Fetch origin
          (fetchAll origin (NewTerraformStateCache world) keys) key).2 key).2 := by
    intro key
    rw [fetchAll_append]
    rfl
  simp only [hsplit]
  generalize fetchAll origin (NewTerraformStateCache world) keys = c at hP hK
  refine ⟨hP, ?_, ?_, ?_⟩
  · intro k
    have hF := hP.filter (fun x => decide (x.1 = k) && returnedBytes x.2)
    cases hl : c.calls.filter (fun x => decide (x.1 = k) && returnedBytes x.2) with
    | nil => simp
    | cons a t =>
      cases t with
      | nil => simp
      | cons b t' =>
        exfalso
        rw [hl] at hF
        have ha : a ∈ c.calls.filter (fun x => decide (x.1 = k) && returnedBytes x.2) := by
          rw [hl]; simp
        have hb : b ∈ c.calls.filter (fun x => decide (x.1 = k) && returnedBytes x.2) := by
          rw [hl]; simp
        have ha' := (List.mem_filter.1 ha).2
        have hb' := (List.mem_filter.1 hb).2
        simp only [Bool.and_eq_true, decide_eq_true_eq] at ha' hb'
        have := (List.pairwise_cons.1 hF).1 b (by simp) ha'.2
        exact this (hb'.1.trans ha'.1.symm)
  · intro key hkey
    have hnone := hK key (by simpa using hkey)
    rcases fetch_calls origin c key with ⟨⟨b, hb⟩, _⟩ | ⟨_, _, _, hcalls, _⟩
    · rw [hnone] at hb; cases hb
    · exact hcalls
  · intro key err herr
    exact fetch_error_refetch origin c key err herr

/-- C4 (the claim as stated fails): with an origin that returns a nil slice
and no error, `Fetch(k)` succeeds with nil bytes and stores them under `k`; the
key is then present in the cache, yet the next `Fetch(k)` invokes the origin
again and returns its error instead of the stored bytes. -/
theorem cache_nil_entry_refetched :
    (terraformStateCache.Fetch nilThenFailingOrigin (NewTerraformStateCache 0) "k").1 =
      .ok none ∧
    mapGet "k"
      (terraformStateCache.Fetch nilThenFailingOrigin (NewTerraformStateCache 0) "k").2.cache =
      some none ∧
    (terraformStateCache.Fetch nilThenFailingOrigin
      (terraformStateCache.Fetch nilThenFailingOrigin (NewTerraformStateCache 0) "k").2 "k").1 =
      .error "connection refused" ∧
    ((terraformStateCache.Fetch nilThenFailingOrigin
      (terraformStateCache.Fetch nilThenFailingOrigin (NewTerraformStateCache 0) "k").2
        "k").2.calls.map Prod.fst) = ["k", "k"] :=
  ⟨rfl, rfl, rfl, rfl⟩

/-- C4 (amended): `Fetch(key)` returns the bytes stored for `key` when they are
not nil, without invoking the origin and without changing the cache; otherwise
it invokes the origin exactly once, returns what the origin returns, and on
success stores the returned bytes under `key`.  Once `Fetch(key)` has returned
bytes `b` that are not nil, every later `Fetch(key)` on the cache returns `b`
and no error, whatever origin it would ask and whatever was fetched in between,
and an entry that is not nil is never removed or replaced. -/
theorem cache_fetch_returns_stored_bytes {σ : Type} (origin : TerraformStateFetcher σ)
    (c : terraformStateCache σ) (key : String) :
    (∀ b, mapGet key c.cache = some (some b) →
      terraformStateCache.Fetch origin c key = (.ok (some b), c)) ∧
    ((∀ b, mapGet key c.cache ≠ some (some b)) →
      (terraformStateCache.Fetch origin c key).1 = (origin key c.world).1 ∧
      (terraformStateCache.Fetch origin c key).2.world = (origin key c.world).2 ∧
      (terraformStateCache.Fetch origin c key).2.calls =
        c.calls ++ [(key, (origin key c.world).1)] ∧
      (∀ resp, (origin key c.world).1 = .ok resp →
        (terraformStateCache.Fetch origin c key).2.cache = mapSet key resp c.cache ∧
        mapGet key (terraformStateCache.Fetch origin c key).2.cache = some resp)) ∧
    (∀ b, (terraformStateCache.Fetch origin c key).1 = .ok (some b) →
      ∀ (later : TerraformStateFetcher σ) (between : List String),
        terraformStateCache.Fetch later
            (fetchAll later (terraformStateCache.Fetch origin c key).2 between) key =
          (.ok (some b), fetchAll later (terraformStateCache.Fetch origin c key).2 between)) ∧
    (∀ k b other, mapGet k c.cache = some (some b) →
      mapGet k (terraformStateCache.Fetch origin c other).2.cache = some (some b)) := by
  refine ⟨fun b hb => fetch_hit origin c key b hb, ?_, ?_,
    fun k b other hb => fetch_keeps_entry origin c other k b hb⟩
  · intro hmiss
    rcases fetch_calls origin c key with ⟨⟨b, hb⟩, _⟩ | ⟨_, hres, hworld, hcalls, _, hok⟩
    · exact absurd hb (hmiss b)
    · refine ⟨hres, hworld, hcalls, ?_⟩
      intro resp hresp
      refine ⟨hok resp hresp, ?_⟩
      rw [hok resp hresp, mapGet_mapSet_self]
  · intro b hb later between
    have hstored : mapGet key (terraformStateCache.Fetch origin c key).2.cache =
        some (some b) := by
      rcases fetch_calls origin c key with ⟨⟨b', hb'⟩, hsame⟩ | ⟨_, hres, _, _, _, hok⟩
      · rw [fetch_hit origin c key b' hb'] at hb
        simp only [Except.ok.injEq, Option.some.injEq] at hb
        rw [hsame, hb'] 
        rw [hb]
      · rw [hres] at hb
        rw [hok _ hb, mapGet_mapSet_self]
    exact fetch_hit later _ key b (fetchAll_keeps_entry later key b between _ hstored)

/-! ## The template engine -/

/-- A run that calls `datasource` with a name that is not registered ends with
the "not found" error of that call. -/
theorem execute_error_of_missing {σ V : Type} (e : Engine σ V) (print : V → String)
    (context dsName key : String) (hmissing : mapGet dsName e.datasources = none) :
    ∀ (script : Script V) (s : Exec σ) (buf : String),
      (context, dsName, key) ∈ datasourceCalls e script s →
      (execute e print script s buf).1 =
        .error (context ++ "error calling datasource: " ++ ("datasource not found: " ++ dsName)) := by
  intro script
  induction script with
  | done => intro s buf h; simp [datasourceCalls] at h
  | text t rest ih =>
    intro s buf h
    simp only [datasourceCalls] at h
    simp only [execute]
    exact ih _ _ h
  | value v rest ih =>
    intro s buf h
    simp only [datasourceCalls] at h
    simp only [execute]
    exact ih _ _ h
  | call c d k next ih =>
    intro s buf h
    simp only [datasourceCalls] at h
    simp only [execute]
    rcases hr : e.datasourceFunc d k s with ⟨r, s'⟩
    rw [hr] at h
    cases r with
    | error err =>
      simp only [List.mem_cons, List.not_mem_nil, or_false, Prod.mk.injEq] at h
      obtain ⟨hc, hd, hk⟩ := h
      subst hc; subst hd; subst hk
      simp only [Engine.datasourceFunc, hmissing, Prod.mk.injEq] at hr
      cases hr.1
      rfl
    | ok v =>
      simp only [List.mem_cons, Prod.mk.injEq] at h
      rcases h with ⟨hc, hd, hk⟩ | h
      · subst hc; subst hd; subst hk
        simp [Engine.datasourceFunc, hmissing] at hr
      · exact ih v _ _ h
  | fail err => intro s buf h; simp [datasourceCalls] at h

/-- C5 (the claim as stated fails): a document that contains the action
`datasource "missing" "x"` in a branch that is never taken renders without an
error on an engine with no datasource registered, and the output is the text
outside the branch. -/
theorem render_skips_unreached_datasource :
    Engine.Render exampleParse (fun (v : String) => v) (NewEngine : Engine Unit String) "app.yaml"
        "a: 1\n@<< if false >>@zone: @<< datasource \"missing\" \"x\" >>@\n@<< end >>@"
        { world := (), gets := [] } =
      (("a: 1\n", none), { world := (), gets := [] }) := by
  rfl

/-- C5 (amended): for every engine, `datasource(name, key)` with a name that is
not registered fails with the error "datasource not found: name" and calls no
`Get` (the state and the record of calls are unchanged); with a registered
name it makes one call of that datasource's `Get(key)` and returns exactly
its result; and `Engine.Render` of a document whose execution calls
`datasource` with a name that is not registered (such as
`datasource "missing" "x"`) returns the empty string and an error, which is the
"not found" error of that call; a document that does not parse gives the empty
string and the parse error. -/
theorem datasource_lookup_and_render {σ V : Type} (e : Engine σ V) (dsName key : String)
    (s : Exec σ) (parse : String → String → Except String (Script V)) (print : V → String)
    (name content : String) :
    (mapGet dsName e.datasources = none →
      e.datasourceFunc dsName key s = (.error ("datasource not found: " ++ dsName), s)) ∧
    (∀ ds, mapGet dsName e.datasources = some ds →
      (e.datasourceFunc dsName key s).1 = (ds.Get key s.world).1 ∧
      (e.datasourceFunc dsName key s).2.world = (ds.Get key s.world).2 ∧
      (e.datasourceFunc dsName key s).2.gets = s.gets ++ [(dsName, key)]) ∧
    (mapGet dsName e.datasources = none →
      ∀ script context, parse name content = .ok script →
        (context, dsName, key) ∈ datasourceCalls e script s →
        (e.Render parse print name content s).1 =
          ("", some ("execute template: " ++ (context ++ "error calling datasource: " ++
            ("datasource not found: " ++ dsName))))) ∧
    (∀ err, parse name content = .error err →
      e.Render parse print name content s = (("", some ("parse template: " ++ err)), s)) := by
  refine ⟨?_, ?_, ?_, ?_⟩
  · intro h
    simp only [Engine.datasourceFunc, h]
  · intro ds h
    simp only [Engine.datasourceFunc, h]
    exact ⟨trivial, trivial, trivial⟩
  · intro h script context hp hcalls
    have herr := execute_error_of_missing e print context dsName key h script s "" hcalls
    simp only [Engine.Render, hp]
    rcases hx : execute e print script s "" with ⟨r, s'⟩
    rw [hx] at herr
    simp only at herr
    subst herr
    rfl
  · intro err hp
    simp only [Engine.Render, hp]

/-- C5 at a document with a `file` call and a `missing` call, on an engine with
only `file` registered: the render returns the empty string and the "not
found" error, after the one `Get` of the `file` datasource. -/
theorem render_missing_datasource_example :
    Engine.Render exampleParse (fun (v : String) => v)
        ((NewEngine : Engine Unit String).RegisterDatasource "file" (constDatasource "3"))
        "values.yaml"
        "replicas: @<< datasource \"file\" \"/values.yaml\" >>@\nzone: @<< datasource \"missing\" \"x\" >>@\n"
        { world := (), gets := [] } =
      (("", some "execute template: template: values.yaml:2:10: executing \"values.yaml\" at <datasource \"missing\" \"x\">: error calling datasource: datasource not found: missing"),
        { world := (), gets := [("file", "/values.yaml")] }) := by
  rfl

/-- The calls of the run of that document: the `file` call, then the `missing`
call, at which the run ends. -/
theorem datasourceCalls_example :
    datasourceCalls ((NewEngine : Engine Unit String).RegisterDatasource "file" (constDatasource "3"))
        (.text "replicas: " (.call "c1: " "file" "/values.yaml" (fun v => .value v
          (.text "\nzone: " (.call "c2: " "missing" "x" (fun v => .value v (.text "\n" .done)))))))
        { world := (), gets := [] } =
      [("c1: ", "file", "/values.yaml"), ("c2: ", "missing", "x")] := by
  rfl

/-! ## Paths -/

theorem splitSep_ne_nil (l : List Char) : splitSep l ≠ [] := by
  induction l with
  | nil => simp [splitSep]
  | cons c rest ih =>
    simp only [splitSep]
    split
    · simp
    · cases h : splitSep rest with
      | nil => simp
      | cons p ps => simp

theorem splitSep_append (a b : List Char) :
    splitSep (a ++ '/' :: b) = splitSep a ++ splitSep b := by
  induction a with
  | nil => simp [splitSep]
  | cons c rest ih =>
    simp only [List.cons_append, splitSep]
    split
    · simp [ih]
    · have ih' : splitSep (rest.append ('/' :: b)) = splitSep rest ++ splitSep b := ih
      rw [ih']
      cases h : splitSep rest with
      | nil => exact absurd h (splitSep_ne_nil rest)
      | cons p ps => simp

theorem cleanStack_append (rooted : Bool) (a b : List (List Char)) :
    ∀ stack, cleanStack rooted (a ++ b) stack = cleanStack rooted b (cleanStack rooted a stack) := by
  induction a with
  | nil => intro stack; rfl
  | cons e rest ih =>
    intro stack
    simp only [List.cons_append, cleanStack]
    split
    · exact ih _
    · split
      · cases stack with
        | nil =>
          simp only []
          split <;> exact ih _
        | cons top below =>
          simp only []
          split <;> exact ih _
      · exact ih _

theorem cleanStack_of_no_dotdot (rooted : Bool) (b : List (List Char))
    (h : ['.', '.'] ∉ b) :
    ∀ stack, cleanStack rooted b stack =
      (b.filter (fun e => decide (¬ (e = [] ∨ e = ['.'])))).reverse ++ stack := by
  induction b with
  | nil => intro stack; rfl
  | cons e rest ih =>
    intro stack
    have he : e ≠ ['.', '.'] := fun hc => h (hc ▸ List.mem_cons_self _ _)
    have hrest : ['.', '.'] ∉ rest := fun hc => h (List.mem_cons_of_mem _ hc)
    simp only [cleanStack]
    by_cases hd : e = [] ∨ e = ['.']
    · rw [if_pos hd, ih hrest]
      simp [List.filter, hd]
    · rw [if_neg hd, if_neg he, ih hrest]
      simp [List.filter, hd]

theorem joinSep_append (xs ys : List (List Char)) (hx : xs ≠ []) (hy : ys ≠ []) :
    joinSep (xs ++ ys) = joinSep xs ++ '/' :: joinSep ys := by
  induction xs with
  | nil => exact absurd rfl hx
  | cons x rest ih =>
    cases rest with
    | nil =>
      cases ys with
      | nil => exact absurd rfl hy
      | cons y ys' => simp [joinSep]
    | cons x' rest' =>
      have := ih (by simp)
      simp only [List.cons_append] at this ⊢
      simp only [joinSep, this, List.append_assoc, List.cons_append]

theorem cleanChars_join_under (R P : List Char) (hR : R.head? = some '/')
    (hclean : cleanChars R = R) (hP : ['.', '.'] ∉ splitSep P) :
    cleanChars (R ++ '/' :: P) = R ∨
    (∃ rest, cleanChars (R ++ '/' :: P) = R ++ '/' :: rest) ∨
    (R = ['/'] ∧ ∃ rest, cleanChars (R ++ '/' :: P) = R ++ rest) := by
  cases R with
  | nil => simp at hR
  | cons c R' =>
    simp only [List.head?_cons, Option.some.injEq] at hR
    subst hR
    simp only [cleanChars, if_true, List.cons_append] at hclean ⊢
    have hsplit : splitSep ('/' :: (R' ++ '/' :: P)) = splitSep ('/' :: R') ++ splitSep P := by
      have := splitSep_append ('/' :: R') P
      simpa using this
    rw [hsplit, cleanStack_append, cleanStack_of_no_dotdot true _ hP, List.reverse_append,
      List.reverse_reverse]
    generalize hN : (cleanStack true (splitSep ('/' :: R')) []).reverse = N at hclean ⊢
    generalize (splitSep P).filter (fun e => decide (¬ (e = [] ∨ e = ['.']))) = B
    have hR' : joinSep N = R' := by simpa using hclean
    cases B with
    | nil =>
      left
      simp [hR']
    | cons b B' =>
      cases N with
      | nil =>
        right; right
        simp only [joinSep] at hR'
        subst hR'
        exact ⟨rfl, _, rfl⟩
      | cons n N' =>
        right; left
        rw [joinSep_append _ _ (by simp) (by simp), hR']
        exact ⟨_, rfl⟩

theorem data_ne_nil_of_hasSlashPrefix {s : String} (h : hasSlashPrefix s = true) :
    ∃ rest, s.data = '/' :: rest := by
  simp only [hasSlashPrefix] at h
  cases hd : s.data with
  | nil => simp [hd] at h
  | cons c rest =>
    simp only [hd, decide_eq_true_eq] at h
    exact ⟨rest, by rw [h]⟩

/-- C6 (the claim as stated fails): a path that begins with the separator and
climbs with `..` resolves outside the workspace root. -/
theorem resolvePath_escapes_root :
    hasSlashPrefix "/../etc/passwd" = true ∧
    resolvePath "/../etc/passwd" "/tmp/argo-render-1" = "/tmp/etc/passwd" ∧
    underRoot "/tmp/argo-render-1" (resolvePath "/../etc/passwd" "/tmp/argo-render-1") = false :=
  ⟨rfl, rfl, rfl⟩

/-- C6 (amended): for every root and every path or key: if it begins with the
separator, the resolved path is `filepath.Join` of the root and the rest of
the path, and it lies under the root whenever the root is a clean rooted path
and no element of the path is `..`; otherwise the result is the input
unchanged.  `FileDatasource.Get` reads the file at the path that `resolvePath`
computes for the same root and key. -/
theorem resolvePath_under_clean_root (path rootDir : String) :
    (hasSlashPrefix path = true →
      resolvePath path rootDir = filepath.Join rootDir (trimSlashPrefix path)) ∧
    (hasSlashPrefix path = true → hasSlashPrefix rootDir = true →
      filepath.Clean rootDir = rootDir → ['.', '.'] ∉ splitSep path.data →
      underRoot rootDir (resolvePath path rootDir) = true) ∧
    (hasSlashPrefix path = false → resolvePath path rootDir = path) ∧
    (∀ (V : Type) (readFile : String → Except String Bytes)
      (yamlUnmarshal jsonUnmarshal : Bytes → Except String V),
      (∀ err, readFile (resolvePath path rootDir) = .error err →
        FileDatasource.Get { rootDir := rootDir } readFile yamlUnmarshal jsonUnmarshal path =
          .error ("read file " ++ path ++ ": " ++ err)) ∧
      (∀ readFile' : String → Except String Bytes,
        readFile' (resolvePath path rootDir) = readFile (resolvePath path rootDir) →
        FileDatasource.Get { rootDir := rootDir } readFile' yamlUnmarshal jsonUnmarshal path =
          FileDatasource.Get { rootDir := rootDir } readFile yamlUnmarshal jsonUnmarshal path)) := by
  refine ⟨?_, ?_, ?_, ?_⟩
  · intro h
    simp only [resolvePath, h, if_true]
  · intro hp hr hclean hdd
    obtain ⟨P, hP⟩ := data_ne_nil_of_hasSlashPrefix hp
    obtain ⟨R', hR'⟩ := data_ne_nil_of_hasSlashPrefix hr
    have htrim : (trimSlashPrefix path).data = P := by
      simp [trimSlashPrefix, hP]
    have hne : rootDir ≠ "" := by
      intro e
      rw [e] at hR'
      cases hR'
    have hres : (resolvePath path rootDir).data = cleanChars (rootDir.data ++ '/' :: P) := by
      simp only [resolvePath, hp, if_true, filepath.Join, hne, ne_eq, not_false_eq_true,
        filepath.Clean, htrim]
    have hcl : cleanChars rootDir.data = rootDir.data := by
      have := congrArg String.data hclean
      simpa [filepath.Clean] using this
    have hddP : ['.', '.'] ∉ splitSep P := by
      intro hc
      apply hdd
      rw [hP]
      simp only [splitSep, if_true]
      exact List.mem_cons_of_mem _ hc
    have hhead : rootDir.data.head? = some '/' := by rw [hR']; rfl
    rcases cleanChars_join_under rootDir.data P hhead hcl hddP with h | ⟨rest, h⟩ | ⟨hroot, rest, h⟩
    · have : resolvePath path rootDir = rootDir := String.ext (by rw [hres, h])
      simp [underRoot, this]
    · have : (rootDir.data ++ ['/']).isPrefixOf (resolvePath path rootDir).data = true := by
        rw [hres, h, List.isPrefixOf_iff_prefix]
        exact ⟨rest, by simp⟩
      simp [underRoot, this]
    · have h₁ : rootDir.data.isPrefixOf (resolvePath path rootDir).data = true := by
        rw [hres, h, List.isPrefixOf_iff_prefix]
        exact ⟨rest, rfl⟩
      have h₂ : rootDir.data.getLast? = some '/' := by rw [hroot]; rfl
      simp [underRoot, h₁, h₂]
  · intro h
    simp only [resolvePath, h]
    rfl
  · intro V readFile yamlUnmarshal jsonUnmarshal
    constructor
    · intro err h
      simp only [resolvePath] at h
      simp only [FileDatasource.Get, h]
    · intro readFile' h
      simp only [resolvePath] at h
      simp only [FileDatasource.Get, h]

/-- C6 (amended) at a key with empty and `.` elements under a temporary
directory: the hypotheses of the part about the root hold, and the resolved
path lies under the root. -/
theorem resolvePath_under_clean_root_witness :
    resolvePath "/charts/./app//values.yaml" "/tmp/argo-render-1" =
      "/tmp/argo-render-1/charts/app/values.yaml" ∧
    underRoot "/tmp/argo-render-1"
      (resolvePath "/charts/./app//values.yaml" "/tmp/argo-render-1") = true :=
  ⟨rfl, (resolvePath_under_clean_root "/charts/./app//values.yaml" "/tmp/argo-render-1").2.1
    rfl rfl rfl (by decide)⟩

/-! ## The file datasource -/

/-- C7 (the claim as stated fails): the key `values.YAML` has the extension
`.YAML`, which is none of `.yaml`, `.yml` and `.json`, and `FileDatasource.Get`
returns the value the YAML parser gives for the file, and no error. -/
theorem get_parses_upper_case_extension :
    filepath.Ext "values.YAML" = ".YAML" ∧
    FileDatasource.Get { rootDir := "/tmp/argo-render-1" }
        (oneFile "values.YAML" [114, 58, 32, 51])
        (fun _ => Except.ok "parsed as YAML") (fun _ => Except.ok "parsed as JSON")
        "values.YAML" =
      .ok "parsed as YAML" :=
  ⟨rfl, rfl⟩

/-- C7 (amended): for every key whose file extension, in lower case, is not
`.yaml`, `.yml` or `.json`, and every file system, `FileDatasource.Get` returns
an error and no value; when the file is readable the error is the "unsupported
file format" error; and the result does not depend on the parsers, which are
not run. -/
theorem get_rejects_unsupported_extension {V : Type} (f : FileDatasource)
    (readFile : String → Except String Bytes)
    (yamlUnmarshal jsonUnmarshal : Bytes → Except String V) (path : String)
    (hyaml : toLower (filepath.Ext path) ≠ ".yaml")
    (hyml : toLower (filepath.Ext path) ≠ ".yml")
    (hjson : toLower (filepath.Ext path) ≠ ".json") :
    (∃ err, FileDatasource.Get f readFile yamlUnmarshal jsonUnmarshal path = .error err) ∧
    (∀ data, readFile (resolvePath path f.rootDir) = .ok data →
      FileDatasource.Get f readFile yamlUnmarshal jsonUnmarshal path =
        .error ("unsupported file format " ++ path ++ ": use .json, .yaml, or .yml")) ∧
    (∀ yamlUnmarshal' jsonUnmarshal' : Bytes → Except String V,
      FileDatasource.Get f readFile yamlUnmarshal' jsonUnmarshal' path =
        FileDatasource.Get f readFile yamlUnmarshal jsonUnmarshal path) := by
  have hget : ∀ y j : Bytes → Except String V,
      FileDatasource.Get f readFile y j path =
        match readFile (resolvePath path f.rootDir) with
        | .error err => .error ("read file " ++ path ++ ": " ++ err)
        | .ok _ => .error ("unsupported file format " ++ path ++ ": use .json, .yaml, or .yml") := by
    intro y j
    simp only [FileDatasource.Get, resolvePath]
    split
    · rfl
    · simp [hyaml, hyml, hjson]
  refine ⟨?_, ?_, ?_⟩
  · rw [hget]
    cases readFile (resolvePath path f.rootDir) with
    | error err => exact ⟨_, rfl⟩
    | ok data => exact ⟨_, rfl⟩
  · intro data h
    rw [hget, h]
  · intro y' j'
    rw [hget, hget]

/-- C7 (amended) at the key `notes.txt` of a readable file that holds valid
YAML: the hypotheses hold, and the conclusion with them. -/
theorem get_rejects_unsupported_extension_witness :
    (∃ err, FileDatasource.Get { rootDir := "/tmp/argo-render-1" }
        (oneFile "notes.txt" [114, 58, 32, 51])
        (fun _ => Except.ok "parsed as YAML") (fun _ => Except.ok "parsed as JSON")
        "notes.txt" = .error err) ∧
    (∀ data, oneFile "notes.txt" [114, 58, 32, 51]
        (resolvePath "notes.txt" "/tmp/argo-render-1") = .ok data →
      FileDatasource.Get { rootDir := "/tmp/argo-render-1" }
        (oneFile "notes.txt" [114, 58, 32, 51])
        (fun _ => Except.ok "parsed as YAML") (fun _ => Except.ok "parsed as JSON")
        "notes.txt" =
        .error ("unsupported file format " ++ "notes.txt" ++ ": use .json, .yaml, or .yml")) ∧
    (∀ yamlUnmarshal' jsonUnmarshal' : Bytes → Except String String,
      FileDatasource.Get { rootDir := "/tmp/argo-render-1" }
        (oneFile "notes.txt" [114, 58, 32, 51]) yamlUnmarshal' jsonUnmarshal' "notes.txt" =
      FileDatasource.Get { rootDir := "/tmp/argo-render-1" }
        (oneFile "notes.txt" [114, 58, 32, 51])
        (fun _ => Except.ok "parsed as YAML") (fun _ => Except.ok "parsed as JSON")
        "notes.txt") :=
  get_rejects_unsupported_extension { rootDir := "/tmp/argo-render-1" }
    (oneFile "notes.txt" [114, 58, 32, 51])
    (fun _ => Except.ok "parsed as YAML") (fun _ => Except.ok "parsed as JSON") "notes.txt"
    (by decide) (by decide) (by decide)

/-! ## The object-store fetcher -/

theorem joinSep_splitSep (l : List Char) : joinSep (splitSep l) = l := by
  induction l with
  | nil => rfl
  | cons c rest ih =>
    simp only [splitSep]
    cases h : splitSep rest with
    | nil => exact absurd h (splitSep_ne_nil rest)
    | cons p ps =>
      rw [h] at ih
      split
      · rename_i hc
        simp [joinSep, ih, hc]
      · cases ps with
        | nil =>
          simp only [joinSep] at ih ⊢
          rw [ih]
        | cons q qs =>
          simp only [joinSep] at ih ⊢
          rw [← ih]
          simp

theorem splitSep_length_lt_two_iff (l : List Char) : (splitSep l).length < 2 ↔ '/' ∉ l := by
  induction l with
  | nil => simp [splitSep]
  | cons c rest ih =>
    simp only [splitSep]
    cases h : splitSep rest with
    | nil => exact absurd h (splitSep_ne_nil rest)
    | cons p ps =>
      rw [h] at ih
      split
      · rename_i hc
        simp [hc]
      · rename_i hc
        simp only [List.length_cons] at ih ⊢
        rw [ih]
        simp [Ne.symm hc]

theorem splitSep_head (l : List Char) : (splitSep l).headD [] = l.takeWhile notSep := by
  induction l with
  | nil => rfl
  | cons c rest ih =>
    simp only [splitSep]
    cases h : splitSep rest with
    | nil => exact absurd h (splitSep_ne_nil rest)
    | cons p ps =>
      rw [h] at ih
      simp only [List.headD_cons] at ih
      split
      · rename_i hc
        have hn : notSep c = false := by simp [notSep, hc]
        simp only [List.takeWhile, hn, List.headD_cons]
      · rename_i hc
        have hn : notSep c = true := by simp [notSep, hc]
        simp only [List.takeWhile, hn, List.headD_cons, ih]

theorem splitSep_tail (l : List Char) (h : '/' ∈ l) :
    joinSep (splitSep l).tail = (l.dropWhile notSep).tail := by
  induction l with
  | nil => cases h
  | cons c rest ih =>
    simp only [splitSep]
    by_cases hc : c = '/'
    · have hn : notSep c = false := by simp [notSep, hc]
      simp only [hc, if_true, List.tail_cons, joinSep_splitSep, List.dropWhile]
      rw [← hc, hn]
      simp
    · have hn : notSep c = true := by simp [notSep, hc]
      have hrest : '/' ∈ rest := by
        rcases List.mem_cons.1 h with h | h
        · exact absurd h.symm hc
        · exact h
      rw [if_neg hc]
      cases hs : splitSep rest with
      | nil => exact absurd hs (splitSep_ne_nil rest)
      | cons p ps =>
        have := ih hrest
        rw [hs] at this
        simp only [List.tail_cons] at this
        simp only [List.tail_cons, List.dropWhile, hn, this]

theorem takeWhile_dropWhile_sep (l : List Char) (h : '/' ∈ l) :
    l.takeWhile notSep ++ '/' :: (l.dropWhile notSep).tail = l := by
  induction l with
  | nil => cases h
  | cons c rest ih =>
    by_cases hc : c = '/'
    · subst hc
      have hn : notSep '/' = false := by decide
      simp only [List.takeWhile, List.dropWhile, hn, List.nil_append, List.tail_cons]
    · have hn : notSep c = true := by simp [notSep, hc]
      have hrest : '/' ∈ rest := by
        rcases List.mem_cons.1 h with h | h
        · exact absurd h.symm hc
        · exact h
      simp only [List.takeWhile, List.dropWhile, hn, List.cons_append, ih hrest]

/-- C8: `terraformS3Fetcher.Fetch` returns an error, with no request made to
the object store, for every key that is not of the form bucket, separator,
object path: a key with no separator, a key whose bucket segment (the text
before the first separator) is empty, and a key with nothing after the first
separator (such as `bucket/`, which the client refuses to serialize).  For
every other key one request is made: its bucket is the text before the first
separator, its object key the whole text after it, so that bucket, separator
and object key make up the input key; and the result is the body read from the
answer, or the error of the request or of the read. -/
theorem s3_fetch_key_form {β : Type} (send : String → String → Except String β)
    (readAll : β → Except String Bytes) (fullKey : String) :
    ('/' ∉ fullKey.data →
      terraformS3Fetcher.Fetch send readAll fullKey =
        (.error ("invalid key: " ++ fullKey), [])) ∧
    ('/' ∈ fullKey.data → fullKey.data.takeWhile notSep = [] →
      terraformS3Fetcher.Fetch send readAll fullKey = (.error "invalid bucket: ", [])) ∧
    ('/' ∈ fullKey.data → fullKey.data.takeWhile notSep ≠ [] →
      (fullKey.data.dropWhile notSep).tail = [] →
      terraformS3Fetcher.Fetch send readAll fullKey =
        (.error ("failed to fetch object " ++ fullKey ++ ": " ++ emptyKeyError), [])) ∧
    ('/' ∈ fullKey.data → fullKey.data.takeWhile notSep ≠ [] →
      (fullKey.data.dropWhile notSep).tail ≠ [] →
      ∃ bucket key : String,
        bucket.data = fullKey.data.takeWhile notSep ∧
        key.data = (fullKey.data.dropWhile notSep).tail ∧
        bucket.data ++ '/' :: key.data = fullKey.data ∧
        (terraformS3Fetcher.Fetch send readAll fullKey).2 = [(bucket, key)] ∧
        (terraformS3Fetcher.Fetch send readAll fullKey).1 =
          match send bucket key with
          | .error err => .error ("failed to fetch object " ++ fullKey ++ ": " ++ err)
          | .ok body =>
            match readAll body with
            | .error err => .error ("failed to read object " ++ fullKey ++ ": " ++ err)
            | .ok response => .ok response) := by
  refine ⟨?_, ?_, ?_, ?_⟩
  · intro h
    have := (splitSep_length_lt_two_iff fullKey.data).2 h
    simp only [terraformS3Fetcher.Fetch, this, if_true]
  · intro h hb
    have hlen : ¬ (splitSep fullKey.data).length < 2 :=
      fun hc => (splitSep_length_lt_two_iff fullKey.data).1 hc h
    simp only [terraformS3Fetcher.Fetch, hlen, if_false, splitSep_head, hb]
    rfl
  · intro h hb hk
    have hlen : ¬ (splitSep fullKey.data).length < 2 :=
      fun hc => (splitSep_length_lt_two_iff fullKey.data).1 hc h
    have hb' : ¬ (fullKey.data.takeWhile notSep).length = 0 := by
      simpa [List.length_eq_zero] using hb
    simp only [terraformS3Fetcher.Fetch, hlen, if_false, splitSep_head, hb', splitSep_tail _ h,
      hk, s3Client.GetObject, List.length_nil, if_true]
  · intro h hb hk
    have hlen : ¬ (splitSep fullKey.data).length < 2 :=
      fun hc => (splitSep_length_lt_two_iff fullKey.data).1 hc h
    have hb' : ¬ (fullKey.data.takeWhile notSep).length = 0 := by
      simpa [List.length_eq_zero] using hb
    have hk' : ¬ ((fullKey.data.dropWhile notSep).tail).length = 0 :=
      fun hc => hk (List.length_eq_zero.1 hc)
    have hfetch : terraformS3Fetcher.Fetch send readAll fullKey =
        ((match send (String.mk (fullKey.data.takeWhile notSep))
            (String.mk (fullKey.data.dropWhile notSep).tail) with
          | .error err => .error ("failed to fetch object " ++ fullKey ++ ": " ++ err)
          | .ok body =>
            match readAll body with
            | .error err => .error ("failed to read object " ++ fullKey ++ ": " ++ err)
            | .ok response => .ok response),
          [(String.mk (fullKey.data.takeWhile notSep),
            String.mk (fullKey.data.dropWhile notSep).tail)]) := by
      simp only [terraformS3Fetcher.Fetch, hlen, if_false, splitSep_head, hb', splitSep_tail _ h,
        s3Client.GetObject, hk']
      rcases hg : send (String.mk (fullKey.data.takeWhile notSep))
          (String.mk (fullKey.data.dropWhile notSep).tail) with err | body
      · rfl
      · simp only []
        rcases hr : readAll body with err | response
        · rfl
        · rfl
    exact ⟨String.mk (fullKey.data.takeWhile notSep),
      String.mk (fullKey.data.dropWhile notSep).tail, rfl, rfl,
      takeWhile_dropWhile_sep fullKey.data h, by rw [hfetch], by rw [hfetch]⟩

/-! ## The configuration -/

/-- C9: `Config.Validate` returns no error if and only if the kustomize section
is present with a path that is not empty and, when the helm section is
present, its chart and its output are not empty; a config with no helm section
is valid whenever the kustomize path is not empty; and no other field of the
helm section has a part in the result. -/
theorem validate_ok_iff (c : Config) :
    (c.Validate = .ok () ↔
      (∃ kustomize, c.Kustomize = some kustomize ∧ kustomize.Path ≠ "") ∧
      (∀ helm, c.Helm = some helm → helm.Chart ≠ "" ∧ helm.Output ≠ "")) ∧
    (c.Helm = none → ∀ kustomize, c.Kustomize = some kustomize → kustomize.Path ≠ "" →
      c.Validate = .ok ()) ∧
    (∀ helm helm' : HelmConfig, helm.Chart = helm'.Chart → helm.Output = helm'.Output →
      Config.Validate { c with Helm := some helm } =
        Config.Validate { c with Helm := some helm' }) := by
  refine ⟨?_, ?_, ?_⟩
  · obtain ⟨helm, kustomize⟩ := c
    cases kustomize with
    | none => simp [Config.Validate]
    | some k =>
      by_cases hp : k.Path = ""
      · simp [Config.Validate, hp]
      · cases helm with
        | none => simp [Config.Validate, hp]
        | some h =>
          by_cases hc : h.Chart = ""
          · simp [Config.Validate, hp, hc]
          · by_cases ho : h.Output = ""
            · simp [Config.Validate, hp, hc, ho]
            · simp [Config.Validate, hp, hc, ho]
  · intro hh k hk hp
    simp [Config.Validate, hh, hk, hp]
  · intro helm helm' hc ho
    simp only [Config.Validate, hc, ho]

/-! ## The chart renderer -/

theorem foldl_valueArgs (vs : List String) :
    ∀ args : List String,
      vs.foldl (fun args v => args ++ ["--values", v]) args = args ++ valueArgs vs := by
  induction vs with
  | nil => intro args; simp [valueArgs]
  | cons v rest ih =>
    intro args
    simp only [List.foldl, ih, valueArgs]
    simp

theorem append_ne_of_head {a b : String} (err : String) (c d : Char)
    (ha : a.data.head? = some c) (hb : b.data.head? = some d) (hcd : c ≠ d) :
    a ++ err ≠ b := by
  intro h
  have h' := congrArg (fun s => s.data.head?) h
  simp only [String.data_append] at h'
  cases hd : a.data with
  | nil => rw [hd] at ha; cases ha
  | cons x xs =>
    rw [hd] at ha h'
    simp only [List.cons_append, List.head?_cons, Option.some.injEq] at ha h'
    rw [hb] at h'
    simp only [Option.some.injEq] at h'
    exact hcd (ha ▸ h')

/-- C10: in `Renderer.Render` the release name is the config's `releaseName`
when that is not empty and the environment value `ARGOCD_APP_NAME` otherwise;
`Render` returns the "releaseName is required" error if and only if both are
empty, and then it has run nothing and written nothing; otherwise its first
effect is the run of `helm template` with that release name.  The namespace
falls back the same way to `ARGOCD_APP_NAMESPACE`; when it is empty from both
sources there is no error for it, and `helm` is run with no namespace
argument. -/
theorem render_release_name_required (getenv : String → String)
    (helm : List String → Except String (List UInt8)) (mkdirAll : String → Except String Unit)
    (writeFile : String → List UInt8 → Except String Unit) (cfg : HelmConfig)
    (templatedValues : List String) :
    ((cfg.ReleaseName = "" ∧ getenv "ARGOCD_APP_NAME" = "") ↔
      (Renderer.Render getenv helm mkdirAll writeFile cfg templatedValues).1 =
        some "releaseName is required (set in config or ARGOCD_APP_NAME env)") ∧
    ((cfg.ReleaseName = "" ∧ getenv "ARGOCD_APP_NAME" = "") →
      (Renderer.Render getenv helm mkdirAll writeFile cfg templatedValues).2 = []) ∧
    (¬ (cfg.ReleaseName = "" ∧ getenv "ARGOCD_APP_NAME" = "") →
      ∃ rest, (Renderer.Render getenv helm mkdirAll writeFile cfg templatedValues).2 =
        Effect.exec "helm"
          (["template",
              if cfg.ReleaseName = "" then getenv "ARGOCD_APP_NAME" else cfg.ReleaseName] ++
            chartArgs cfg ++
            (if (if cfg.Namespace = "" then getenv "ARGOCD_APP_NAMESPACE" else cfg.Namespace) = ""
              then []
              else ["--namespace",
                if cfg.Namespace = "" then getenv "ARGOCD_APP_NAMESPACE" else cfg.Namespace]) ++
            valueArgs templatedValues) :: rest) ∧
    (¬ (cfg.ReleaseName = "" ∧ getenv "ARGOCD_APP_NAME" = "") →
      cfg.Namespace = "" → getenv "ARGOCD_APP_NAMESPACE" = "" →
      ∃ rest, (Renderer.Render getenv helm mkdirAll writeFile cfg templatedValues).2 =
        Effect.exec "helm"
          (["template",
              if cfg.ReleaseName = "" then getenv "ARGOCD_APP_NAME" else cfg.ReleaseName] ++
            chartArgs cfg ++ valueArgs templatedValues) :: rest) := by
  have hargs : ∀ rel : String,
      templatedValues.foldl (fun args v => args ++ ["--values", v])
        (if (if cfg.Namespace = "" then getenv "ARGOCD_APP_NAMESPACE" else cfg.Namespace) ≠ ""
          then
            (if cfg.Repo ≠ "" then
              if cfg.Version ≠ "" then
                ["template", rel] ++ [cfg.Chart, "--repo", cfg.Repo] ++ ["--version", cfg.Version]
              else ["template", rel] ++ [cfg.Chart, "--repo", cfg.Repo]
            else ["template", rel] ++ [cfg.Chart]) ++
            ["--namespace",
              if cfg.Namespace = "" then getenv "ARGOCD_APP_NAMESPACE" else cfg.Namespace]
          else
            (if cfg.Repo ≠ "" then
              if cfg.Version ≠ "" then
                ["template", rel] ++ [cfg.Chart, "--repo", cfg.Repo] ++ ["--version", cfg.Version]
              else ["template", rel] ++ [cfg.Chart, "--repo", cfg.Repo]
            else ["template", rel] ++ [cfg.Chart])) =
      ["template", rel] ++ chartArgs cfg ++
        (if (if cfg.Namespace = "" then getenv "ARGOCD_APP_NAMESPACE" else cfg.Namespace) = ""
          then []
          else ["--namespace",
            if cfg.Namespace = "" then getenv "ARGOCD_APP_NAMESPACE" else cfg.Namespace]) ++
        valueArgs templatedValues := by
    intro rel
    rw [foldl_valueArgs]
    congr 1
    simp only [chartArgs]
    split_ifs <;> simp_all
  have hexec : ¬ (cfg.ReleaseName = "" ∧ getenv "ARGOCD_APP_NAME" = "") →
      (Renderer.Render getenv helm mkdirAll writeFile cfg templatedValues).1 ≠
        some "releaseName is required (set in config or ARGOCD_APP_NAME env)" ∧
      ∃ rest, (Renderer.Render getenv helm mkdirAll writeFile cfg templatedValues).2 =
        Effect.exec "helm"
          (["template",
              if cfg.ReleaseName = "" then getenv "ARGOCD_APP_NAME" else cfg.ReleaseName] ++
            chartArgs cfg ++
            (if (if cfg.Namespace = "" then getenv "ARGOCD_APP_NAMESPACE" else cfg.Namespace) = ""
              then []
              else ["--namespace",
                if cfg.Namespace = "" then getenv "ARGOCD_APP_NAMESPACE" else cfg.Namespace]) ++
            valueArgs templatedValues) :: rest := by
    intro hne
    have hrel : ¬ (if cfg.ReleaseName = "" then getenv "ARGOCD_APP_NAME" else cfg.ReleaseName) = "" := by
      intro h
      by_cases hr : cfg.ReleaseName = ""
      · rw [if_pos hr] at h
        exact hne ⟨hr, h⟩
      · rw [if_neg hr] at h
        exact hr h
    simp only [Renderer.Render, hrel, if_false, hargs]
    cases helm _ with
    | error err =>
      refine ⟨?_, _, rfl⟩
      simp only [ne_eq, Option.some.injEq]
      exact append_ne_of_head err 'h' 'r' rfl rfl (by decide)
    | ok output =>
      simp only []
      cases mkdirAll _ with
      | error err =>
        refine ⟨?_, _, rfl⟩
        simp only [ne_eq, Option.some.injEq]
        exact append_ne_of_head err 'c' 'r' rfl rfl (by decide)
      | ok _ =>
        simp only []
        cases writeFile _ _ with
        | error err =>
          refine ⟨?_, _, rfl⟩
          simp only [ne_eq, Option.some.injEq]
          exact append_ne_of_head err 'w' 'r' rfl rfl (by decide)
        | ok _ => exact ⟨by simp, _, rfl⟩
  have hempty : (cfg.ReleaseName = "" ∧ getenv "ARGOCD_APP_NAME" = "") →
      Renderer.Render getenv helm mkdirAll writeFile cfg templatedValues =
        (some "releaseName is required (set in config or ARGOCD_APP_NAME env)", []) := by
    intro h
    simp only [Renderer.Render, h.1, h.2, if_true]
  refine ⟨⟨fun h => by rw [hempty h], fun h => ?_⟩, fun h => by rw [hempty h],
    fun h => (hexec h).2, fun h hn he => ?_⟩
  · by_contra hne
    exact (hexec hne).1 h
  · obtain ⟨rest, hrest⟩ := (hexec h).2
    refine ⟨rest, ?_⟩
    rw [hrest]
    simp [hn, he]

/-! ## Evaluations -/

/-- The mapping that `RemoteTerraformState.Get` returns for `exampleState`: the
number output is a number, and so is the port that the text gives as the
string `"6443"`. -/
theorem get_exampleState :
    RemoteTerraformState.Get decimalLib (exampleJsonOf exampleState)
        (constFetcher (some [123])) "bucket/env/terraform.tfstate" =
      .ok [("cluster_id", .num 1), ("cluster_name", .str "hoba"),
        ("kubeconfig_data", .obj [("host", .str "172.16.12.200"), ("port", .num 6443)])] := by
  rfl

/-- A key of the form `<bucket>/<object-path>`: one request, with the bucket
and the whole path after it. -/
theorem s3_fetch_example :
    terraformS3Fetcher.Fetch (storeWithObject "bucket" "env/prod/terraform.tfstate" [123, 125])
        (fun body => .ok (some body)) "bucket/env/prod/terraform.tfstate" =
      (.ok (some [123, 125]), [("bucket", "env/prod/terraform.tfstate")]) := by
  rfl

/-- The key `bucket/`, with nothing after the separator: the client refuses the
empty object key, and no request is made, whatever the store holds. -/
theorem s3_fetch_empty_path_example :
    terraformS3Fetcher.Fetch (storeWithObject "bucket" "" [123, 125])
        (fun body => .ok (some body)) "bucket/" =
      (.error ("failed to fetch object bucket/: " ++ emptyKeyError), []) := by
  rfl

/-- A render with the release name from the environment and no namespace from
either source: `helm` runs with no namespace argument, and its output is
written to the output path. -/
theorem render_example :
    Renderer.Render (oneVar "ARGOCD_APP_NAME" "web") (fun _ => .ok [97]) (fun _ => .ok ())
        (fun _ _ => .ok ())
        { Chart := "/tmp/w/charts/web", Repo := "", Version := "", ReleaseName := "",
          Namespace := "", Values := ["values.yaml"], Output := "/tmp/w/out/helm.yaml" }
        ["values.yaml"] =
      (none, [.exec "helm" ["template", "web", "/tmp/w/charts/web", "--values", "values.yaml"],
        .mkdirAll "/tmp/w/out", .writeFile "/tmp/w/out/helm.yaml" [97]]) := by
  rfl

/-! ## The pipeline -/

theorem preprocessEntry_steps {σ V : Type} (h : Host σ V) (engine : Engine σ V)
    (entry : WalkEntry) (j : Job σ) : (preprocessEntry h engine entry j).2.steps = j.steps := by
  unfold preprocessEntry
  cases entry.err with
  | some err => rfl
  | none =>
    simp only []
    split
    · rfl
    · split
      · rfl
      · cases h.ReadFile entry.path j.exec.world with
        | error err => rfl
        | ok content =>
          simp only []
          rcases hr : engine.Render h.parse h.print entry.path (h.string content) j.exec with
            ⟨⟨rendered, err⟩, exec⟩
          cases err with
          | some err => rfl
          | none =>
            simp only []
            rcases hw : h.WriteFile entry.path (h.bytes rendered) exec.world with ⟨r, world⟩
            cases r with
            | error err => rfl
            | ok u => rfl

theorem walkDir_preprocess_steps {σ V : Type} (h : Host σ V) (engine : Engine σ V) :
    ∀ (entries : List WalkEntry) (skip : Option String) (j : Job σ),
      (walkDir (preprocessEntry h engine) entries skip j).2.steps = j.steps := by
  intro entries
  induction entries with
  | nil => intro skip j; rfl
  | cons entry rest ih =>
    intro skip j
    have hstep := preprocessEntry_steps h engine entry j
    rcases hp : preprocessEntry h engine entry j with ⟨a, j'⟩
    rw [hp] at hstep
    simp only at hstep
    cases skip with
    | none =>
      cases a with
      | next => simp only [walkDir, hp]; rw [ih]; exact hstep
      | skipDir => simp only [walkDir, hp]; rw [ih]; exact hstep
      | fail err => simp only [walkDir, hp]; exact hstep
    | some dir =>
      simp only [walkDir]
      split
      · exact ih _ _
      · cases a with
        | next => simp only [hp]; rw [ih]; exact hstep
        | skipDir => simp only [hp]; rw [ih]; exact hstep
        | fail err => simp only [hp]; exact hstep

theorem preprocessTemplates_steps {σ V : Type} (h : Host σ V) (engine : Engine σ V)
    (path : String) (j : Job σ) :
    (Builder.preprocessTemplates h engine path j).2.steps = j.steps :=
  walkDir_preprocess_steps h engine _ none j

/-- C11 (the claim as stated fails): with post-render enabled, a config with
only `kustomize.path` set, and an overlay whose plain file holds a template
action, `Pipeline.Run` succeeds and returns the expansion `zone: eu-1`, which
is not the raw output of the overlay build on the preprocessed directory. -/
theorem run_post_render_changes_output :
    (Pipeline.Run exampleHost (examplePipeline true) kustomizeOnly "/repo" "apps/app.yaml"
      { exec := { world := plainRepo, gets := [] }, steps := [] }).1 = .ok "zone: eu-1\n" ∧
    (Builder.Build exampleHost (Pipeline.engine exampleHost (examplePipeline true)
        "/tmp/argo-render-1") "/tmp/argo-render-1/overlays/prod"
      { exec := { world := plainWorkspace, gets := [] }, steps := [] }).1 =
      .ok "zone: @<< datasource \"file\" \"/zone.yaml\" >>@\n" :=
  ⟨rfl, rfl⟩

/-- C11 (amended): for every config with no helm section and a kustomize path
that is not empty, when `Pipeline.Run` succeeds the workspace was made, the
repository copied into it and the working directory changed; then the
templates of the resolved overlay directory were expanded, and then
`kustomize build` was run on that directory, in the world the expansion left.
The returned text is the raw output of that run when post-render is disabled,
and the expansion of that output by the engine when it is enabled.  The stages
entered are the overlay preprocessing, the overlay build and, when enabled,
the post-render, in this order: value files are not templated and the chart
renderer is not invoked, and the run is the same whatever the chart renderer
is. -/
theorem run_without_helm {σ V : Type} (h : Host σ V) (p : Pipeline σ V) (cfg : Config)
    (gitRoot appFileRel : String) (j : Job σ) (kustomize : KustomizeConfig) (output : String)
    (hhelm : cfg.Helm = none) (hkustomize : cfg.Kustomize = some kustomize)
    (_hpath : kustomize.Path ≠ "")
    (hrun : (Pipeline.Run h p cfg gitRoot appFileRel j).1 = .ok output) :
    ∃ (workDir : String) (w₀ w₁ w₂ w₃ : σ) (pre : Job σ) (raw : Bytes),
      h.MkdirTemp j.exec.world = (.ok workDir, w₀) ∧
      copyDir h gitRoot workDir w₀ = (none, w₁) ∧
      h.Chdir (filepath.Dir (filepath.Join workDir appFileRel)) w₁ = (.ok (), w₂) ∧
      Builder.preprocessTemplates h (Pipeline.engine h p workDir)
          (resolvePath kustomize.Path workDir)
          ((j.setWorld w₂).enter (.preprocessTemplates (resolvePath kustomize.Path workDir))) =
        (none, pre) ∧
      h.kustomize ["build", resolvePath kustomize.Path workDir] pre.exec.world = (.ok raw, w₃) ∧
      (p.enablePostRender = false →
        output = h.string raw ∧
        (Pipeline.Run h p cfg gitRoot appFileRel j).2.steps =
          j.steps ++ [.preprocessTemplates (resolvePath kustomize.Path workDir),
            .kustomizeBuild (resolvePath kustomize.Path workDir)]) ∧
      (p.enablePostRender = true →
        (∃ exec, (Pipeline.engine h p workDir).Render h.parse h.print "postrender"
            (h.string raw) { world := w₃, gets := pre.exec.gets } = ((output, none), exec)) ∧
        (Pipeline.Run h p cfg gitRoot appFileRel j).2.steps =
          j.steps ++ [.preprocessTemplates (resolvePath kustomize.Path workDir),
            .kustomizeBuild (resolvePath kustomize.Path workDir), .postRender]) ∧
      (∀ helmRenderer : HelmConfig → List String → σ → Option String × σ,
        Pipeline.Run h { p with helmRenderer := helmRenderer } cfg gitRoot appFileRel j =
          Pipeline.Run h p cfg gitRoot appFileRel j) := by
  have hindep : ∀ helmRenderer : HelmConfig → List String → σ → Option String × σ,
      Pipeline.Run h { p with helmRenderer := helmRenderer } cfg gitRoot appFileRel j =
        Pipeline.Run h p cfg gitRoot appFileRel j := by
    intro r
    simp only [Pipeline.Run, Pipeline.runIn, Pipeline.helmStage, hhelm, Pipeline.engine]
  rcases hm : h.MkdirTemp j.exec.world with ⟨rm, w₀⟩
  cases rm with
  | error err => simp [Pipeline.Run, hm] at hrun
  | ok workDir =>
    rcases hc : copyDir h gitRoot workDir w₀ with ⟨rc, w₁⟩
    cases rc with
    | some err =>
      simp [Pipeline.Run, hm, Pipeline.runIn, Job.setWorld, hc] at hrun
    | none =>
      rcases hd : h.Chdir (filepath.Dir (filepath.Join workDir appFileRel)) w₁ with ⟨rd, w₂⟩
      cases rd with
      | error err =>
        simp [Pipeline.Run, hm, Pipeline.runIn, Job.setWorld, hc, hd] at hrun
      | ok u =>
        rcases hp : Builder.preprocessTemplates h (Pipeline.engine h p workDir)
            (resolvePath kustomize.Path workDir)
            ((j.setWorld w₂).enter (.preprocessTemplates (resolvePath kustomize.Path workDir)))
          with ⟨rp, pre⟩
        have hsteps : pre.steps =
            j.steps ++ [.preprocessTemplates (resolvePath kustomize.Path workDir)] := by
          have := preprocessTemplates_steps h (Pipeline.engine h p workDir)
            (resolvePath kustomize.Path workDir)
            ((j.setWorld w₂).enter (.preprocessTemplates (resolvePath kustomize.Path workDir)))
          rw [hp] at this
          simpa [Job.enter, Job.setWorld] using this
        cases rp with
        | some err =>
          simp [Pipeline.Run, hm, Pipeline.runIn, Job.setWorld, hc, hd, Pipeline.helmStage,
            hhelm, hkustomize, Builder.Build, Job.enter] at hrun
          simp [Job.setWorld, Job.enter] at hp
          simp [hp] at hrun
        | none =>
          rcases hk : h.kustomize ["build", resolvePath kustomize.Path workDir] pre.exec.world
            with ⟨rk, w₃⟩
          have hbuild : Builder.Build h (Pipeline.engine h p workDir)
              (resolvePath kustomize.Path workDir) (j.setWorld w₂) =
              (match rk with
                | .error err =>
                  (.error ("kustomize build: " ++ err),
                    (pre.enter (.kustomizeBuild (resolvePath kustomize.Path workDir))).setWorld w₃)
                | .ok out =>
                  (.ok (h.string out),
                    (pre.enter (.kustomizeBuild (resolvePath kustomize.Path workDir))).setWorld
                      w₃)) := by
            simp only [Builder.Build, hp, hk]
            cases rk <;> rfl
          have hrunIn : Pipeline.runIn h p cfg gitRoot appFileRel workDir (j.setWorld w₀) =
              (match Builder.Build h (Pipeline.engine h p workDir)
                  (resolvePath kustomize.Path workDir) (j.setWorld w₂) with
                | (.error err, j) => (.error ("kustomize build: " ++ err), j)
                | (.ok output, j) =>
                  if p.enablePostRender then
                    match Pipeline.postRender h (Pipeline.engine h p workDir) output j with
                    | ((_, some err), j) => (.error ("post render: " ++ err), j)
                    | ((output, none), j) => (.ok output, j)
                  else (.ok output, j)) := by
            simp only [Pipeline.runIn, Job.setWorld, hc, hd, Pipeline.helmStage, hhelm,
              hkustomize]
          cases rk with
          | error err =>
            simp [Pipeline.Run, hm, hrunIn, hbuild] at hrun
          | ok raw =>
            simp only [] at hbuild
            refine ⟨workDir, w₀, w₁, w₂, w₃, pre, raw, rfl, hc, hd, hp, hk, ?_, ?_, hindep⟩
            · intro hpost
              simp only [Pipeline.Run, hm, hrunIn, hbuild, hpost] at hrun ⊢
              simp only [Bool.false_eq_true, if_false, Outcome.ok.injEq] at hrun ⊢
              refine ⟨hrun.symm, ?_⟩
              simp [Job.setWorld, Job.enter, hsteps]
            · intro hpost
              simp only [Pipeline.Run, hm, hrunIn, hbuild, hpost, if_true] at hrun ⊢
              simp only [Pipeline.postRender, Job.enter, Job.setWorld] at hrun ⊢
              rcases hr : (Pipeline.engine h p workDir).Render h.parse h.print "postrender"
                  (h.string raw) { world := w₃, gets := pre.exec.gets } with ⟨⟨out, err⟩, exec⟩
              rw [hr] at hrun
              cases err with
              | some err => simp at hrun
              | none =>
                simp only [Outcome.ok.injEq] at hrun
                subst hrun
                refine ⟨⟨exec, rfl⟩, ?_⟩
                simp [hr, hsteps]

/-- C11 (amended) at the repository `exampleRepo`, whose overlay holds one
template file, with post-render disabled: the hypotheses hold, the run returns
the text that `kustomize build` prints for the expanded overlay, and the stages
entered are the overlay preprocessing and then the overlay build. -/
theorem run_without_helm_witness :
    (Pipeline.Run exampleHost (examplePipeline false) kustomizeOnly "/repo" "apps/app.yaml"
      { exec := { world := exampleRepo, gets := [] }, steps := [] }).1 = .ok "zone: eu-1\n" ∧
    ∃ (workDir : String) (w₀ w₁ w₂ w₃ : List (String × String))
      (pre : Job (List (String × String))) (raw : Bytes),
      exampleHost.MkdirTemp exampleRepo = (.ok workDir, w₀) ∧
      copyDir exampleHost "/repo" workDir w₀ = (none, w₁) ∧
      exampleHost.Chdir (filepath.Dir (filepath.Join workDir "apps/app.yaml")) w₁ =
        (.ok (), w₂) ∧
      Builder.preprocessTemplates exampleHost
          (Pipeline.engine exampleHost (examplePipeline false) workDir)
          (resolvePath "/overlays/prod" workDir)
          ((Job.setWorld { exec := { world := exampleRepo, gets := [] }, steps := [] } w₂).enter
            (.preprocessTemplates (resolvePath "/overlays/prod" workDir))) =
        (none, pre) ∧
      exampleHost.kustomize ["build", resolvePath "/overlays/prod" workDir] pre.exec.world =
        (.ok raw, w₃) ∧
      ((examplePipeline false).enablePostRender = false →
        "zone: eu-1\n" = exampleHost.string raw ∧
        (Pipeline.Run exampleHost (examplePipeline false) kustomizeOnly "/repo" "apps/app.yaml"
          { exec := { world := exampleRepo, gets := [] }, steps := [] }).2.steps =
          [] ++ [.preprocessTemplates (resolvePath "/overlays/prod" workDir),
            .kustomizeBuild (resolvePath "/overlays/prod" workDir)]) ∧
      ((examplePipeline false).enablePostRender = true →
        (∃ exec, (Pipeline.engine exampleHost (examplePipeline false) workDir).Render
            exampleHost.parse exampleHost.print "postrender" (exampleHost.string raw)
            { world := w₃, gets := pre.exec.gets } = (("zone: eu-1\n", none), exec)) ∧
        (Pipeline.Run exampleHost (examplePipeline false) kustomizeOnly "/repo" "apps/app.yaml"
          { exec := { world := exampleRepo, gets := [] }, steps := [] }).2.steps =
          [] ++ [.preprocessTemplates (resolvePath "/overlays/prod" workDir),
            .kustomizeBuild (resolvePath "/overlays/prod" workDir), .postRender]) ∧
      (∀ helmRenderer : HelmConfig → List String → List (String × String) →
          Option String × List (String × String),
        Pipeline.Run exampleHost { examplePipeline false with helmRenderer := helmRenderer }
            kustomizeOnly "/repo" "apps/app.yaml"
            { exec := { world := exampleRepo, gets := [] }, steps := [] } =
          Pipeline.Run exampleHost (examplePipeline false) kustomizeOnly "/repo" "apps/app.yaml"
            { exec := { world := exampleRepo, gets := [] }, steps := [] }) :=
  ⟨rfl, run_without_helm exampleHost (examplePipeline false) kustomizeOnly "/repo" "apps/app.yaml"
    { exec := { world := exampleRepo, gets := [] }, steps := [] } { Path := "/overlays/prod" }
    "zone: eu-1\n" rfl rfl (by decide) rfl⟩

/-- The run of C11's witness in full: the text returned, and the record of the
datasource call and of the stages; the workspace is removed at the end. -/
theorem run_exampleRepo :
    Pipeline.Run exampleHost (examplePipeline false) kustomizeOnly "/repo" "apps/app.yaml"
        { exec := { world := exampleRepo, gets := [] }, steps := [] } =
      (.ok "zone: eu-1\n",
        { exec := { world := exampleRepo, gets := [("file", "/zone.yaml")] },
          steps := [.preprocessTemplates "/tmp/argo-render-1/overlays/prod",
            .kustomizeBuild "/tmp/argo-render-1/overlays/prod"] }) := by
  rfl

end ArgoRender
